import Mathlib

/-!
# ttLib_wx: the UTF-8 / UTF-16 codec and the case-aware search of `ttlib_wx.cpp`

A shallow embedding of `src/src/ttlib_wx.cpp` and `src/src/ttlib_wx.h`.

Conventions of the embedding.

* A `std::string_view` is the list of its bytes, every `char` being represented by its
  byte value `0 .. 255` (the expressions of the source that promote a `char` to `int`
  are all masked afterwards, so the result does not depend on the signedness of `char`).
* A `std::wstring_view` is the list of its `wchar_t` values.
* `size_t` is 64 bits wide and `unsigned`/`uint32_t` are 32 bits wide.
* A `for` loop over positions is a function recursive on a fuel counter; a read of the
  string at a position is a bounds-checked lookup, so that a read outside the string is
  visible in the result.
-/

/-- Result of running a piece of the program: it returns a value, or it reads outside a
string (undefined behaviour for `operator[]`, `std::out_of_range` thrown by `at`), or the
fuel given to a loop ran out before the loop was left. -/
inductive Run (α : Type) where
  | ret (a : α)
  | out_of_range
  | out_of_fuel
  deriving DecidableEq, Repr

/-- Apply a function to the value a run returns. -/
def Run.map {α β : Type} (f : α → β) : Run α → Run β
  | Run.ret a => Run.ret (f a)
  | Run.out_of_range => Run.out_of_range
  | Run.out_of_fuel => Run.out_of_fuel

/-- Run a second piece of the program on the value the first one returns. -/
def Run.bind {α β : Type} (r : Run α) (f : α → Run β) : Run β :=
  match r with
  | Run.ret a => f a
  | Run.out_of_range => Run.out_of_range
  | Run.out_of_fuel => Run.out_of_fuel

namespace tt

/-- The constant `constexpr size_t npos = static_cast<size_t>(-1)`. -/
def npos : Nat := 18446744073709551615

/-- The type `enum class CASE : size_t`. -/
inductive CASE where
  | exact
  | either
  | utf8
  deriving DecidableEq, Repr

end tt

namespace ttlib

/-- The macro `#define UINT8(ch) static_cast<uint8_t>(ch)`. -/
def UINT8 (ch : Nat) : Nat := ch % 256

/-- The macro `#define CHAR8(ch) static_cast<char>(ch)`, as a byte value. -/
def CHAR8 (ch : Nat) : Nat := ch % 256

/-- The macro `#define CHAR16(ch) static_cast<char16_t>(ch)`. -/
def CHAR16 (ch : Nat) : Nat := ch % 65536

/-- Arithmetic of `uint32_t` wraps modulo `2^32`. -/
def u32 (x : Nat) : Nat := x % 4294967296

/-- The `if (val < 0x80) ... else if (val < 0x800) ... else if (val < 0x10000) ... else ...`
chain of `utf16to8`: the bytes pushed on `dest` for the value `val`. -/
def utf16to8_push (val : Nat) : List Nat :=
  if val < 0x80 then
    [CHAR8 val]
  else if val < 0x800 then
    [CHAR8 ((val >>> 6) ||| 0xC0), CHAR8 ((val &&& 0x3f) ||| 0x80)]
  else if val < 0x10000 then
    [CHAR8 ((val >>> 12) ||| 0xE0), CHAR8 (((val >>> 6) &&& 0x3F) ||| 0x80),
      CHAR8 ((val &&& 0x3f) ||| 0x80)]
  else
    [CHAR8 ((val >>> 18) ||| 0xF0), CHAR8 (((val >>> 12) &&& 0x3F) ||| 0x80),
      CHAR8 (((val >>> 6) &&& 0x3F) ||| 0x80), CHAR8 ((val &&& 0x3f) ||| 0x80)]

/-- The statement `val = (val << 10) + (str[++pos] & 0xFFFF) + 0xFCA02400;` of `utf16to8`,
in `uint32_t` arithmetic: `val` is the high surrogate, `next` the unit read at `++pos`. -/
def utf16to8_combine (val next : Nat) : Nat :=
  u32 (u32 (u32 (val <<< 10) + (next &&& 0xFFFF)) + 0xFCA02400)

/-- The loop `for (size_t pos = 0; pos < str.size(); ++pos)` of
`void ttlib::utf16to8(std::wstring_view str, std::string& dest)`, started at `pos` with
`dest` as built so far. -/
def utf16to8_loop (str : List Nat) : Nat → Nat → List Nat → Run (List Nat)
  | 0, _, _ => Run.out_of_fuel
  | fuel + 1, pos, dest =>
    if pos < str.length then
      match str[pos]? with
      | none => Run.out_of_range
      | some c =>
        let val := c &&& 0xFFFF
        if 0xD800 ≤ val ∧ val ≤ 0xDBFF then
          match str[pos + 1]? with
          | none => Run.out_of_range
          | some next =>
            utf16to8_loop str fuel (pos + 1 + 1) (dest ++ utf16to8_push (utf16to8_combine val next))
        else
          utf16to8_loop str fuel (pos + 1) (dest ++ utf16to8_push val)
    else
      Run.ret dest

/-- The function `void ttlib::utf16to8(std::wstring_view str, std::string& dest)`: the new value of
`dest`. Every iteration advances `pos`, so `str.length + 1` loop tests are enough. -/
def utf16to8_dest (str : List Nat) (dest : List Nat) : Run (List Nat) :=
  utf16to8_loop str (str.length + 1) 0 dest

/-- The function `std::string ttlib::utf16to8(std::wstring_view str)`. -/
def utf16to8 (str : List Nat) : Run (List Nat) :=
  utf16to8_dest str []

/-- State of `utf8to16`: the destination string and whether every condition given to
`assertm(..., "Invalid UTF8 string")` so far was true. -/
structure Utf16Dest where
  dest : List Nat
  asserts_hold : Bool
  deriving DecidableEq, Repr

/-- The tail of the loop body of `utf8to16`: `if (val > 0xFFFF) ... else ...`, the units
pushed on `dest` for the value `val`. -/
def utf8to16_push (val : Nat) : List Nat :=
  if val > 0xFFFF then
    [CHAR16 ((val >>> 10) + 0xD7C0), CHAR16 ((val &&& 0x3FF) + 0xDC00)]
  else
    [CHAR16 val]

/-- Two-byte case: `val = ((val << 6) & 0x7FF) + (str[++pos] & 0x3F);`. -/
def utf8to16_val2 (val c1 : Nat) : Nat :=
  u32 ((u32 (val <<< 6) &&& 0x7FF) + (c1 &&& 0x3F))

/-- Three-byte case: `val = ((val << 12) & 0xFFFF) + ((str[++pos] << 6) & 0xFFF);`
followed by `val += (str[++pos] & 0x3F);`. -/
def utf8to16_val3 (val c1 c2 : Nat) : Nat :=
  u32 (u32 ((u32 (val <<< 12) &&& 0xFFFF) + ((c1 <<< 6) &&& 0xFFF)) + (c2 &&& 0x3F))

/-- Four-byte case: `val = ((val << 18) & 0x1FFFFF) + ((str[++pos] << 12) & 0x3FFFF);`
followed by `val += (str[++pos] << 6) & 0xFFF;` and `val += (str[++pos] & 0x3F);`. -/
def utf8to16_val4 (val c1 c2 c3 : Nat) : Nat :=
  u32 (u32 (u32 ((u32 (val <<< 18) &&& 0x1FFFFF) + ((c1 <<< 12) &&& 0x3FFFF))
    + ((c2 <<< 6) &&& 0xFFF)) + (c3 &&& 0x3F))

/-- The loop `for (size_t pos = 0; pos < str.length(); ++pos)` of
`void ttlib::utf8to16(std::string_view str, std::wstring& dest)`, started at `pos` in the
state `st`. An `assertm` whose condition is false clears `asserts_hold` and execution goes
on, as it does when `NDEBUG` is defined. -/
def utf8to16_loop (str : List Nat) : Nat → Nat → Utf16Dest → Run Utf16Dest
  | 0, _, _ => Run.out_of_fuel
  | fuel + 1, pos, st =>
    if pos < str.length then
      match str[pos]? with
      | none => Run.out_of_range
      | some c =>
        if UINT8 c < 0x80 then
          utf8to16_loop str fuel (pos + 1) ⟨st.dest ++ [CHAR16 c], st.asserts_hold⟩
        else
          let val := c &&& 0xFF
          if UINT8 c >>> 5 = 6 then
            if pos + 1 < str.length then
              match str[pos + 1]? with
              | none => Run.out_of_range
              | some c1 =>
                utf8to16_loop str fuel (pos + 1 + 1)
                  ⟨st.dest ++ utf8to16_push (utf8to16_val2 val c1), st.asserts_hold⟩
            else
              utf8to16_loop str fuel (pos + 1) ⟨st.dest ++ utf8to16_push val, false⟩
          else if UINT8 c >>> 4 = 14 then
            if pos + 2 < str.length then
              match str[pos + 1]?, str[pos + 2]? with
              | some c1, some c2 =>
                utf8to16_loop str fuel (pos + 2 + 1)
                  ⟨st.dest ++ utf8to16_push (utf8to16_val3 val c1 c2), st.asserts_hold⟩
              | _, _ => Run.out_of_range
            else
              utf8to16_loop str fuel (pos + 1) ⟨st.dest ++ utf8to16_push val, false⟩
          else if UINT8 c >>> 3 = 30 then
            if pos + 3 < str.length then
              match str[pos + 1]?, str[pos + 2]?, str[pos + 3]? with
              | some c1, some c2, some c3 =>
                utf8to16_loop str fuel (pos + 3 + 1)
                  ⟨st.dest ++ utf8to16_push (utf8to16_val4 val c1 c2 c3), st.asserts_hold⟩
              | _, _, _ => Run.out_of_range
            else
              utf8to16_loop str fuel (pos + 1) ⟨st.dest ++ utf8to16_push val, false⟩
          else
            utf8to16_loop str fuel (pos + 1)
              ⟨st.dest ++ utf8to16_push val, st.asserts_hold && decide (c ≠ 0)⟩
    else
      Run.ret st

/-- The function `void ttlib::utf8to16(std::string_view str, std::wstring& dest)`: the new value of
`dest` and whether the assertions held. Every iteration advances `pos`, so
`str.length + 1` loop tests are enough. -/
def utf8to16_dest (str : List Nat) (dest : List Nat) : Run Utf16Dest :=
  utf8to16_loop str (str.length + 1) 0 ⟨dest, true⟩

/-- The function `std::wstring ttlib::utf8to16(std::string_view str)`. -/
def utf8to16 (str : List Nat) : Run Utf16Dest :=
  utf8to16_dest str []

/-- The function `std::tolower(int)` of `<cctype>` in the "C" locale, on a `char` given by
its byte value: the upper-case letters `A .. Z` go to `a .. z`, every other value is
unchanged. It instantiates the `tolower` parameter of the search functions in examples. -/
def c_tolower (ch : Nat) : Int :=
  if 0x41 ≤ ch ∧ ch ≤ 0x5A then (ch : Int) + 0x20 else (ch : Int)

/-- Search of `std::string_view::find` from position `pos`, where `rest` is what is left
of the string at `pos`. -/
def string_view_find_at (sub : List Nat) : List Nat → Nat → Nat
  | [], pos => if sub = [] then pos else tt.npos
  | c :: rest, pos =>
    if (c :: rest).take sub.length = sub then pos else string_view_find_at sub rest (pos + 1)

/-- The call `main.find(sub)` of `std::string_view`, as the C++ standard defines it: the lowest
position `xpos` such that `xpos + sub.size() <= main.size()` and
`main.at(xpos + I) == sub.at(I)` for every element `I` of `sub`; `npos` when there is no
such position. -/
def string_view_find (main sub : List Nat) : Nat :=
  string_view_find_at sub main 0

/-- The inner loop `for (posSub = 1; posSub < sub.length(); ++posSub)` of `find_str`,
started at `posSub`: `none` when it leaves the function by `return {}`, otherwise the
value of `posSub` when the loop is left by `break` or by its test. -/
def find_str_inner (tolower : Nat → Int) (main sub : List Nat) (pos : Nat) :
    Nat → Nat → Run (Option Nat)
  | 0, _ => Run.out_of_fuel
  | fuel + 1, posSub =>
    if posSub < sub.length then
      if pos + posSub ≥ main.length then
        Run.ret none
      else
        match main[pos + posSub]?, sub[posSub]? with
        | some m, some s =>
          if tolower m ≠ tolower s then
            Run.ret (some posSub)
          else
            find_str_inner tolower main sub pos fuel (posSub + 1)
        | _, _ => Run.out_of_range
    else
      Run.ret (some posSub)

/-- The loop `for (auto pos = 0U; pos < main.length(); ++pos)` of `find_str`, started at
`pos`. The counter is an `unsigned int`: `++pos` wraps modulo `2^32`, while
`main.length()` is a 64-bit `size_t`. The inner loop tests its condition at most
`sub.length` times. -/
def find_str_loop (tolower : Nat → Int) (main sub : List Nat) (chLower : Int) :
    Nat → Nat → Run (List Nat)
  | 0, _ => Run.out_of_fuel
  | fuel + 1, pos =>
    if pos < main.length then
      match main[pos]? with
      | none => Run.out_of_range
      | some m =>
        if tolower m = chLower then
          match find_str_inner tolower main sub pos sub.length 1 with
          | Run.ret none => Run.ret []
          | Run.ret (some posSub) =>
            if posSub ≥ sub.length then
              Run.ret (main.drop pos)
            else
              find_str_loop tolower main sub chLower fuel (u32 (pos + 1))
          | Run.out_of_range => Run.out_of_range
          | Run.out_of_fuel => Run.out_of_fuel
        else
          find_str_loop tolower main sub chLower fuel (u32 (pos + 1))
    else
      Run.ret []

/-- The function `std::string_view ttlib::find_str(std::string_view main, std::string_view sub,
CASE checkcase)`: the bytes of the view returned, empty for `return {}`. `tolower` is
`std::tolower` of the current locale; `fuel` bounds the number of tests of the outer
loop. -/
def find_str (tolower : Nat → Int) (fuel : Nat) (main sub : List Nat) (checkcase : tt.CASE) :
    Run (List Nat) :=
  if sub.isEmpty then
    Run.ret []
  else if checkcase = tt.CASE.exact then
    let pos := string_view_find main sub
    if pos < main.length then Run.ret (main.drop pos) else Run.ret []
  else
    match sub[0]? with
    | none => Run.out_of_range
    | some s0 => find_str_loop tolower main sub (tolower s0) fuel 0

/-- The function `size_t ttlib::findstr_pos(std::string_view main, std::string_view sub,
CASE checkcase)`. -/
def findstr_pos (tolower : Nat → Int) (fuel : Nat) (main sub : List Nat)
    (checkcase : tt.CASE) : Run Nat :=
  (find_str tolower fuel main sub checkcase).map
    (fun view => if view.isEmpty then tt.npos else main.length - view.length)

/-- The function `bool ttlib::contains(std::string_view main, std::string_view sub, CASE checkcase)`. -/
def contains (tolower : Nat → Int) (fuel : Nat) (main sub : List Nat) (checkcase : tt.CASE) :
    Run Bool :=
  (find_str tolower fuel main sub checkcase).map (fun view => !view.isEmpty)

/-- Suffix form of `utf16to8_loop`: what the loop appends to `dest` when it stands at the
head of `str`; `none` when it reads the unit after a high surrogate that ends the string. -/
def utf16to8_list : List Nat → Option (List Nat)
  | [] => some []
  | c :: rest =>
    if 0xD800 ≤ c &&& 0xFFFF ∧ c &&& 0xFFFF ≤ 0xDBFF then
      match rest with
      | [] => none
      | next :: rest2 =>
        (utf16to8_list rest2).map (fun out => utf16to8_push (utf16to8_combine (c &&& 0xFFFF) next) ++ out)
    else
      (utf16to8_list rest).map (fun out => utf16to8_push (c &&& 0xFFFF) ++ out)

/-- Effect of one iteration of the loop of `utf8to16`: the units pushed on `dest`, whether
the condition of the `assertm` it evaluated (if any) was true, and how many bytes after
the first one it consumed. -/
structure Utf8Iteration where
  units : List Nat
  holds : Bool
  extra : Nat
  deriving DecidableEq, Repr

/-- One iteration of the loop of `utf8to16` at a position whose byte is `c` and where
`rest` is what follows in the string. -/
def utf8to16_iteration (c : Nat) (rest : List Nat) : Utf8Iteration :=
  if UINT8 c < 0x80 then
    ⟨[CHAR16 c], true, 0⟩
  else if UINT8 c >>> 5 = 6 then
    match rest with
    | c1 :: _ => ⟨utf8to16_push (utf8to16_val2 (c &&& 0xFF) c1), true, 1⟩
    | _ => ⟨utf8to16_push (c &&& 0xFF), false, 0⟩
  else if UINT8 c >>> 4 = 14 then
    match rest with
    | c1 :: c2 :: _ => ⟨utf8to16_push (utf8to16_val3 (c &&& 0xFF) c1 c2), true, 2⟩
    | _ => ⟨utf8to16_push (c &&& 0xFF), false, 0⟩
  else if UINT8 c >>> 3 = 30 then
    match rest with
    | c1 :: c2 :: c3 :: _ => ⟨utf8to16_push (utf8to16_val4 (c &&& 0xFF) c1 c2 c3), true, 3⟩
    | _ => ⟨utf8to16_push (c &&& 0xFF), false, 0⟩
  else
    ⟨utf8to16_push (c &&& 0xFF), decide (c ≠ 0), 0⟩

/-- Suffix form of `utf8to16_loop`: what the loop appends to `dest`, and whether its
assertions hold, when it stands at the head of `str`. -/
def utf8to16_list (str : List Nat) : Utf16Dest :=
  match str with
  | [] => ⟨[], true⟩
  | c :: rest =>
    let r := utf8to16_list (rest.drop (utf8to16_iteration c rest).extra)
    ⟨(utf8to16_iteration c rest).units ++ r.dest, (utf8to16_iteration c rest).holds && r.asserts_hold⟩
termination_by str.length
decreasing_by simp only [List.length_drop, List.length_cons]; omega

/-- The standard UTF-8 encoding of a code point: 1 to 4 bytes by the thresholds `0x80`,
`0x800`, `0x10000`, with the lead-byte tags `0xC0`, `0xE0`, `0xF0` and continuation
bytes `0x80 | (bits & 0x3F)`. -/
def utf8_encode (cp : Nat) : List Nat :=
  if cp < 0x80 then
    [cp]
  else if cp < 0x800 then
    [0xC0 ||| (cp >>> 6), 0x80 ||| (cp &&& 0x3F)]
  else if cp < 0x10000 then
    [0xE0 ||| (cp >>> 12), 0x80 ||| ((cp >>> 6) &&& 0x3F), 0x80 ||| (cp &&& 0x3F)]
  else
    [0xF0 ||| (cp >>> 18), 0x80 ||| ((cp >>> 12) &&& 0x3F), 0x80 ||| ((cp >>> 6) &&& 0x3F),
      0x80 ||| (cp &&& 0x3F)]

/-- The standard UTF-16 encoding of a code point: itself up to `0xFFFF`, otherwise the
surrogate pair `(cp >> 10) + 0xD7C0`, `(cp & 0x3FF) + 0xDC00`. -/
def utf16_encode (cp : Nat) : List Nat :=
  if cp ≤ 0xFFFF then [cp] else [(cp >>> 10) + 0xD7C0, (cp &&& 0x3FF) + 0xDC00]

/-- The standard code point of a surrogate pair. -/
def surrogate_code_point (hi lo : Nat) : Nat :=
  0x10000 + ((hi - 0xD800) <<< 10) + (lo - 0xDC00)

/-- A continuation byte `10xxxxxx`. -/
abbrev IsContinuation (b : Nat) : Prop := 0x80 ≤ b ∧ b ≤ 0xBF

/-- Valid UTF-8 (Unicode, table of well-formed UTF-8 byte sequences): a concatenation of
well-formed sequences, in shortest form (no lead byte `C0`, `C1`, no `E0 80..9F`, no
`F0 80..8F`), encoding no surrogate (no `ED A0..BF`) and no code point above `0x10FFFF`
(no `F4 90..BF`, no lead byte above `F4`). -/
inductive ValidUtf8 : List Nat → Prop where
  | nil : ValidUtf8 []
  | one (b0 : Nat) (rest : List Nat) : b0 < 0x80 → ValidUtf8 rest → ValidUtf8 (b0 :: rest)
  | two (b0 b1 : Nat) (rest : List Nat) : 0xC2 ≤ b0 → b0 ≤ 0xDF → IsContinuation b1 →
      ValidUtf8 rest → ValidUtf8 (b0 :: b1 :: rest)
  | three (b0 b1 b2 : Nat) (rest : List Nat) : 0xE0 ≤ b0 → b0 ≤ 0xEF → IsContinuation b1 →
      IsContinuation b2 → (b0 = 0xE0 → 0xA0 ≤ b1) → (b0 = 0xED → b1 ≤ 0x9F) →
      ValidUtf8 rest → ValidUtf8 (b0 :: b1 :: b2 :: rest)
  | four (b0 b1 b2 b3 : Nat) (rest : List Nat) : 0xF0 ≤ b0 → b0 ≤ 0xF4 → IsContinuation b1 →
      IsContinuation b2 → IsContinuation b3 → (b0 = 0xF0 → 0x90 ≤ b1) →
      (b0 = 0xF4 → b1 ≤ 0x8F) → ValidUtf8 rest → ValidUtf8 (b0 :: b1 :: b2 :: b3 :: rest)

/-- UTF-16 with well-formed surrogate pairs: every unit is a 16-bit value, each high
surrogate is immediately followed by a low surrogate, and no low surrogate stands
alone. -/
inductive WellFormedUtf16 : List Nat → Prop where
  | nil : WellFormedUtf16 []
  | unit (v : Nat) (rest : List Nat) : v < 0x10000 → ¬(0xD800 ≤ v ∧ v ≤ 0xDFFF) →
      WellFormedUtf16 rest → WellFormedUtf16 (v :: rest)
  | pair (hi lo : Nat) (rest : List Nat) : 0xD800 ≤ hi → hi ≤ 0xDBFF → 0xDC00 ≤ lo →
      lo ≤ 0xDFFF → WellFormedUtf16 rest → WellFormedUtf16 (hi :: lo :: rest)

/-- The code points of a UTF-16 sequence: a high surrogate followed by a low surrogate is
one code point, every other unit is the code point itself. -/
def utf16_code_points : List Nat → List Nat
  | [] => []
  | [v] => [v]
  | hi :: lo :: rest =>
    if (0xD800 ≤ hi ∧ hi ≤ 0xDBFF) ∧ (0xDC00 ≤ lo ∧ lo ≤ 0xDFFF) then
      surrogate_code_point hi lo :: utf16_code_points rest
    else
      hi :: utf16_code_points (lo :: rest)

/-- A Unicode scalar value: a code point up to `0x10FFFF` that is not a surrogate. -/
abbrev IsScalarValue (cp : Nat) : Prop := cp ≤ 0x10FFFF ∧ ¬(0xD800 ≤ cp ∧ cp ≤ 0xDFFF)

/-- The concatenation, in order, of the standard UTF-8 encodings of code points. -/
def utf8_encode_all : List Nat → List Nat
  | [] => []
  | cp :: cps => utf8_encode cp ++ utf8_encode_all cps

/-- The loop of `utf8to16` on `str` starts an iteration with `suf` as what is left of the
input: the head of `suf` is then read in lead position. -/
inductive Utf8LeadAt (str : List Nat) : List Nat → Prop where
  | start : Utf8LeadAt str str
  | next (c : Nat) (rest : List Nat) : Utf8LeadAt str (c :: rest) →
      Utf8LeadAt str (rest.drop (utf8to16_iteration c rest).extra)

/-- A byte sequence cut into complete sequences by its lead bytes alone: a byte below
`0xC0` or above `0xF7` stands by itself, a byte `0xC0 .. 0xDF` is followed by one more
byte, a byte `0xE0 .. 0xEF` by two and a byte `0xF0 .. 0xF7` by three, whatever the values
of the bytes that follow a lead byte. -/
inductive Utf8Framed : List Nat → Prop where
  | nil : Utf8Framed []
  | one (b0 : Nat) (rest : List Nat) : b0 < 0xC0 ∨ (0xF7 < b0 ∧ b0 ≤ 0xFF) →
      Utf8Framed rest → Utf8Framed (b0 :: rest)
  | two (b0 b1 : Nat) (rest : List Nat) : 0xC0 ≤ b0 → b0 ≤ 0xDF →
      Utf8Framed rest → Utf8Framed (b0 :: b1 :: rest)
  | three (b0 b1 b2 : Nat) (rest : List Nat) : 0xE0 ≤ b0 → b0 ≤ 0xEF →
      Utf8Framed rest → Utf8Framed (b0 :: b1 :: b2 :: rest)
  | four (b0 b1 b2 b3 : Nat) (rest : List Nat) : 0xF0 ≤ b0 → b0 ≤ 0xF7 →
      Utf8Framed rest → Utf8Framed (b0 :: b1 :: b2 :: b3 :: rest)

/-- The `sub.length` bytes of `main` starting at index `i` equal `sub`. -/
def OccursAt (main sub : List Nat) (i : Nat) : Prop :=
  (main.drop i).take sub.length = sub

instance (main sub : List Nat) (i : Nat) : Decidable (OccursAt main sub i) := by
  unfold OccursAt; infer_instance

/-- Case-folded occurrence: `i + |sub| ≤ |main|` and `tolower(main[i + k]) = tolower(sub[k])`
for every `k < |sub|`. -/
def FoldOccursAt (tolower : Nat → Int) (main sub : List Nat) (i : Nat) : Prop :=
  i + sub.length ≤ main.length ∧
    ∀ k, k < sub.length → tolower (main.getD (i + k) 0) = tolower (sub.getD k 0)

instance (tolower : Nat → Int) (main sub : List Nat) (i : Nat) :
    Decidable (FoldOccursAt tolower main sub i) := by
  unfold FoldOccursAt; infer_instance

/-- The function `std::isspace(int)` of `<cctype>` in the "C" locale, on a character given
by its `unsigned char` value (C standard, 7.4.1.10): nonzero exactly for the standard
white-space characters space, form feed, new-line, carriage return, horizontal tab and
vertical tab. It instantiates the `isspace` parameter of the whitespace functions. -/
def c_isspace (ch : Nat) : Int :=
  if ch = 0x20 ∨ ch = 0x0C ∨ ch = 0x0A ∨ ch = 0x0D ∨ ch = 0x09 ∨ ch = 0x0B then 1 else 0

/-- The function `inline bool is_whitespace(char ch)` of `ttlib_wx.h`, which returns
`std::isspace(static_cast<unsigned char>(ch))`; `isspace` is `std::isspace` of the current
locale. -/
def is_whitespace (isspace : Nat → Int) (ch : Nat) : Bool :=
  decide (isspace (ch % 256) ≠ 0)

/-- The loops `for (...; pos < str.length(); ++pos) { if (stop(str.at(pos))) break; }` of
`find_space`, `find_nonspace` and `stepover`, where `stop` is `is_whitespace` or its
negation: the value of `pos` when the loop is left. -/
def whitespace_loop (stop : Nat → Bool) (str : List Nat) : Nat → Nat → Run Nat
  | 0, _ => Run.out_of_fuel
  | fuel + 1, pos =>
    if pos < str.length then
      match str[pos]? with
      | none => Run.out_of_range
      | some c => if stop c then Run.ret pos else whitespace_loop stop str fuel (pos + 1)
    else
      Run.ret pos

/-- The function `std::string_view ttlib::find_space(std::string_view str)`. Every
iteration advances `pos`, so `str.length + 1` loop tests are enough. -/
def find_space (isspace : Nat → Int) (str : List Nat) : Run (List Nat) :=
  if str.isEmpty then
    Run.ret []
  else
    (whitespace_loop (fun c => is_whitespace isspace c) str (str.length + 1) 0).bind fun pos =>
      if pos ≥ str.length then Run.ret [] else Run.ret (str.drop pos)

/-- The function `size_t ttlib::find_space_pos(std::string_view str)`. -/
def find_space_pos (isspace : Nat → Int) (str : List Nat) : Run Nat :=
  (find_space isspace str).map
    (fun view => if view.isEmpty then tt.npos else str.length - view.length)

/-- The function `std::string_view ttlib::find_nonspace(std::string_view str)`. -/
def find_nonspace (isspace : Nat → Int) (str : List Nat) : Run (List Nat) :=
  if str.isEmpty then
    Run.ret []
  else
    (whitespace_loop (fun c => !is_whitespace isspace c) str (str.length + 1) 0).bind fun pos =>
      if pos ≥ str.length then Run.ret [] else Run.ret (str.drop pos)

/-- The function `size_t ttlib::find_nonspace_pos(std::string_view str)`. -/
def find_nonspace_pos (isspace : Nat → Int) (str : List Nat) : Run Nat :=
  (find_nonspace isspace str).map
    (fun view => if view.isEmpty then tt.npos else str.length - view.length)

/-- The function `std::string_view ttlib::stepover(std::string_view str)`: its first loop
starts at `0`, its second loop starts where the first one stopped. -/
def stepover (isspace : Nat → Int) (str : List Nat) : Run (List Nat) :=
  if str.isEmpty then
    Run.ret []
  else
    (whitespace_loop (fun c => is_whitespace isspace c) str (str.length + 1) 0).bind fun pos =>
      if pos ≥ str.length then
        Run.ret []
      else
        (whitespace_loop (fun c => !is_whitespace isspace c) str (str.length + 1) pos).bind
          fun pos2 => if pos2 ≥ str.length then Run.ret [] else Run.ret (str.drop pos2)

/-- The function `size_t ttlib::stepover_pos(std::string_view str)`. -/
def stepover_pos (isspace : Nat → Int) (str : List Nat) : Run Nat :=
  (stepover isspace str).map
    (fun view => if view.isEmpty then tt.npos else str.length - view.length)

/-- The call `str1.compare(str2)` of `std::string_view`, as the C++ standard defines it:
the sign of the first difference between the two strings, bytes compared as
`unsigned char`, and, when one is a prefix of the other, the sign of the difference of
their lengths. -/
def string_view_compare : List Nat → List Nat → Int
  | [], [] => 0
  | [], _ :: _ => -1
  | _ :: _, [] => 1
  | a :: rest1, b :: rest2 =>
    if a < b then -1 else if b < a then 1 else string_view_compare rest1 rest2

/-- The loop `while (sub != str2.end())` of `is_sameas`, where `main` and `sub` are what
is left of `str1` and `str2` at the iterators of these names; when the loop is left by
its test, `return (main != str1.end() ? false : true)` follows. -/
def is_sameas_loop (tolower : Nat → Int) : List Nat → List Nat → Run Bool
  | main, [] => Run.ret (if !main.isEmpty then false else true)
  | [], _ :: _ => Run.out_of_range
  | m :: main, s :: sub =>
    if tolower m - tolower s ≠ 0 then
      Run.ret false
    else if main.isEmpty then
      Run.ret (if !sub.isEmpty then false else true)
    else
      is_sameas_loop tolower main sub

/-- The function `bool ttlib::is_sameas(std::string_view str1, std::string_view str2,
CASE checkcase)`; `tolower` is `std::tolower` of the current locale. -/
def is_sameas (tolower : Nat → Int) (str1 str2 : List Nat) (checkcase : tt.CASE) : Run Bool :=
  if str1.length ≠ str2.length then
    Run.ret false
  else if str1.isEmpty then
    Run.ret str2.isEmpty
  else if checkcase = tt.CASE.exact then
    Run.ret (decide (string_view_compare str1 str2 = 0))
  else
    is_sameas_loop tolower str1 str2

/-- The loops `for (auto iterSub: strSub) { if (differ(*iterMain++, iterSub)) return false; }`
of the three branches of `is_sameprefix`, each followed by `return true`: `main` is what
is left of `strMain` at `iterMain`, `sub` what is left of `strSub`. -/
def is_sameprefix_loop (differ : Nat → Nat → Bool) : List Nat → List Nat → Run Bool
  | _, [] => Run.ret true
  | [], _ :: _ => Run.out_of_range
  | m :: main, s :: sub =>
    if differ m s then Run.ret false else is_sameprefix_loop differ main sub

/-- The function `bool ttlib::is_sameprefix(std::string_view strMain,
std::string_view strSub, CASE checkcase)`; `tolower` is `std::tolower(int)` of the current
locale and `tolower_utf8` is `std::tolower(char, std::locale("en_US.utf8"))`. -/
def is_sameprefix (tolower : Nat → Int) (tolower_utf8 : Nat → Nat) (strMain strSub : List Nat)
    (checkcase : tt.CASE) : Run Bool :=
  if strSub.isEmpty then
    Run.ret strMain.isEmpty
  else if strMain.isEmpty || decide (strMain.length < strSub.length) then
    Run.ret false
  else
    match checkcase with
    | tt.CASE.exact => is_sameprefix_loop (fun m s => decide (m ≠ s)) strMain strSub
    | tt.CASE.either =>
      is_sameprefix_loop (fun m s => decide (tolower m ≠ tolower s)) strMain strSub
    | tt.CASE.utf8 =>
      is_sameprefix_loop (fun m s => decide (tolower_utf8 m ≠ tolower_utf8 s)) strMain strSub

/-- The highest index of `str` that holds `ch`, if any. -/
def last_index_of (ch : Nat) : List Nat → Option Nat
  | [] => none
  | c :: rest =>
    match last_index_of ch rest with
    | some i => some (i + 1)
    | none => if c = ch then some 0 else none

/-- The call `str.rfind(ch)` of `std::string_view`, as the C++ standard defines it: the
highest position `xpos` such that `str.at(xpos) == ch`; `npos` when there is no such
position. -/
def string_view_rfind (str : List Nat) (ch : Nat) : Nat :=
  (last_index_of ch str).getD tt.npos

/-- The function `std::string_view ttlib::find_extension(std::string_view str)`; `0x2E` is
the character `'.'`, and `str.at(pos + 1)` is read only when `pos < 2`. -/
def find_extension (str : List Nat) : Run (List Nat) :=
  let pos := string_view_rfind str 0x2E
  if pos = tt.npos then
    Run.ret []
  else if pos + 1 ≥ str.length then
    Run.ret []
  else if pos < 2 then
    match str[pos + 1]? with
    | none => Run.out_of_range
    | some c => if c = 0x2E then Run.ret [] else Run.ret (str.drop pos)
  else
    Run.ret (str.drop pos)

/-- The lowest index of `str` that holds `ch`, if any. -/
def first_index_of (ch : Nat) : List Nat → Option Nat
  | [] => none
  | c :: rest => if c = ch then some 0 else (first_index_of ch rest).map (fun i => i + 1)

/-- The call `str.find(ch)` of `std::string`, as the C++ standard defines it: the lowest
position `xpos` such that `str.at(xpos) == ch`; `npos` when there is no such position. -/
def string_find_char (str : List Nat) (ch : Nat) : Nat :=
  (first_index_of ch str).getD tt.npos

/-- The call `str.replace(pos, n, s)` of `std::string`, as the C++ standard defines it: it
throws `std::out_of_range` when `pos > str.size()`, and otherwise replaces the `n`
characters from `pos` on (those there are) by `s`. -/
def string_replace (str : List Nat) (pos n : Nat) (s : List Nat) : Run (List Nat) :=
  if pos > str.length then Run.out_of_range
  else Run.ret (str.take pos ++ s ++ str.drop (pos + n))

/-- The loop `for (auto pos = str.find('\\'); pos != std::string::npos; pos = str.find('\\'))`
of `backslashestoforward`, whose body is `str.replace(pos, 1, "/")`: the value of `str`
when the loop is left. -/
def backslashestoforward_loop : Nat → List Nat → Run (List Nat)
  | 0, _ => Run.out_of_fuel
  | fuel + 1, str =>
    if string_find_char str 0x5C ≠ tt.npos then
      (string_replace str (string_find_char str 0x5C) 1 [0x2F]).bind
        (fun str2 => backslashestoforward_loop fuel str2)
    else
      Run.ret str

/-- The function `void ttlib::backslashestoforward(std::string& str)`: the new value of
`str`. Every iteration removes a backslash, so `str.length + 1` loop tests are enough. -/
def backslashestoforward (str : List Nat) : Run (List Nat) :=
  backslashestoforward_loop (str.length + 1) str

/-- The function `void addtrailingslash(bool always = false)` of `ttlib::cstr`
(`ttcstr_wx.h`): the new value of the string. The call `back()` on an empty string reads
outside the string; it is not evaluated when `always` is true. -/
def addtrailingslash (str : List Nat) (always : Bool) : Run (List Nat) :=
  if always then
    Run.ret (str ++ [0x2F])
  else
    match str.getLast? with
    | none => Run.out_of_range
    | some c => if c ≠ 0x2F then Run.ret (str ++ [0x2F]) else Run.ret str

/-- Modelled from the spec: `cstr::append_filename(filename)`, declared in `ttcstr_wx.h`
with its body in a file that is not part of the sources at hand. The spec says
"ensure path ends with exactly one separator, then append `name`", and the comment of
the declaration "This will add a trailing slash (if needed) before adding the filename":
the separator step is `addtrailingslash` with its default argument. -/
def append_filename (path filename : List Nat) : Run (List Nat) :=
  (addtrailingslash path false).map (fun p => p ++ filename)

/-- Arithmetic of `int` wraps modulo `2^32` into `-2^31 .. 2^31 - 1`, as it does on two's
complement hardware. -/
def int32 (x : Int) : Int := (x + 2147483648) % 4294967296 - 2147483648

/-- The loop `for (; pos < str.size(); ++pos)` of the hexadecimal branch of `atoi`, started
at `pos` with the value `total`; `0x30`, `0x39` are `'0'`, `'9'`, `0x61`, `0x66` are `'a'`,
`'f'` and `0x41`, `0x46` are `'A'`, `'F'`. -/
def atoi_hex_loop (str : List Nat) : Nat → Nat → Int → Run Int
  | 0, _, _ => Run.out_of_fuel
  | fuel + 1, pos, total =>
    if pos < str.length then
      match str[pos]? with
      | none => Run.out_of_range
      | some c =>
        if 0x30 ≤ c ∧ c ≤ 0x39 then
          atoi_hex_loop str fuel (pos + 1) (int32 (int32 (16 * total) + ((c : Int) - 0x30)))
        else if 0x61 ≤ c ∧ c ≤ 0x66 then
          atoi_hex_loop str fuel (pos + 1)
            (int32 (int32 (int32 (int32 (total * 16) + (c : Int)) - 0x61) + 10))
        else if 0x41 ≤ c ∧ c ≤ 0x46 then
          atoi_hex_loop str fuel (pos + 1)
            (int32 (int32 (int32 (int32 (total * 16) + (c : Int)) - 0x41) + 10))
        else
          Run.ret total
    else
      Run.ret total

/-- The loop `for (; pos < str.size() && str[pos] >= '0' && str[pos] <= '9'; ++pos)` of the
decimal branch of `atoi`, started at `pos` with the value `total`. -/
def atoi_dec_loop (str : List Nat) : Nat → Nat → Int → Run Int
  | 0, _, _ => Run.out_of_fuel
  | fuel + 1, pos, total =>
    if pos < str.length then
      match str[pos]? with
      | none => Run.out_of_range
      | some c =>
        if 0x30 ≤ c ∧ c ≤ 0x39 then
          atoi_dec_loop str fuel (pos + 1) (int32 (int32 (10 * total) + ((c : Int) - 0x30)))
        else
          Run.ret total
    else
      Run.ret total

/-- The test `str[0] == '0' && str.length() > 1 && (str[1] == 'x' || str[1] == 'X')` of
`atoi`, evaluated from left to right: `str[1]` is read only when the first two operands
are true. -/
def atoi_is_hex (str : List Nat) : Run Bool :=
  match str[0]? with
  | none => Run.out_of_range
  | some c0 =>
    if c0 = 0x30 ∧ str.length > 1 then
      match str[1]? with
      | none => Run.out_of_range
      | some c1 => Run.ret (decide (c1 = 0x78 ∨ c1 = 0x58))
    else
      Run.ret false

/-- The part of `atoi` after `str = ttlib::find_nonspace(str);`, on the view `str` that
call returned; `0x2D` is `'-'` and `0x2B` is `'+'`. -/
def atoi_body (str : List Nat) : Run Int :=
  (atoi_is_hex str).bind fun hex =>
    if hex then
      atoi_hex_loop str (str.length + 1) 2 0
    else
      match str[0]? with
      | none => Run.out_of_range
      | some c0 =>
        if c0 = 0x2D then
          (atoi_dec_loop str (str.length + 1) 1 0).map (fun total => int32 (-total))
        else if c0 = 0x2B then
          atoi_dec_loop str (str.length + 1) 1 0
        else
          atoi_dec_loop str (str.length + 1) 0 0

/-- The function `int ttlib::atoi(std::string_view str)`; `isspace` is `std::isspace` of
the current locale. -/
def atoi (isspace : Nat → Int) (str : List Nat) : Run Int :=
  if str.isEmpty then Run.ret 0
  else (find_nonspace isspace str).bind atoi_body

/-- The value of a run of decimal digits, read after the value `acc`. -/
def decimal_value (acc : Nat) (digits : List Nat) : Nat :=
  digits.foldl (fun a c => 10 * a + (c - 0x30)) acc

/-- The value of one hexadecimal digit, upper or lower case. -/
def hex_digit (c : Nat) : Nat :=
  if 0x30 ≤ c ∧ c ≤ 0x39 then c - 0x30
  else if 0x61 ≤ c ∧ c ≤ 0x66 then c - 0x61 + 10
  else c - 0x41 + 10

/-- The value of a run of hexadecimal digits, read after the value `acc`. -/
def hex_value (acc : Nat) (digits : List Nat) : Nat :=
  digits.foldl (fun a c => 16 * a + hex_digit c) acc

/-- A decimal digit `'0' .. '9'`. -/
abbrev IsDecimalDigit (c : Nat) : Prop := 0x30 ≤ c ∧ c ≤ 0x39

/-- A hexadecimal digit `'0' .. '9'`, `'a' .. 'f'` or `'A' .. 'F'`. -/
abbrev IsHexDigit (c : Nat) : Prop :=
  (0x30 ≤ c ∧ c ≤ 0x39) ∨ (0x61 ≤ c ∧ c ≤ 0x66) ∨ (0x41 ≤ c ∧ c ≤ 0x46)

/-- The function `constexpr inline bool is_utf8(char ch)` of `ttlib_wx.h`, "Is ch the start
of a utf8 sequence?", on the `unsigned char` value of `ch`: `(ch & 0xC0) != 0x80`. -/
def is_utf8 (ch : Nat) : Bool :=
  decide (ch &&& 0xC0 ≠ 0x80)

/-- The function `const char* ttlib::next_utf8_char(const char* psz)`. The argument is
`none` for a null pointer and otherwise the bytes that `psz` points at, up to and including
the terminating NUL; the result is `none` for a null pointer and `some i` for `psz + i`.
The three calls of `is_utf8` are joined by `||`, so `psz[++i]` is read again only while the
byte before it was a continuation byte, and `i` stops at 3 whatever `psz[3]` is. -/
def next_utf8_char (psz : Option (List Nat)) : Run (Option Nat) :=
  match psz with
  | none => Run.ret none
  | some buf =>
    match buf[0]? with
    | none => Run.out_of_range
    | some c0 =>
      if c0 = 0 then Run.ret (some 0)
      else
        match buf[1]? with
        | none => Run.out_of_range
        | some c1 =>
          if is_utf8 c1 then Run.ret (some 1)
          else
            match buf[2]? with
            | none => Run.out_of_range
            | some c2 =>
              if is_utf8 c2 then Run.ret (some 2)
              else
                match buf[3]? with
                | none => Run.out_of_range
                | some _ => Run.ret (some 3)

/-- The number of bytes of the UTF-8 character that starts with the lead byte `b0`. -/
def utf8_char_length (b0 : Nat) : Nat :=
  if b0 < 0x80 then 1 else if b0 < 0xE0 then 2 else if b0 < 0xF0 then 3 else 4

/-- The function `bool ttlib::is_valid_filechar(std::string_view str, size_t pos)`;
`str.at(pos)` throws `std::out_of_range` when `pos` is not below `str.size()`, and
`str.at(pos + 1)` is read only when `pos < 2`; past the first test `pos` is at most
`str.length()`, so `pos + 1` does not wrap. The characters of the second group of cases
are `<`, `>`, `:`, `/`, `\`, `|`, `?`, `*` and NUL. -/
def is_valid_filechar (str : List Nat) (pos : Nat) : Run Bool :=
  if str.isEmpty ∨ pos > str.length then
    Run.ret false
  else
    match str[pos]? with
    | none => Run.out_of_range
    | some c =>
      if c = 0x2E then
        if pos + 1 ≥ str.length then
          Run.ret false
        else if pos < 2 then
          match str[pos + 1]? with
          | none => Run.out_of_range
          | some d => if d = 0x2E then Run.ret false else Run.ret true
        else
          Run.ret true
      else if c = 0x3C ∨ c = 0x3E ∨ c = 0x3A ∨ c = 0x2F ∨ c = 0x5C ∨ c = 0x7C ∨ c = 0x3F ∨
          c = 0x2A ∨ c = 0 then
        Run.ret false
      else
        Run.ret true

/-- The function template `bool has_member(const std::vector<T>& vec, std::string_view str,
tt::CASE checkcase)` of `ttlib_wx.h`, for elements `T` that are strings: its loop
`for (size_t idx = 0; idx < vec.size(); ++idx)`, standing at `idx`. -/
def has_member_loop (tolower : Nat → Int) (vec : List (List Nat)) (str : List Nat)
    (checkcase : tt.CASE) : Nat → Nat → Run Bool
  | 0, _ => Run.out_of_fuel
  | fuel + 1, idx =>
    if idx < vec.length then
      match vec[idx]? with
      | none => Run.out_of_range
      | some element =>
        (is_sameas tolower element str checkcase).bind fun same =>
          if same then Run.ret true
          else has_member_loop tolower vec str checkcase fuel (idx + 1)
    else
      Run.ret false

/-- The function template `has_member` of `ttlib_wx.h`. Every iteration advances `idx`, so
`vec.length + 1` loop tests are enough. -/
def has_member (tolower : Nat → Int) (vec : List (List Nat)) (str : List Nat)
    (checkcase : tt.CASE) : Run Bool :=
  has_member_loop tolower vec str checkcase (vec.length + 1) 0

/-- The function template `void add_if(std::vector<T>& vec, std::string_view str,
tt::CASE checkcase)` of `ttlib_wx.h`: its loop, standing at `idx`, with the
`vec.emplace_back(str)` that follows it; the value is `vec` when the function returns. -/
def add_if_loop (tolower : Nat → Int) (vec : List (List Nat)) (str : List Nat)
    (checkcase : tt.CASE) : Nat → Nat → Run (List (List Nat))
  | 0, _ => Run.out_of_fuel
  | fuel + 1, idx =>
    if idx < vec.length then
      match vec[idx]? with
      | none => Run.out_of_range
      | some element =>
        (is_sameas tolower element str checkcase).bind fun same =>
          if same then Run.ret vec
          else add_if_loop tolower vec str checkcase fuel (idx + 1)
    else
      Run.ret (vec ++ [str])

/-- The function template `add_if` of `ttlib_wx.h`. -/
def add_if (tolower : Nat → Int) (vec : List (List Nat)) (str : List Nat)
    (checkcase : tt.CASE) : Run (List (List Nat)) :=
  add_if_loop tolower vec str checkcase (vec.length + 1) 0

/-- A vector built from `vec` only by calls of `add_if` with the mode `checkcase`, one call
for each string of `strs` in turn. -/
def add_if_sequence (tolower : Nat → Int) (checkcase : tt.CASE) :
    List (List Nat) → List (List Nat) → Run (List (List Nat))
  | vec, [] => Run.ret vec
  | vec, str :: strs =>
    (add_if tolower vec str checkcase).bind fun vec2 =>
      add_if_sequence tolower checkcase vec2 strs

/-- What `is_sameas` computes: equality of the strings in `CASE::exact`, and equality of
their characters under `tolower` in the other modes. -/
def same_as (tolower : Nat → Int) (checkcase : tt.CASE) (str1 str2 : List Nat) : Bool :=
  if checkcase = tt.CASE.exact then decide (str1 = str2)
  else decide (str1.map tolower = str2.map tolower)

/-- The algorithm `std::find_if(first, last, pred)` of `<algorithm>`, as the C++ standard
defines it, on the range given by the list of its elements: the position in the range of
the first element that satisfies `pred`, and the length of the range, the position of
`last`, when there is none. -/
def std_find_if (pred : Nat → Bool) : List Nat → Nat
  | [] => 0
  | c :: rest => if pred c then 0 else std_find_if pred rest + 1

/-- The call `s.erase(first, last)` of `std::string` with two iterators, as the C++
standard defines it: the characters at the positions `first` up to `last`, `last` not
included, are removed. -/
def string_erase (s : List Nat) (first last : Nat) : List Nat :=
  s.take first ++ s.drop last

/-- The lambda `[](unsigned char ch) { return !std::isspace(ch); }` of `RightTrim` and
`LeftTrim`; `isspace` is `std::isspace` of the current locale. -/
def trim_not_space (isspace : Nat → Int) (ch : Nat) : Bool :=
  decide (isspace (ch % 256) = 0)

/-- The function `inline void RightTrim(std::string& s)` of `ttlib_wx.h`; the value is `s`
when the function returns. `std::find_if` runs over the reversed range `s.rbegin()` ..
`s.rend()`, and `.base()` of the reverse iterator at position `k` of that range is the
iterator at position `s.size() - k` of `s`. -/
def RightTrim (isspace : Nat → Int) (s : List Nat) : List Nat :=
  string_erase s (s.length - std_find_if (trim_not_space isspace) s.reverse) s.length

/-- The function `inline void LeftTrim(std::string& s)` of `ttlib_wx.h`; the value is `s`
when the function returns. -/
def LeftTrim (isspace : Nat → Int) (s : List Nat) : List Nat :=
  string_erase s 0 (std_find_if (trim_not_space isspace) s)

/-- The function `inline void BothTrim(std::string& s)` of `ttlib_wx.h`: `LeftTrim(s)` and
then `RightTrim(s)`. -/
def BothTrim (isspace : Nat → Int) (s : List Nat) : List Nat :=
  RightTrim isspace (LeftTrim isspace s)

/-- The positions of `str` that the loop of `utf8to16` reads, in the order it reads them,
when it is started at `pos`: the tests and reads of `utf8to16_loop` without what is
computed from the bytes. An iteration reads `str[pos]` and then, past the test
`pos + 1 < str.size()`, `pos + 2 < str.size()` or `pos + 3 < str.size()` of its case, the
one, two or three positions that `++pos` reaches. -/
def utf8to16_reads_loop (str : List Nat) : Nat → Nat → List Nat
  | 0, _ => []
  | fuel + 1, pos =>
    if pos < str.length then
      match str[pos]? with
      | none => [pos]
      | some c =>
        if UINT8 c < 0x80 then
          pos :: utf8to16_reads_loop str fuel (pos + 1)
        else if UINT8 c >>> 5 = 6 then
          if pos + 1 < str.length then
            pos :: (pos + 1) :: utf8to16_reads_loop str fuel (pos + 1 + 1)
          else
            pos :: utf8to16_reads_loop str fuel (pos + 1)
        else if UINT8 c >>> 4 = 14 then
          if pos + 2 < str.length then
            pos :: (pos + 1) :: (pos + 2) :: utf8to16_reads_loop str fuel (pos + 2 + 1)
          else
            pos :: utf8to16_reads_loop str fuel (pos + 1)
        else if UINT8 c >>> 3 = 30 then
          if pos + 3 < str.length then
            pos :: (pos + 1) :: (pos + 2) :: (pos + 3) ::
              utf8to16_reads_loop str fuel (pos + 3 + 1)
          else
            pos :: utf8to16_reads_loop str fuel (pos + 1)
        else
          pos :: utf8to16_reads_loop str fuel (pos + 1)
    else
      []

/-- The positions of `str` that `utf8to16(str)` reads, in the order it reads them. -/
def utf8to16_reads (str : List Nat) : List Nat :=
  utf8to16_reads_loop str (str.length + 1) 0

/-- The positions of `str` that the loop of `utf16to8` reads, in the order it reads them,
when it is started at `pos`: the test and the reads of `utf16to8_loop` without what is
computed from the units. An iteration reads `str[pos]` and, when that unit is a high
surrogate, `str[++pos]` with no test in front of it; the list ends at a read that is
outside `str`, as the run of `utf16to8_loop` does. -/
def utf16to8_reads_loop (str : List Nat) : Nat → Nat → List Nat
  | 0, _ => []
  | fuel + 1, pos =>
    if pos < str.length then
      match str[pos]? with
      | none => [pos]
      | some c =>
        let val := c &&& 0xFFFF
        if 0xD800 ≤ val ∧ val ≤ 0xDBFF then
          match str[pos + 1]? with
          | none => [pos, pos + 1]
          | some _ => pos :: (pos + 1) :: utf16to8_reads_loop str fuel (pos + 1 + 1)
        else
          pos :: utf16to8_reads_loop str fuel (pos + 1)
    else
      []

/-- The positions of `str` that `utf16to8(str)` reads, in the order it reads them. -/
def utf16to8_reads (str : List Nat) : List Nat :=
  utf16to8_reads_loop str (str.length + 1) 0

/-! ## Theorems -/

theorem utf16to8_list_cons_other (c : Nat) (rest : List Nat)
    (hs : ¬(0xD800 ≤ c &&& 0xFFFF ∧ c &&& 0xFFFF ≤ 0xDBFF)) :
    utf16to8_list (c :: rest) =
      (utf16to8_list rest).map (fun out => utf16to8_push (c &&& 0xFFFF) ++ out) := by
  cases rest <;> simp only [utf16to8_list, if_neg hs]

theorem utf16to8_list_cons_high (c next : Nat) (rest2 : List Nat)
    (hs : 0xD800 ≤ c &&& 0xFFFF ∧ c &&& 0xFFFF ≤ 0xDBFF) :
    utf16to8_list (c :: next :: rest2) =
      (utf16to8_list rest2).map
        (fun out => utf16to8_push (utf16to8_combine (c &&& 0xFFFF) next) ++ out) := by
  rw [utf16to8_list, if_pos hs]

theorem getElem?_append_length_add (pre suf : List Nat) (k : Nat) :
    (pre ++ suf)[pre.length + k]? = suf[k]? := by
  rw [List.getElem?_append_right (by omega)]
  congr 1
  omega

/-- The loop of `utf16to8`, standing at the end of `pre` in the string `pre ++ suf` with
enough fuel, appends `utf16to8_list suf` to `dest`, and reads outside the string exactly
when `utf16to8_list suf` is `none`. -/
theorem utf16to8_loop_eq_list : ∀ (fuel : Nat) (pre suf dest : List Nat), suf.length < fuel →
    utf16to8_loop (pre ++ suf) fuel pre.length dest =
      match utf16to8_list suf with
      | some out => Run.ret (dest ++ out)
      | none => Run.out_of_range := by
  intro fuel
  induction fuel with
  | zero => intro pre suf dest h; omega
  | succ n ih =>
    intro pre suf dest h
    cases suf with
    | nil => simp [utf16to8_loop, utf16to8_list]
    | cons c rest =>
      have h0 := getElem?_append_length_add pre (c :: rest) 0
      have h1 := getElem?_append_length_add pre (c :: rest) 1
      simp only [Nat.add_zero, List.getElem?_cons_zero, List.getElem?_cons_succ] at h0 h1
      have hlt : pre.length < (pre ++ c :: rest).length := by simp
      rw [utf16to8_loop, if_pos hlt, h0]
      simp only [h1]
      by_cases hs : 0xD800 ≤ c &&& 0xFFFF ∧ c &&& 0xFFFF ≤ 0xDBFF
      · rw [if_pos hs]
        cases rest with
        | nil => simp [utf16to8_list, hs]
        | cons next rest2 =>
          have := ih (pre ++ [c, next]) rest2 (dest ++ utf16to8_push (utf16to8_combine (c &&& 0xFFFF) next))
            (by simp at h; omega)
          simp only [List.append_assoc, List.cons_append, List.nil_append, List.length_append,
            List.length_cons, List.length_nil, Nat.zero_add, ← Nat.add_assoc] at this
          simp only [List.getElem?_cons_zero]
          rw [this]
          rw [utf16to8_list_cons_high c next rest2 hs]
          cases hr : utf16to8_list rest2 <;> simp
      · rw [if_neg hs]
        have := ih (pre ++ [c]) rest (dest ++ utf16to8_push (c &&& 0xFFFF)) (by simp at h; omega)
        simp only [List.append_assoc, List.cons_append, List.nil_append, List.length_append,
          List.length_cons, List.length_nil, Nat.zero_add] at this
        rw [this]
        rw [utf16to8_list_cons_other c rest hs]
        cases hr : utf16to8_list rest <;> simp

theorem utf8to16_list_nil : utf8to16_list [] = ⟨[], true⟩ := by
  rw [utf8to16_list]

theorem utf8to16_list_cons (c : Nat) (rest : List Nat) :
    utf8to16_list (c :: rest) =
      ⟨(utf8to16_iteration c rest).units
          ++ (utf8to16_list (rest.drop (utf8to16_iteration c rest).extra)).dest,
        (utf8to16_iteration c rest).holds
          && (utf8to16_list (rest.drop (utf8to16_iteration c rest).extra)).asserts_hold⟩ := by
  rw [utf8to16_list]

theorem utf8to16_iteration_extra_le (c : Nat) (rest : List Nat) :
    (utf8to16_iteration c rest).extra ≤ rest.length := by
  unfold utf8to16_iteration
  split_ifs
  · simp
  · split <;> simp
  · split <;> simp
  · split <;> simp
  · simp

theorem getElem?_append_length (pre suf : List Nat) :
    (pre ++ suf)[pre.length]? = suf[0]? := by
  simpa using getElem?_append_length_add pre suf 0

/-- One test of the loop of `utf8to16` at the end of `pre` in the string `pre ++ c :: rest`
does what `utf8to16_iteration c rest` says. -/
theorem utf8to16_loop_iteration (fuel : Nat) (pre : List Nat) (c : Nat) (rest : List Nat)
    (st : Utf16Dest) :
    utf8to16_loop (pre ++ c :: rest) (fuel + 1) pre.length st =
      utf8to16_loop (pre ++ c :: rest) fuel (pre.length + (utf8to16_iteration c rest).extra + 1)
        ⟨st.dest ++ (utf8to16_iteration c rest).units,
          st.asserts_hold && (utf8to16_iteration c rest).holds⟩ := by
  have hlt : pre.length < (pre ++ c :: rest).length := by simp
  rw [utf8to16_loop, if_pos hlt, getElem?_append_length]
  simp only [List.getElem?_cons_zero, getElem?_append_length_add, List.length_append,
    List.length_cons, Nat.add_lt_add_iff_left, List.getElem?_cons_succ, utf8to16_iteration]
  split_ifs with h1 h2 h3 h4 h5 h6 h7
  all_goals
    rcases rest with _ | ⟨c1, _ | ⟨c2, _ | ⟨c3, rest4⟩⟩⟩ <;>
      simp only [List.length_nil, List.length_cons, List.getElem?_cons_zero,
        List.getElem?_cons_succ] at * <;>
      first
        | rfl
        | omega
        | simp

/-- The loop of `utf8to16`, standing at the end of `pre` in the string `pre ++ suf` with
enough fuel, returns, having appended the units of `utf8to16_list suf` and recorded its
assertions. -/
theorem utf8to16_loop_eq_list : ∀ (fuel : Nat) (pre suf : List Nat) (st : Utf16Dest),
    suf.length < fuel →
    utf8to16_loop (pre ++ suf) fuel pre.length st =
      Run.ret ⟨st.dest ++ (utf8to16_list suf).dest,
        st.asserts_hold && (utf8to16_list suf).asserts_hold⟩ := by
  intro fuel
  induction fuel with
  | zero => intro pre suf st h; omega
  | succ n ih =>
    intro pre suf st h
    cases suf with
    | nil => simp [utf8to16_loop, utf8to16_list_nil]
    | cons c rest =>
      rw [utf8to16_loop_iteration, utf8to16_list_cons]
      have hle := utf8to16_iteration_extra_le c rest
      have hsplit : pre ++ c :: rest =
          (pre ++ c :: rest.take (utf8to16_iteration c rest).extra)
            ++ rest.drop (utf8to16_iteration c rest).extra := by
        simp
      have hlen : (pre ++ c :: rest.take (utf8to16_iteration c rest).extra).length =
          pre.length + (utf8to16_iteration c rest).extra + 1 := by
        simp [Nat.min_eq_left hle]; omega
      rw [hsplit, ← hlen, ih _ _ _ (by simp at h ⊢; omega)]
      simp [List.append_assoc, Bool.and_assoc]

/-- The call `utf8to16(str)` always returns: no read is outside the string and the fuel
is enough. -/
theorem utf8to16_eq_list (str : List Nat) : utf8to16 str = Run.ret (utf8to16_list str) := by
  have := utf8to16_loop_eq_list (str.length + 1) [] str ⟨[], true⟩ (by omega)
  simpa [utf8to16, utf8to16_dest] using this

theorem utf16to8_eq_list (str : List Nat) :
    utf16to8 str =
      match utf16to8_list str with
      | some out => Run.ret out
      | none => Run.out_of_range := by
  have := utf16to8_loop_eq_list (str.length + 1) [] str [] (by omega)
  simpa [utf16to8, utf16to8_dest] using this

theorem and_0x3F (x : Nat) : x &&& 0x3F = x % 64 := Nat.and_pow_two_sub_one_eq_mod x 6

theorem and_0xFF (x : Nat) : x &&& 0xFF = x % 256 := Nat.and_pow_two_sub_one_eq_mod x 8

theorem and_0x3FF (x : Nat) : x &&& 0x3FF = x % 1024 := Nat.and_pow_two_sub_one_eq_mod x 10

theorem and_0x7FF (x : Nat) : x &&& 0x7FF = x % 2048 := Nat.and_pow_two_sub_one_eq_mod x 11

theorem and_0xFFF (x : Nat) : x &&& 0xFFF = x % 4096 := Nat.and_pow_two_sub_one_eq_mod x 12

theorem and_0xFFFF (x : Nat) : x &&& 0xFFFF = x % 65536 := Nat.and_pow_two_sub_one_eq_mod x 16

theorem and_0x3FFFF (x : Nat) : x &&& 0x3FFFF = x % 262144 :=
  Nat.and_pow_two_sub_one_eq_mod x 18

theorem and_0x1FFFFF (x : Nat) : x &&& 0x1FFFFF = x % 2097152 :=
  Nat.and_pow_two_sub_one_eq_mod x 21

theorem or_0x80 (a : Nat) (h : a < 64) : a ||| 0x80 = a + 0x80 := by
  revert a; decide

theorem or_0xC0 (a : Nat) (h : a < 64) : a ||| 0xC0 = a + 0xC0 := by
  revert a; decide

theorem or_0xE0 (a : Nat) (h : a < 32) : a ||| 0xE0 = a + 0xE0 := by
  revert a; decide

theorem or_0xF0 (a : Nat) (h : a < 16) : a ||| 0xF0 = a + 0xF0 := by
  revert a; decide

theorem utf8_encode_1 (cp : Nat) (h : cp < 0x80) : utf8_encode cp = [cp] := by
  simp [utf8_encode, h]

theorem utf8_encode_2 (cp : Nat) (h1 : 0x80 ≤ cp) (h2 : cp < 0x800) :
    utf8_encode cp = [cp / 64 + 0xC0, cp % 64 + 0x80] := by
  rw [utf8_encode, if_neg (by omega), if_pos h2]
  simp only [Nat.shiftRight_eq_div_pow, and_0x3F]
  rw [Nat.lor_comm, or_0xC0 _ (by omega), Nat.lor_comm, or_0x80 _ (by omega)]

theorem utf8_encode_3 (cp : Nat) (h1 : 0x800 ≤ cp) (h2 : cp < 0x10000) :
    utf8_encode cp = [cp / 4096 + 0xE0, cp / 64 % 64 + 0x80, cp % 64 + 0x80] := by
  rw [utf8_encode, if_neg (by omega), if_neg (by omega), if_pos h2]
  simp only [Nat.shiftRight_eq_div_pow, and_0x3F]
  rw [Nat.lor_comm, or_0xE0 _ (by omega), Nat.lor_comm, or_0x80 _ (by omega), Nat.lor_comm,
    or_0x80 _ (by omega)]

theorem utf8_encode_4 (cp : Nat) (h1 : 0x10000 ≤ cp) (h2 : cp ≤ 0x10FFFF) :
    utf8_encode cp =
      [cp / 262144 + 0xF0, cp / 4096 % 64 + 0x80, cp / 64 % 64 + 0x80, cp % 64 + 0x80] := by
  rw [utf8_encode, if_neg (by omega), if_neg (by omega), if_neg (by omega)]
  simp only [Nat.shiftRight_eq_div_pow, and_0x3F]
  rw [Nat.lor_comm, or_0xF0 _ (by omega), Nat.lor_comm, or_0x80 _ (by omega), Nat.lor_comm,
    or_0x80 _ (by omega), Nat.lor_comm, or_0x80 _ (by omega)]

theorem utf16to8_push_eq_encode (v : Nat) (h : v ≤ 0x10FFFF) :
    utf16to8_push v = utf8_encode v := by
  by_cases h1 : v < 0x80
  · rw [utf8_encode_1 v h1, utf16to8_push, if_pos h1, CHAR8]
    simp only [List.cons.injEq, and_true]; omega
  by_cases h2 : v < 0x800
  · rw [utf8_encode_2 v (by omega) h2, utf16to8_push, if_neg h1, if_pos h2]
    simp only [Nat.shiftRight_eq_div_pow, and_0x3F, CHAR8]
    rw [or_0xC0 _ (by omega), or_0x80 _ (by omega)]
    simp only [List.cons.injEq, and_true]; omega
  by_cases h3 : v < 0x10000
  · rw [utf8_encode_3 v (by omega) h3, utf16to8_push, if_neg h1, if_neg h2, if_pos h3]
    simp only [Nat.shiftRight_eq_div_pow, and_0x3F, CHAR8]
    rw [or_0xE0 _ (by omega), or_0x80 _ (by omega), or_0x80 _ (by omega)]
    simp only [List.cons.injEq, and_true]; omega
  · rw [utf8_encode_4 v (by omega) h, utf16to8_push, if_neg h1, if_neg h2, if_neg h3]
    simp only [Nat.shiftRight_eq_div_pow, and_0x3F, CHAR8]
    rw [or_0xF0 _ (by omega), or_0x80 _ (by omega), or_0x80 _ (by omega), or_0x80 _ (by omega)]
    simp only [List.cons.injEq, and_true]; omega

theorem utf16to8_combine_eq (hi lo : Nat) (h1 : 0xD800 ≤ hi) (h2 : hi ≤ 0xDBFF)
    (h3 : 0xDC00 ≤ lo) (h4 : lo ≤ 0xDFFF) :
    utf16to8_combine hi lo = surrogate_code_point hi lo := by
  simp only [utf16to8_combine, surrogate_code_point, u32, and_0xFFFF, Nat.shiftLeft_eq]
  omega

theorem surrogate_code_point_range (hi lo : Nat) (h1 : 0xD800 ≤ hi) (h2 : hi ≤ 0xDBFF)
    (h3 : 0xDC00 ≤ lo) (h4 : lo ≤ 0xDFFF) :
    0x10000 ≤ surrogate_code_point hi lo ∧ surrogate_code_point hi lo ≤ 0x10FFFF := by
  simp only [surrogate_code_point, Nat.shiftLeft_eq]
  omega

theorem utf16_encode_surrogate_code_point (hi lo : Nat) (h1 : 0xD800 ≤ hi) (h2 : hi ≤ 0xDBFF)
    (h3 : 0xDC00 ≤ lo) (h4 : lo ≤ 0xDFFF) :
    utf16_encode (surrogate_code_point hi lo) = [hi, lo] := by
  have hr := surrogate_code_point_range hi lo h1 h2 h3 h4
  rw [utf16_encode, if_neg (by omega)]
  simp only [surrogate_code_point, Nat.shiftLeft_eq, Nat.shiftRight_eq_div_pow, and_0x3FF] at *
  simp only [List.cons.injEq, and_true]
  omega

theorem utf8to16_val2_eq (b0 b1 : Nat) (h1 : 0xC0 ≤ b0) (h2 : b0 ≤ 0xDF) :
    utf8to16_val2 (b0 &&& 0xFF) b1 = (b0 - 0xC0) * 64 + b1 % 64 := by
  simp only [utf8to16_val2, u32, and_0xFF, and_0x3F, and_0x7FF, Nat.shiftLeft_eq]
  omega

theorem utf8to16_val3_eq (b0 b1 b2 : Nat) (h1 : 0xE0 ≤ b0) (h2 : b0 ≤ 0xEF) :
    utf8to16_val3 (b0 &&& 0xFF) b1 b2 = (b0 - 0xE0) * 4096 + b1 % 64 * 64 + b2 % 64 := by
  simp only [utf8to16_val3, u32, and_0xFF, and_0x3F, and_0xFFF, and_0xFFFF, Nat.shiftLeft_eq]
  omega

theorem utf8to16_val4_eq (b0 b1 b2 b3 : Nat) (h1 : 0xF0 ≤ b0) (h2 : b0 ≤ 0xF7) :
    utf8to16_val4 (b0 &&& 0xFF) b1 b2 b3 =
      (b0 - 0xF0) * 262144 + b1 % 64 * 4096 + b2 % 64 * 64 + b3 % 64 := by
  simp only [utf8to16_val4, u32, and_0xFF, and_0x3F, and_0xFFF, and_0x3FFFF, and_0x1FFFFF,
    Nat.shiftLeft_eq]
  omega

theorem utf8to16_iteration_1 (b0 : Nat) (rest : List Nat) (h : b0 < 0x80) :
    utf8to16_iteration b0 rest = ⟨[b0], true, 0⟩ := by
  have h1 : UINT8 b0 < 0x80 := by simp only [UINT8]; omega
  have h2 : CHAR16 b0 = b0 := by simp only [CHAR16]; omega
  simp only [utf8to16_iteration, if_pos h1, h2]

theorem utf8to16_iteration_2 (b0 b1 : Nat) (rest : List Nat) (h1 : 0xC0 ≤ b0) (h2 : b0 ≤ 0xDF) :
    utf8to16_iteration b0 (b1 :: rest) =
      ⟨utf8to16_push ((b0 - 0xC0) * 64 + b1 % 64), true, 1⟩ := by
  have e1 : ¬UINT8 b0 < 0x80 := by simp only [UINT8]; omega
  have e2 : UINT8 b0 >>> 5 = 6 := by
    simp only [UINT8, Nat.shiftRight_eq_div_pow]; omega
  rw [utf8to16_iteration, if_neg e1, if_pos e2]
  simp only [utf8to16_val2_eq b0 b1 h1 h2]

theorem utf8to16_iteration_3 (b0 b1 b2 : Nat) (rest : List Nat) (h1 : 0xE0 ≤ b0)
    (h2 : b0 ≤ 0xEF) :
    utf8to16_iteration b0 (b1 :: b2 :: rest) =
      ⟨utf8to16_push ((b0 - 0xE0) * 4096 + b1 % 64 * 64 + b2 % 64), true, 2⟩ := by
  have e1 : ¬UINT8 b0 < 0x80 := by simp only [UINT8]; omega
  have e2 : ¬UINT8 b0 >>> 5 = 6 := by
    simp only [UINT8, Nat.shiftRight_eq_div_pow]; omega
  have e3 : UINT8 b0 >>> 4 = 14 := by
    simp only [UINT8, Nat.shiftRight_eq_div_pow]; omega
  rw [utf8to16_iteration, if_neg e1, if_neg e2, if_pos e3]
  simp only [utf8to16_val3_eq b0 b1 b2 h1 h2]

theorem utf8to16_iteration_4 (b0 b1 b2 b3 : Nat) (rest : List Nat) (h1 : 0xF0 ≤ b0)
    (h2 : b0 ≤ 0xF7) :
    utf8to16_iteration b0 (b1 :: b2 :: b3 :: rest) =
      ⟨utf8to16_push ((b0 - 0xF0) * 262144 + b1 % 64 * 4096 + b2 % 64 * 64 + b3 % 64),
        true, 3⟩ := by
  have e1 : ¬UINT8 b0 < 0x80 := by simp only [UINT8]; omega
  have e2 : ¬UINT8 b0 >>> 5 = 6 := by
    simp only [UINT8, Nat.shiftRight_eq_div_pow]; omega
  have e3 : ¬UINT8 b0 >>> 4 = 14 := by
    simp only [UINT8, Nat.shiftRight_eq_div_pow]; omega
  have e4 : UINT8 b0 >>> 3 = 30 := by
    simp only [UINT8, Nat.shiftRight_eq_div_pow]; omega
  rw [utf8to16_iteration, if_neg e1, if_neg e2, if_neg e3, if_pos e4]
  simp only [utf8to16_val4_eq b0 b1 b2 b3 h1 h2]

theorem utf8to16_push_eq_encode (cp : Nat) (h : cp ≤ 0x10FFFF) :
    utf8to16_push cp = utf16_encode cp := by
  by_cases h1 : cp ≤ 0xFFFF
  · rw [utf8to16_push, if_neg (by omega), utf16_encode, if_pos h1, CHAR16]
    simp only [List.cons.injEq, and_true]; omega
  · rw [utf8to16_push, if_pos (by omega), utf16_encode, if_neg h1]
    simp only [CHAR16, Nat.shiftRight_eq_div_pow, and_0x3FF, List.cons.injEq, and_true]
    omega

/-- Decoding what the standard encoder wrote: `utf8to16` turns the UTF-8 encoding of a
code point, whatever follows it, into its UTF-16 encoding, with no assertion failing. -/
theorem utf8to16_list_encode (cp : Nat) (rest : List Nat) (h : cp ≤ 0x10FFFF) :
    utf8to16_list (utf8_encode cp ++ rest) =
      ⟨utf16_encode cp ++ (utf8to16_list rest).dest, (utf8to16_list rest).asserts_hold⟩ := by
  by_cases h1 : cp < 0x80
  · rw [utf8_encode_1 cp h1, List.singleton_append, utf8to16_list_cons,
      utf8to16_iteration_1 cp rest h1]
    simp [utf16_encode, show cp ≤ 0xFFFF by omega]
  by_cases h2 : cp < 0x800
  · rw [utf8_encode_2 cp (by omega) h2, List.cons_append, List.singleton_append,
      utf8to16_list_cons, utf8to16_iteration_2 _ _ _ (by omega) (by omega)]
    have e2 : (cp / 64 + 0xC0 - 0xC0) * 64 + (cp % 64 + 0x80) % 64 = cp := by omega
    rw [e2, utf8to16_push_eq_encode cp h]
    simp
  by_cases h3 : cp < 0x10000
  · rw [utf8_encode_3 cp (by omega) h3, List.cons_append, List.cons_append,
      List.singleton_append, utf8to16_list_cons, utf8to16_iteration_3 _ _ _ _ (by omega) (by omega)]
    have e2 : (cp / 4096 + 0xE0 - 0xE0) * 4096 + (cp / 64 % 64 + 0x80) % 64 * 64
        + (cp % 64 + 0x80) % 64 = cp := by omega
    rw [e2, utf8to16_push_eq_encode cp h]
    simp
  · rw [utf8_encode_4 cp (by omega) h, List.cons_append, List.cons_append, List.cons_append,
      List.singleton_append, utf8to16_list_cons,
      utf8to16_iteration_4 _ _ _ _ _ (by omega) (by omega)]
    have e2 : (cp / 262144 + 0xF0 - 0xF0) * 262144 + (cp / 4096 % 64 + 0x80) % 64 * 4096
        + (cp / 64 % 64 + 0x80) % 64 * 64 + (cp % 64 + 0x80) % 64 = cp := by omega
    rw [e2, utf8to16_push_eq_encode cp h]
    simp

/-- Encoding one unit that is not a high surrogate: `utf16to8` writes its standard UTF-8
encoding and goes on with the next unit. -/
theorem utf16to8_list_unit (v : Nat) (rest : List Nat) (h : v < 0x10000)
    (hs : ¬(0xD800 ≤ v ∧ v ≤ 0xDBFF)) :
    utf16to8_list (v :: rest) = (utf16to8_list rest).map (fun out => utf8_encode v ++ out) := by
  have e : v &&& 0xFFFF = v := by rw [and_0xFFFF]; omega
  rw [utf16to8_list_cons_other v rest (by rw [e]; exact hs), e,
    utf16to8_push_eq_encode v (by omega)]

/-- Encoding a surrogate pair: `utf16to8` writes the standard UTF-8 encoding of the code
point of the pair and goes on after the pair. -/
theorem utf16to8_list_pair (hi lo : Nat) (rest : List Nat) (h1 : 0xD800 ≤ hi)
    (h2 : hi ≤ 0xDBFF) (h3 : 0xDC00 ≤ lo) (h4 : lo ≤ 0xDFFF) :
    utf16to8_list (hi :: lo :: rest) =
      (utf16to8_list rest).map (fun out => utf8_encode (surrogate_code_point hi lo) ++ out) := by
  have e : hi &&& 0xFFFF = hi := by rw [and_0xFFFF]; omega
  have hr := surrogate_code_point_range hi lo h1 h2 h3 h4
  rw [utf16to8_list_cons_high hi lo rest (by rw [e]; exact ⟨h1, h2⟩), e,
    utf16to8_combine_eq hi lo h1 h2 h3 h4, utf16to8_push_eq_encode _ hr.2]

theorem utf16to8_list_encode (cp : Nat) (rest : List Nat) (h : cp ≤ 0x10FFFF)
    (hs : ¬(0xD800 ≤ cp ∧ cp ≤ 0xDBFF)) :
    utf16to8_list (utf16_encode cp ++ rest) =
      (utf16to8_list rest).map (fun out => utf8_encode cp ++ out) := by
  by_cases h1 : cp ≤ 0xFFFF
  · rw [utf16_encode, if_pos h1, List.singleton_append, utf16to8_list_unit cp rest (by omega) hs]
  · have e : utf16_encode cp = [(cp >>> 10) + 0xD7C0, (cp &&& 0x3FF) + 0xDC00] := by
      rw [utf16_encode, if_neg h1]
    have e2 : surrogate_code_point ((cp >>> 10) + 0xD7C0) ((cp &&& 0x3FF) + 0xDC00) = cp := by
      simp only [surrogate_code_point, Nat.shiftLeft_eq, Nat.shiftRight_eq_div_pow, and_0x3FF]
      omega
    rw [e, List.cons_append, List.singleton_append, utf16to8_list_pair _ _ rest
      (by simp only [Nat.shiftRight_eq_div_pow]; omega)
      (by simp only [Nat.shiftRight_eq_div_pow]; omega)
      (by simp only [and_0x3FF]; omega) (by simp only [and_0x3FF]; omega), e2]

theorem utf8_roundtrip_list (s : List Nat) (h : ValidUtf8 s) :
    (utf8to16_list s).asserts_hold = true ∧ utf16to8_list (utf8to16_list s).dest = some s := by
  induction h with
  | nil => simp [utf8to16_list_nil, utf16to8_list]
  | one b0 rest h0 _ ih =>
    have e := utf8to16_list_encode b0 rest (by omega)
    rw [utf8_encode_1 b0 h0] at e
    have e16 := utf16to8_list_encode b0 (utf8to16_list rest).dest (by omega) (by omega)
    rw [utf8_encode_1 b0 h0] at e16
    simp only [List.singleton_append] at e
    rw [e]
    exact ⟨ih.1, by rw [e16, ih.2]; rfl⟩
  | two b0 b1 rest h0 h0' h1 _ ih =>
    obtain ⟨h1, h1'⟩ := h1
    have hcp : utf8_encode ((b0 - 0xC0) * 64 + (b1 - 0x80)) = [b0, b1] := by
      rw [utf8_encode_2 _ (by omega) (by omega)]
      simp only [List.cons.injEq, and_true]; omega
    have e := utf8to16_list_encode ((b0 - 0xC0) * 64 + (b1 - 0x80)) rest (by omega)
    have e16 := utf16to8_list_encode ((b0 - 0xC0) * 64 + (b1 - 0x80)) (utf8to16_list rest).dest
      (by omega) (by omega)
    rw [hcp] at e e16
    simp only [List.cons_append, List.singleton_append, List.nil_append] at e
    rw [e]
    exact ⟨ih.1, by rw [e16, ih.2]; rfl⟩
  | three b0 b1 b2 rest h0 h0' h1 h2 hE0 hED _ ih =>
    obtain ⟨h1, h1'⟩ := h1
    obtain ⟨h2, h2'⟩ := h2
    have hcp : utf8_encode ((b0 - 0xE0) * 4096 + (b1 - 0x80) * 64 + (b2 - 0x80)) = [b0, b1, b2] := by
      rw [utf8_encode_3 _ (by omega) (by omega)]
      simp only [List.cons.injEq, and_true]; omega
    have e := utf8to16_list_encode ((b0 - 0xE0) * 4096 + (b1 - 0x80) * 64 + (b2 - 0x80)) rest
      (by omega)
    have e16 := utf16to8_list_encode ((b0 - 0xE0) * 4096 + (b1 - 0x80) * 64 + (b2 - 0x80))
      (utf8to16_list rest).dest (by omega) (by omega)
    rw [hcp] at e e16
    simp only [List.cons_append, List.singleton_append, List.nil_append] at e
    rw [e]
    exact ⟨ih.1, by rw [e16, ih.2]; rfl⟩
  | four b0 b1 b2 b3 rest h0 h0' h1 h2 h3 hF0 hF4 _ ih =>
    obtain ⟨h1, h1'⟩ := h1
    obtain ⟨h2, h2'⟩ := h2
    obtain ⟨h3, h3'⟩ := h3
    have hcp : utf8_encode ((b0 - 0xF0) * 262144 + (b1 - 0x80) * 4096 + (b2 - 0x80) * 64
        + (b3 - 0x80)) = [b0, b1, b2, b3] := by
      rw [utf8_encode_4 _ (by omega) (by omega)]
      simp only [List.cons.injEq, and_true]; omega
    have e := utf8to16_list_encode ((b0 - 0xF0) * 262144 + (b1 - 0x80) * 4096 + (b2 - 0x80) * 64
        + (b3 - 0x80)) rest (by omega)
    have e16 := utf16to8_list_encode ((b0 - 0xF0) * 262144 + (b1 - 0x80) * 4096
        + (b2 - 0x80) * 64 + (b3 - 0x80)) (utf8to16_list rest).dest (by omega) (by omega)
    rw [hcp] at e e16
    simp only [List.cons_append, List.singleton_append, List.nil_append] at e
    rw [e]
    exact ⟨ih.1, by rw [e16, ih.2]; rfl⟩

theorem utf16_roundtrip_list (u : List Nat) (h : WellFormedUtf16 u) :
    ∃ s, utf16to8_list u = some s ∧ utf8to16_list s = ⟨u, true⟩ := by
  induction h with
  | nil => exact ⟨[], by simp [utf16to8_list], utf8to16_list_nil⟩
  | unit v rest hv hs _ ih =>
    obtain ⟨s, hs1, hs2⟩ := ih
    refine ⟨utf8_encode v ++ s, ?_, ?_⟩
    · rw [utf16to8_list_unit v rest hv (by omega), hs1]; rfl
    · rw [utf8to16_list_encode v s (by omega), hs2, utf16_encode, if_pos (by omega)]; rfl
  | pair hi lo rest h1 h2 h3 h4 _ ih =>
    obtain ⟨s, hs1, hs2⟩ := ih
    have hr := surrogate_code_point_range hi lo h1 h2 h3 h4
    refine ⟨utf8_encode (surrogate_code_point hi lo) ++ s, ?_, ?_⟩
    · rw [utf16to8_list_pair hi lo rest h1 h2 h3 h4, hs1]; rfl
    · rw [utf8to16_list_encode _ s hr.2, hs2,
        utf16_encode_surrogate_code_point hi lo h1 h2 h3 h4]; rfl

theorem utf16to8_list_code_points (u : List Nat) (h : WellFormedUtf16 u) :
    utf16to8_list u = some (utf8_encode_all (utf16_code_points u)) := by
  induction h with
  | nil => simp [utf16to8_list, utf16_code_points, utf8_encode_all]
  | unit v rest hv hs _ ih =>
    have e : utf16_code_points (v :: rest) = v :: utf16_code_points rest := by
      cases rest with
      | nil => simp [utf16_code_points]
      | cons lo rest2 =>
        rw [utf16_code_points, if_neg (by omega)]
    rw [utf16to8_list_unit v rest hv (by omega), ih, e]; rfl
  | pair hi lo rest h1 h2 h3 h4 _ ih =>
    rw [utf16to8_list_pair hi lo rest h1 h2 h3 h4, ih, utf16_code_points,
      if_pos ⟨⟨h1, h2⟩, ⟨h3, h4⟩⟩]; rfl

/-- The standard encoding of scalar values is valid UTF-8 in the sense of `ValidUtf8`. -/
theorem validUtf8_encode (cp : Nat) (rest : List Nat) (h : IsScalarValue cp)
    (hrest : ValidUtf8 rest) : ValidUtf8 (utf8_encode cp ++ rest) := by
  obtain ⟨hmax, hsur⟩ := h
  by_cases h1 : cp < 0x80
  · rw [utf8_encode_1 cp h1]
    exact ValidUtf8.one _ _ h1 hrest
  by_cases h2 : cp < 0x800
  · rw [utf8_encode_2 cp (by omega) h2]
    exact ValidUtf8.two _ _ _ (by omega) (by omega) ⟨by omega, by omega⟩ hrest
  by_cases h3 : cp < 0x10000
  · rw [utf8_encode_3 cp (by omega) h3]
    exact ValidUtf8.three _ _ _ _ (by omega) (by omega) ⟨by omega, by omega⟩
      ⟨by omega, by omega⟩ (by omega) (by omega) hrest
  · rw [utf8_encode_4 cp (by omega) hmax]
    exact ValidUtf8.four _ _ _ _ _ (by omega) (by omega) ⟨by omega, by omega⟩
      ⟨by omega, by omega⟩ ⟨by omega, by omega⟩ (by omega) (by omega) hrest

theorem validUtf8_encode_all (cps : List Nat) (h : ∀ cp ∈ cps, IsScalarValue cp) :
    ValidUtf8 (utf8_encode_all cps) := by
  induction cps with
  | nil => exact ValidUtf8.nil
  | cons cp cps ih =>
    exact validUtf8_encode cp _ (h cp (List.mem_cons_self _ _))
      (ih (fun c hc => h c (List.mem_cons_of_mem _ hc)))

theorem utf8to16_list_asserts_of_leadAt (str suf : List Nat) (h : Utf8LeadAt str suf)
    (hs : (utf8to16_list suf).asserts_hold = false) :
    (utf8to16_list str).asserts_hold = false := by
  induction h with
  | start => exact hs
  | next c rest _ ih =>
    apply ih
    rw [utf8to16_list_cons]
    simp [hs]

theorem utf8to16_list_truncated (c : Nat) (tail : List Nat)
    (h : (0xC0 ≤ c ∧ c ≤ 0xDF ∧ tail.length < 1) ∨ (0xE0 ≤ c ∧ c ≤ 0xEF ∧ tail.length < 2)
      ∨ (0xF0 ≤ c ∧ c ≤ 0xF7 ∧ tail.length < 3)) :
    (utf8to16_list (c :: tail)).asserts_hold = false := by
  have hi : (utf8to16_iteration c tail).holds = false := by
    rcases h with ⟨h1, h2, h3⟩ | ⟨h1, h2, h3⟩ | ⟨h1, h2, h3⟩
    · have e1 : ¬UINT8 c < 0x80 := by simp only [UINT8]; omega
      have e2 : UINT8 c >>> 5 = 6 := by simp only [UINT8, Nat.shiftRight_eq_div_pow]; omega
      match tail, h3 with
      | [], _ => simp only [utf8to16_iteration, if_neg e1, if_pos e2]
    · have e1 : ¬UINT8 c < 0x80 := by simp only [UINT8]; omega
      have e2 : ¬UINT8 c >>> 5 = 6 := by simp only [UINT8, Nat.shiftRight_eq_div_pow]; omega
      have e3 : UINT8 c >>> 4 = 14 := by simp only [UINT8, Nat.shiftRight_eq_div_pow]; omega
      match tail, h3 with
      | [], _ => simp only [utf8to16_iteration, if_neg e1, if_neg e2, if_pos e3]
      | [_], _ => simp only [utf8to16_iteration, if_neg e1, if_neg e2, if_pos e3]
    · have e1 : ¬UINT8 c < 0x80 := by simp only [UINT8]; omega
      have e2 : ¬UINT8 c >>> 5 = 6 := by simp only [UINT8, Nat.shiftRight_eq_div_pow]; omega
      have e3 : ¬UINT8 c >>> 4 = 14 := by simp only [UINT8, Nat.shiftRight_eq_div_pow]; omega
      have e4 : UINT8 c >>> 3 = 30 := by simp only [UINT8, Nat.shiftRight_eq_div_pow]; omega
      match tail, h3 with
      | [], _ => simp only [utf8to16_iteration, if_neg e1, if_neg e2, if_neg e3, if_pos e4]
      | [_], _ => simp only [utf8to16_iteration, if_neg e1, if_neg e2, if_neg e3, if_pos e4]
      | [_, _], _ => simp only [utf8to16_iteration, if_neg e1, if_neg e2, if_neg e3, if_pos e4]
  rw [utf8to16_list_cons, hi]
  rfl

/-- C1. Round trip from UTF-8: for every valid UTF-8 byte sequence `s`, `utf8to16 s` returns
a UTF-16 string `u` with every assertion holding, and `utf16to8 u` returns `s`. -/
theorem utf8_roundtrip (s : List Nat) (h : ValidUtf8 s) :
    ∃ u, utf8to16 s = Run.ret ⟨u, true⟩ ∧ utf16to8 u = Run.ret s := by
  have hl := utf8_roundtrip_list s h
  refine ⟨(utf8to16_list s).dest, ?_, ?_⟩
  · rw [utf8to16_eq_list, ← hl.1]
  · rw [utf16to8_eq_list, hl.2]

theorem utf8_roundtrip_witness :
    ValidUtf8 [0x61, 0xC3, 0xA9, 0xE2, 0x82, 0xAC, 0xF0, 0x9F, 0x98, 0x80] ∧
      ∃ u, utf8to16 [0x61, 0xC3, 0xA9, 0xE2, 0x82, 0xAC, 0xF0, 0x9F, 0x98, 0x80]
          = Run.ret ⟨u, true⟩ ∧
        utf16to8 u = Run.ret [0x61, 0xC3, 0xA9, 0xE2, 0x82, 0xAC, 0xF0, 0x9F, 0x98, 0x80] :=
  have hv : ValidUtf8 [0x61, 0xC3, 0xA9, 0xE2, 0x82, 0xAC, 0xF0, 0x9F, 0x98, 0x80] :=
    ValidUtf8.one _ _ (by decide)
      (ValidUtf8.two _ _ _ (by decide) (by decide) (by decide)
        (ValidUtf8.three _ _ _ _ (by decide) (by decide) (by decide) (by decide) (by decide)
          (by decide)
          (ValidUtf8.four _ _ _ _ _ (by decide) (by decide) (by decide) (by decide) (by decide)
            (by decide) (by decide) ValidUtf8.nil)))
  ⟨hv, utf8_roundtrip _ hv⟩

/-- C2. Round trip from UTF-16: for every sequence `u` of 16-bit units in which each high
surrogate is immediately followed by a low surrogate and no low surrogate stands alone,
`utf16to8 u` returns a byte string `s`, and `utf8to16 s` returns `u` with every assertion
holding. -/
theorem utf16_roundtrip (u : List Nat) (h : WellFormedUtf16 u) :
    ∃ s, utf16to8 u = Run.ret s ∧ utf8to16 s = Run.ret ⟨u, true⟩ := by
  obtain ⟨s, h1, h2⟩ := utf16_roundtrip_list u h
  refine ⟨s, ?_, ?_⟩
  · rw [utf16to8_eq_list, h1]
  · rw [utf8to16_eq_list, h2]

theorem utf16_roundtrip_witness :
    WellFormedUtf16 [0x61, 0xE9, 0x20AC, 0xD83D, 0xDE00] ∧
      ∃ s, utf16to8 [0x61, 0xE9, 0x20AC, 0xD83D, 0xDE00] = Run.ret s ∧
        utf8to16 s = Run.ret ⟨[0x61, 0xE9, 0x20AC, 0xD83D, 0xDE00], true⟩ :=
  have hw : WellFormedUtf16 [0x61, 0xE9, 0x20AC, 0xD83D, 0xDE00] :=
    WellFormedUtf16.unit _ _ (by decide) (by decide)
      (WellFormedUtf16.unit _ _ (by decide) (by decide)
        (WellFormedUtf16.unit _ _ (by decide) (by decide)
          (WellFormedUtf16.pair _ _ _ (by decide) (by decide) (by decide) (by decide)
            WellFormedUtf16.nil)))
  ⟨hw, utf16_roundtrip _ hw⟩

/-- C3. For a high surrogate `hi` in `[0xD800, 0xDBFF]` followed by a low surrogate `lo` in
`[0xDC00, 0xDFFF]`, the value `utf16to8` computes, `(hi << 10) + lo + 0xFCA02400` modulo
`2^32`, is the standard code point `0x10000 + ((hi - 0xD800) << 10) + (lo - 0xDC00)`, and
`utf16to8` returns exactly the 4-byte UTF-8 form of that code point; the pair
`[0xD800, 0xDC00]` gives `F0 90 80 80`, which `utf8to16` turns back into the pair. -/
theorem utf16to8_surrogate_pair (hi lo : Nat) (h1 : 0xD800 ≤ hi) (h2 : hi ≤ 0xDBFF)
    (h3 : 0xDC00 ≤ lo) (h4 : lo ≤ 0xDFFF) :
    utf16to8_combine hi lo = ((hi <<< 10) + lo + 0xFCA02400) % 4294967296 ∧
    utf16to8_combine hi lo = 0x10000 + ((hi - 0xD800) <<< 10) + (lo - 0xDC00) ∧
    utf16to8 [hi, lo] =
      Run.ret [0xF0 ||| (utf16to8_combine hi lo >>> 18),
        0x80 ||| ((utf16to8_combine hi lo >>> 12) &&& 0x3F),
        0x80 ||| ((utf16to8_combine hi lo >>> 6) &&& 0x3F),
        0x80 ||| (utf16to8_combine hi lo &&& 0x3F)] ∧
    utf16to8 [0xD800, 0xDC00] = Run.ret [0xF0, 0x90, 0x80, 0x80] ∧
    utf8to16 [0xF0, 0x90, 0x80, 0x80] = Run.ret ⟨[0xD800, 0xDC00], true⟩ := by
  have hc := utf16to8_combine_eq hi lo h1 h2 h3 h4
  have hr := surrogate_code_point_range hi lo h1 h2 h3 h4
  refine ⟨?_, ?_, ?_, by decide, by decide⟩
  · simp only [utf16to8_combine, u32, and_0xFFFF, Nat.shiftLeft_eq]
    omega
  · rw [hc]; rfl
  · rw [utf16to8_eq_list, utf16to8_list_pair hi lo [] h1 h2 h3 h4, hc]
    have e : utf8_encode (surrogate_code_point hi lo) =
        [0xF0 ||| (surrogate_code_point hi lo >>> 18),
          0x80 ||| ((surrogate_code_point hi lo >>> 12) &&& 0x3F),
          0x80 ||| ((surrogate_code_point hi lo >>> 6) &&& 0x3F),
          0x80 ||| (surrogate_code_point hi lo &&& 0x3F)] := by
      rw [utf8_encode, if_neg (by omega), if_neg (by omega), if_neg (by omega)]
    simp [utf16to8_list, e]

theorem utf16to8_surrogate_pair_witness :
    utf16to8_combine 0xDBFF 0xDFFF = 0x10000 + ((0xDBFF - 0xD800) <<< 10) + (0xDFFF - 0xDC00) ∧
      utf16to8 [0xDBFF, 0xDFFF] = Run.ret [0xF4, 0x8F, 0xBF, 0xBF] := by
  have h := utf16to8_surrogate_pair 0xDBFF 0xDFFF (by decide) (by decide) (by decide) (by decide)
  refine ⟨h.2.1, ?_⟩
  rw [h.2.2.1]
  decide

/-- C4. On well-formed UTF-16 `utf16to8` is the standard UTF-8 encoder: its output is the
concatenation, in order, of the standard encodings of the code points of the input; and a
unit `v` that is not a surrogate is written as `[v]` below `0x80`, as
`[0xC0 | (v >> 6), 0x80 | (v & 0x3F)]` below `0x800`, and otherwise as
`[0xE0 | (v >> 12), 0x80 | ((v >> 6) & 0x3F), 0x80 | (v & 0x3F)]`. -/
theorem utf16to8_standard_encoder (u : List Nat) (h : WellFormedUtf16 u) :
    utf16to8 u = Run.ret (utf8_encode_all (utf16_code_points u)) ∧
    ∀ v : Nat, v < 0x10000 → ¬(0xD800 ≤ v ∧ v ≤ 0xDFFF) →
      utf16to8 [v] = Run.ret
        (if v < 0x80 then [v]
         else if v < 0x800 then [0xC0 ||| (v >>> 6), 0x80 ||| (v &&& 0x3F)]
         else [0xE0 ||| (v >>> 12), 0x80 ||| ((v >>> 6) &&& 0x3F), 0x80 ||| (v &&& 0x3F)]) := by
  refine ⟨?_, ?_⟩
  · rw [utf16to8_eq_list, utf16to8_list_code_points u h]
  · intro v hv hs
    rw [utf16to8_eq_list, utf16to8_list_unit v [] hv (by omega)]
    have e : utf8_encode v =
        (if v < 0x80 then [v]
         else if v < 0x800 then [0xC0 ||| (v >>> 6), 0x80 ||| (v &&& 0x3F)]
         else [0xE0 ||| (v >>> 12), 0x80 ||| ((v >>> 6) &&& 0x3F), 0x80 ||| (v &&& 0x3F)]) := by
      unfold utf8_encode
      split_ifs <;> rfl
    simp [utf16to8_list, e]

theorem utf16to8_standard_encoder_witness :
    utf16to8 [0x61, 0xE9, 0x20AC, 0xD83D, 0xDE00] =
      Run.ret (utf8_encode_all (utf16_code_points [0x61, 0xE9, 0x20AC, 0xD83D, 0xDE00])) ∧
    utf8_encode_all (utf16_code_points [0x61, 0xE9, 0x20AC, 0xD83D, 0xDE00]) =
      [0x61, 0xC3, 0xA9, 0xE2, 0x82, 0xAC, 0xF0, 0x9F, 0x98, 0x80] :=
  ⟨(utf16to8_standard_encoder [0x61, 0xE9, 0x20AC, 0xD83D, 0xDE00]
      (WellFormedUtf16.unit _ _ (by decide) (by decide)
        (WellFormedUtf16.unit _ _ (by decide) (by decide)
          (WellFormedUtf16.unit _ _ (by decide) (by decide)
            (WellFormedUtf16.pair _ _ _ (by decide) (by decide) (by decide) (by decide)
              WellFormedUtf16.nil))))).1, by decide⟩

/-- C5. For the valid UTF-8 encoding of one code point `cp` (at most `0x10FFFF`), `utf8to16`
returns exactly one unit equal to `cp` when `cp ≤ 0xFFFF`, and for `cp` in
`[0x10000, 0x10FFFF]` exactly the two units `(cp >> 10) + 0xD7C0` and
`(cp & 0x3FF) + 0xDC00`, the first in `[0xD800, 0xDBFF]` and the second in
`[0xDC00, 0xDFFF]`; no assertion fails. -/
theorem utf8to16_code_point (cp : Nat) (h : cp ≤ 0x10FFFF) :
    (cp ≤ 0xFFFF → utf8to16 (utf8_encode cp) = Run.ret ⟨[cp], true⟩) ∧
    (0x10000 ≤ cp →
      utf8to16 (utf8_encode cp) =
        Run.ret ⟨[(cp >>> 10) + 0xD7C0, (cp &&& 0x3FF) + 0xDC00], true⟩ ∧
      0xD800 ≤ (cp >>> 10) + 0xD7C0 ∧ (cp >>> 10) + 0xD7C0 ≤ 0xDBFF ∧
      0xDC00 ≤ (cp &&& 0x3FF) + 0xDC00 ∧ (cp &&& 0x3FF) + 0xDC00 ≤ 0xDFFF) := by
  have e := utf8to16_list_encode cp [] h
  rw [List.append_nil, utf8to16_list_nil] at e
  refine ⟨?_, ?_⟩
  · intro h1
    rw [utf8to16_eq_list, e, utf16_encode, if_pos h1]
    rfl
  · intro h1
    refine ⟨?_, ?_⟩
    · rw [utf8to16_eq_list, e, utf16_encode, if_neg (by omega)]
      rfl
    · simp only [Nat.shiftRight_eq_div_pow, and_0x3FF]
      omega

theorem utf8to16_code_point_witness :
    utf8to16 (utf8_encode 0x20AC) = Run.ret ⟨[0x20AC], true⟩ ∧
      utf8to16 (utf8_encode 0x1F600) = Run.ret ⟨[0xD83D, 0xDE00], true⟩ :=
  ⟨(utf8to16_code_point 0x20AC (by decide)).1 (by decide),
    ((utf8to16_code_point 0x1F600 (by decide)).2 (by decide)).1⟩

/-- When the loop of `utf8to16` reads the lead byte of a 2-, 3- or 4-byte sequence in lead
position and the input ends before the sequence is complete, the condition of the
`"Invalid UTF8 string"` assertion is false. -/
theorem utf8to16_truncated_of_leadAt (str : List Nat) (c : Nat) (tail : List Nat)
    (hpos : Utf8LeadAt str (c :: tail))
    (htrunc : (0xC0 ≤ c ∧ c ≤ 0xDF ∧ tail.length < 1) ∨ (0xE0 ≤ c ∧ c ≤ 0xEF ∧ tail.length < 2)
      ∨ (0xF0 ≤ c ∧ c ≤ 0xF7 ∧ tail.length < 3)) :
    ∃ dest, utf8to16 str = Run.ret ⟨dest, false⟩ := by
  refine ⟨(utf8to16_list str).dest, ?_⟩
  rw [utf8to16_eq_list,
    ← utf8to16_list_asserts_of_leadAt str (c :: tail) hpos (utf8to16_list_truncated c tail htrunc)]

/-- An instance of `utf8to16_truncated_of_leadAt`: the bytes `61 C3 A9 E2 82`. -/
theorem utf8to16_truncated_of_leadAt_example :
    Utf8LeadAt [0x61, 0xC3, 0xA9, 0xE2, 0x82] [0xE2, 0x82] ∧
      ∃ dest, utf8to16 [0x61, 0xC3, 0xA9, 0xE2, 0x82] = Run.ret ⟨dest, false⟩ :=
  have hpos : Utf8LeadAt [0x61, 0xC3, 0xA9, 0xE2, 0x82] [0xE2, 0x82] :=
    Utf8LeadAt.next 0xC3 [0xA9, 0xE2, 0x82] (Utf8LeadAt.next 0x61 [0xC3, 0xA9, 0xE2, 0x82]
      Utf8LeadAt.start)
  ⟨hpos, utf8to16_truncated_of_leadAt _ 0xE2 [0x82] hpos (Or.inr (Or.inl (by decide)))⟩

theorem utf8to16_iteration_extra_single (b0 : Nat) (rest : List Nat)
    (h : b0 < 0xC0 ∨ (0xF7 < b0 ∧ b0 ≤ 0xFF)) : (utf8to16_iteration b0 rest).extra = 0 := by
  unfold utf8to16_iteration
  split_ifs with h1 h2 h3 h4
  · rfl
  · exfalso
    simp only [UINT8, Nat.shiftRight_eq_div_pow] at h1 h2
    omega
  · exfalso
    simp only [UINT8, Nat.shiftRight_eq_div_pow] at h1 h3
    omega
  · exfalso
    simp only [UINT8, Nat.shiftRight_eq_div_pow] at h1 h4
    omega
  · rfl

theorem utf8to16_iteration_extra_two (b0 b1 : Nat) (rest : List Nat)
    (h1 : 0xC0 ≤ b0) (h2 : b0 ≤ 0xDF) : (utf8to16_iteration b0 (b1 :: rest)).extra = 1 := by
  have e1 : ¬UINT8 b0 < 0x80 := by simp only [UINT8]; omega
  have e2 : UINT8 b0 >>> 5 = 6 := by simp only [UINT8, Nat.shiftRight_eq_div_pow]; omega
  simp only [utf8to16_iteration, if_neg e1, if_pos e2]

theorem utf8to16_iteration_extra_three (b0 b1 b2 : Nat) (rest : List Nat)
    (h1 : 0xE0 ≤ b0) (h2 : b0 ≤ 0xEF) :
    (utf8to16_iteration b0 (b1 :: b2 :: rest)).extra = 2 := by
  have e1 : ¬UINT8 b0 < 0x80 := by simp only [UINT8]; omega
  have e2 : ¬UINT8 b0 >>> 5 = 6 := by simp only [UINT8, Nat.shiftRight_eq_div_pow]; omega
  have e3 : UINT8 b0 >>> 4 = 14 := by simp only [UINT8, Nat.shiftRight_eq_div_pow]; omega
  simp only [utf8to16_iteration, if_neg e1, if_neg e2, if_pos e3]

theorem utf8to16_iteration_extra_four (b0 b1 b2 b3 : Nat) (rest : List Nat)
    (h1 : 0xF0 ≤ b0) (h2 : b0 ≤ 0xF7) :
    (utf8to16_iteration b0 (b1 :: b2 :: b3 :: rest)).extra = 3 := by
  have e1 : ¬UINT8 b0 < 0x80 := by simp only [UINT8]; omega
  have e2 : ¬UINT8 b0 >>> 5 = 6 := by simp only [UINT8, Nat.shiftRight_eq_div_pow]; omega
  have e3 : ¬UINT8 b0 >>> 4 = 14 := by simp only [UINT8, Nat.shiftRight_eq_div_pow]; omega
  have e4 : UINT8 b0 >>> 3 = 30 := by simp only [UINT8, Nat.shiftRight_eq_div_pow]; omega
  simp only [utf8to16_iteration, if_neg e1, if_neg e2, if_neg e3, if_pos e4]

/-- After a part that its lead bytes cut into complete sequences, the loop of `utf8to16`
reads the next byte in lead position. -/
theorem utf8LeadAt_of_framed (str suf : List Nat) (pre : List Nat) (hpre : Utf8Framed pre) :
    Utf8LeadAt str (pre ++ suf) → Utf8LeadAt str suf := by
  induction hpre with
  | nil => intro h; exact h
  | one b0 rest hb _ ih =>
    intro h
    have := Utf8LeadAt.next b0 (rest ++ suf) h
    rw [utf8to16_iteration_extra_single b0 _ hb] at this
    exact ih this
  | two b0 b1 rest h1 h2 _ ih =>
    intro h
    have := Utf8LeadAt.next b0 (b1 :: rest ++ suf) h
    rw [List.cons_append, utf8to16_iteration_extra_two b0 b1 _ h1 h2] at this
    exact ih this
  | three b0 b1 b2 rest h1 h2 _ ih =>
    intro h
    have := Utf8LeadAt.next b0 (b1 :: b2 :: rest ++ suf) h
    rw [List.cons_append, List.cons_append,
      utf8to16_iteration_extra_three b0 b1 b2 _ h1 h2] at this
    exact ih this
  | four b0 b1 b2 b3 rest h1 h2 _ ih =>
    intro h
    have := Utf8LeadAt.next b0 (b1 :: b2 :: b3 :: rest ++ suf) h
    rw [List.cons_append, List.cons_append, List.cons_append,
      utf8to16_iteration_extra_four b0 b1 b2 b3 _ h1 h2] at this
    exact ih this

/-- Valid UTF-8 is cut into complete sequences by its lead bytes. -/
theorem utf8Framed_of_valid (s : List Nat) (h : ValidUtf8 s) : Utf8Framed s := by
  induction h with
  | nil => exact Utf8Framed.nil
  | one b0 rest h0 _ ih => exact Utf8Framed.one b0 rest (Or.inl (by omega)) ih
  | two b0 b1 rest h1 h2 _ _ ih => exact Utf8Framed.two b0 b1 rest (by omega) h2 ih
  | three b0 b1 b2 rest h1 h2 _ _ _ _ _ ih => exact Utf8Framed.three b0 b1 b2 rest h1 h2 ih
  | four b0 b1 b2 b3 rest h1 h2 _ _ _ _ _ _ ih =>
    exact Utf8Framed.four b0 b1 b2 b3 rest h1 (by omega) ih

/-- C6 (counterexample). In `C3 C3`, `41 C3 C3`, `E2 82 C3` and `F0 9F 98 E2` the last
byte is the lead byte of a 2- or 3-byte sequence and the input ends before that sequence is
complete, yet `utf8to16` returns converted output with every assertion holding: the byte
stands where the sequence before it has a continuation byte, and is not looked at. -/
theorem utf8to16_truncated_unsignalled :
    utf8to16 [0xC3, 0xC3] = Run.ret ⟨[0xC3], true⟩ ∧
      utf8to16 [0x41, 0xC3, 0xC3] = Run.ret ⟨[0x41, 0xC3], true⟩ ∧
      utf8to16 [0xE2, 0x82, 0xC3] = Run.ret ⟨[0x2083], true⟩ ∧
      utf8to16 [0xF0, 0x9F, 0x98, 0xE2] = Run.ret ⟨[0xD83D, 0xDE22], true⟩ := by
  decide

/-- C6 (amended). For every byte sequence made of a part that its lead bytes cut into
complete sequences, valid UTF-8 for one, and then the lead byte of a 2-, 3- or 4-byte
sequence with fewer bytes after it than the sequence needs, `utf8to16` signals invalid
input: it returns with the condition of its `"Invalid UTF8 string"` assertion false. -/
theorem utf8to16_truncated_signals (pre : List Nat) (c : Nat) (tail : List Nat)
    (hpre : Utf8Framed pre)
    (htrunc : (0xC0 ≤ c ∧ c ≤ 0xDF ∧ tail.length < 1) ∨ (0xE0 ≤ c ∧ c ≤ 0xEF ∧ tail.length < 2)
      ∨ (0xF0 ≤ c ∧ c ≤ 0xF7 ∧ tail.length < 3)) :
    ∃ dest, utf8to16 (pre ++ c :: tail) = Run.ret ⟨dest, false⟩ := by
  have hpos : Utf8LeadAt (pre ++ c :: tail) (c :: tail) :=
    utf8LeadAt_of_framed (pre ++ c :: tail) (c :: tail) pre hpre Utf8LeadAt.start
  refine ⟨(utf8to16_list (pre ++ c :: tail)).dest, ?_⟩
  rw [utf8to16_eq_list,
    ← utf8to16_list_asserts_of_leadAt (pre ++ c :: tail) (c :: tail) hpos
      (utf8to16_list_truncated c tail htrunc)]

theorem utf8to16_truncated_signals_witness :
    Utf8Framed [0x61, 0xC3, 0xA9] ∧
      ∃ dest, utf8to16 ([0x61, 0xC3, 0xA9] ++ 0xE2 :: [0x82]) = Run.ret ⟨dest, false⟩ :=
  have hpre : Utf8Framed [0x61, 0xC3, 0xA9] :=
    Utf8Framed.one 0x61 _ (Or.inl (by decide))
      (Utf8Framed.two 0xC3 0xA9 [] (by decide) (by decide) Utf8Framed.nil)
  ⟨hpre, utf8to16_truncated_signals [0x61, 0xC3, 0xA9] 0xE2 [0x82] hpre
    (Or.inr (Or.inl (by decide)))⟩

/-- C7, counterexample. The byte `0x41` stands in continuation position after the lead byte
`0xC3` and is not of the form `10xxxxxx`, yet `utf8to16` returns with every assertion
holding. -/
theorem utf8to16_invalid_continuation_unsignalled :
    ¬IsContinuation 0x41 ∧ utf8to16 [0xC3, 0x41] = Run.ret ⟨[0xC1], true⟩ := by
  decide

/-- C7, amended. `utf8to16` does not examine the bytes in continuation position: when a 2-,
3- or 4-byte lead byte is followed by its 1, 2 or 3 bytes, whatever their values, the
iteration signals nothing, so that the call signals invalid input exactly when converting
what follows the sequence does. -/
theorem utf8to16_continuation_unchecked (c : Nat) (tail rest : List Nat)
    (h : (0xC0 ≤ c ∧ c ≤ 0xDF ∧ tail.length = 1) ∨ (0xE0 ≤ c ∧ c ≤ 0xEF ∧ tail.length = 2)
      ∨ (0xF0 ≤ c ∧ c ≤ 0xF7 ∧ tail.length = 3)) :
    ∃ units r, utf8to16 rest = Run.ret r ∧
      utf8to16 (c :: (tail ++ rest)) = Run.ret ⟨units ++ r.dest, r.asserts_hold⟩ := by
  rcases h with ⟨h1, h2, h3⟩ | ⟨h1, h2, h3⟩ | ⟨h1, h2, h3⟩
  · match tail, h3 with
    | [b1], _ =>
      refine ⟨utf8to16_push ((c - 0xC0) * 64 + b1 % 64), utf8to16_list rest, utf8to16_eq_list rest, ?_⟩
      rw [utf8to16_eq_list, List.singleton_append, utf8to16_list_cons,
        utf8to16_iteration_2 c b1 rest h1 h2]
      simp
  · match tail, h3 with
    | [b1, b2], _ =>
      refine ⟨utf8to16_push ((c - 0xE0) * 4096 + b1 % 64 * 64 + b2 % 64), utf8to16_list rest, utf8to16_eq_list rest, ?_⟩
      rw [utf8to16_eq_list, List.cons_append, List.singleton_append, utf8to16_list_cons,
        utf8to16_iteration_3 c b1 b2 rest h1 h2]
      simp
  · match tail, h3 with
    | [b1, b2, b3], _ =>
      refine ⟨utf8to16_push ((c - 0xF0) * 262144 + b1 % 64 * 4096 + b2 % 64 * 64 + b3 % 64),
        utf8to16_list rest, utf8to16_eq_list rest, ?_⟩
      rw [utf8to16_eq_list, List.cons_append, List.cons_append, List.singleton_append,
        utf8to16_list_cons, utf8to16_iteration_4 c b1 b2 b3 rest h1 h2]
      simp

theorem utf8to16_continuation_unchecked_witness :
    ∃ units r, utf8to16 [0x61] = Run.ret r ∧
      utf8to16 (0xE2 :: ([0x28, 0xFF] ++ [0x61])) = Run.ret ⟨units ++ r.dest, r.asserts_hold⟩ :=
  utf8to16_continuation_unchecked 0xE2 [0x28, 0xFF] [0x61] (Or.inr (Or.inl (by decide)))

/-- The `else` branch of `utf8to16`, `assertm(str[pos], "Invalid UTF8 string")`, tests a
byte that is at least `0x80`, hence not zero: a lone continuation byte such as `0x80` in
lead position passes the assertion. -/
theorem utf8to16_invalid_lead_unsignalled :
    utf8to16 [0x80] = Run.ret ⟨[0x80], true⟩ ∧ utf8to16 [0xFF] = Run.ret ⟨[0xFF], true⟩ := by
  decide

theorem occursAt_lt_length (main sub : List Nat) (i : Nat) (hsub : sub ≠ [])
    (h : OccursAt main sub i) : i < main.length := by
  unfold OccursAt at h
  by_contra hge
  rw [List.drop_of_length_le (by omega)] at h
  simp at h
  exact hsub h

theorem occursAt_cons_succ (c : Nat) (rest sub : List Nat) (i : Nat) :
    OccursAt (c :: rest) sub (i + 1) ↔ OccursAt rest sub i := by
  simp [OccursAt]

/-- What `string_view_find_at` returns: `pos` plus the first index of `rest` at which
`sub` occurs, or `npos` when it occurs nowhere. -/
theorem string_view_find_at_spec (sub : List Nat) (hsub : sub ≠ []) :
    ∀ (rest : List Nat) (pos : Nat),
      (∃ i, string_view_find_at sub rest pos = pos + i ∧ OccursAt rest sub i ∧
        ∀ j, j < i → ¬OccursAt rest sub j) ∨
      (string_view_find_at sub rest pos = tt.npos ∧ ∀ i, ¬OccursAt rest sub i) := by
  intro rest
  induction rest with
  | nil =>
    intro pos
    right
    refine ⟨by simp [string_view_find_at, hsub], ?_⟩
    intro i h
    simp [OccursAt] at h
    exact hsub h
  | cons c rest ih =>
    intro pos
    by_cases h0 : (c :: rest).take sub.length = sub
    · left
      exact ⟨0, by simp [string_view_find_at, h0], by simpa [OccursAt] using h0,
        fun j hj => by omega⟩
    · have hstep : string_view_find_at sub (c :: rest) pos =
          string_view_find_at sub rest (pos + 1) := by
        simp [string_view_find_at, h0]
      have hnot0 : ¬OccursAt (c :: rest) sub 0 := by simpa [OccursAt] using h0
      rcases ih (pos + 1) with ⟨i, hi, hocc, hmin⟩ | ⟨hnone, hall⟩
      · left
        refine ⟨i + 1, by rw [hstep, hi]; omega, (occursAt_cons_succ c rest sub i).2 hocc, ?_⟩
        intro j hj
        cases j with
        | zero => exact hnot0
        | succ j => exact fun h => hmin j (by omega) ((occursAt_cons_succ c rest sub j).1 h)
      · right
        refine ⟨by rw [hstep, hnone], ?_⟩
        intro i
        cases i with
        | zero => exact hnot0
        | succ i => exact fun h => hall i ((occursAt_cons_succ c rest sub i).1 h)

/-- C8. An empty needle is never found, whatever the haystack and the case mode:
`find_str(main, "", mode)` is the empty view, `findstr_pos(main, "", mode)` is `npos` and
`contains(main, "", mode)` is `false`. -/
theorem find_str_empty_needle (tolower : Nat → Int) (fuel : Nat) (main : List Nat)
    (checkcase : tt.CASE) :
    find_str tolower fuel main [] checkcase = Run.ret [] ∧
    findstr_pos tolower fuel main [] checkcase = Run.ret tt.npos ∧
    contains tolower fuel main [] checkcase = Run.ret false := by
  have h : find_str tolower fuel main [] checkcase = Run.ret [] := by
    simp [find_str]
  refine ⟨h, ?_, ?_⟩
  · rw [findstr_pos, h]; rfl
  · rw [contains, h]; rfl

/-- C9. For a non-empty `sub`, in `CASE::exact` mode: `findstr_pos(main, sub)` is the
smallest index at which the `sub.length` bytes of `main` equal `sub`, `find_str` returns the
suffix of `main` starting there and `contains` is `true`; when `sub` occurs nowhere they
return `npos`, the empty view and `false`. So `contains` is `true` exactly when `sub`
occurs somewhere. (`main.length ≤ npos` holds of every `std::string_view`.) -/
theorem find_str_exact (tolower : Nat → Int) (fuel : Nat) (main sub : List Nat)
    (hsub : sub ≠ []) (hsize : main.length ≤ tt.npos) :
    (∀ i, OccursAt main sub i → (∀ j, j < i → ¬OccursAt main sub j) →
      findstr_pos tolower fuel main sub tt.CASE.exact = Run.ret i ∧
      find_str tolower fuel main sub tt.CASE.exact = Run.ret (main.drop i) ∧
      contains tolower fuel main sub tt.CASE.exact = Run.ret true) ∧
    ((∀ i, ¬OccursAt main sub i) →
      findstr_pos tolower fuel main sub tt.CASE.exact = Run.ret tt.npos ∧
      find_str tolower fuel main sub tt.CASE.exact = Run.ret [] ∧
      contains tolower fuel main sub tt.CASE.exact = Run.ret false) ∧
    (contains tolower fuel main sub tt.CASE.exact = Run.ret true ↔ ∃ i, OccursAt main sub i) := by
  have hne : sub.isEmpty = false := by cases sub <;> simp_all
  have hfound : ∀ i, OccursAt main sub i → (∀ j, j < i → ¬OccursAt main sub j) →
      findstr_pos tolower fuel main sub tt.CASE.exact = Run.ret i ∧
      find_str tolower fuel main sub tt.CASE.exact = Run.ret (main.drop i) ∧
      contains tolower fuel main sub tt.CASE.exact = Run.ret true := by
    intro i hocc hmin
    have hpos : string_view_find main sub = i := by
      rcases string_view_find_at_spec sub hsub main 0 with ⟨i2, hi2, hocc2, hmin2⟩ | ⟨_, hall⟩
      · have : i2 = i := by
          rcases Nat.lt_trichotomy i2 i with hlt | heq | hgt
          · exact absurd hocc2 (hmin i2 hlt)
          · exact heq
          · exact absurd hocc (hmin2 i hgt)
        rw [string_view_find, hi2, this]; omega
      · exact absurd hocc (hall i)
    have hlt := occursAt_lt_length main sub i hsub hocc
    have hf : find_str tolower fuel main sub tt.CASE.exact = Run.ret (main.drop i) := by
      simp [find_str, hne, hpos, hlt]
    have hd : (main.drop i).isEmpty = false := by
      cases hdr : main.drop i with
      | nil => simp at hdr; omega
      | cons _ _ => rfl
    refine ⟨?_, hf, ?_⟩
    · rw [findstr_pos, hf]
      simp only [Run.map, hd, List.length_drop, Bool.false_eq_true, if_false]
      congr 1
      exact Nat.sub_sub_self (Nat.le_of_lt hlt)
    · rw [contains, hf]
      simp [Run.map, hd]
  have hnone : (∀ i, ¬OccursAt main sub i) →
      findstr_pos tolower fuel main sub tt.CASE.exact = Run.ret tt.npos ∧
      find_str tolower fuel main sub tt.CASE.exact = Run.ret [] ∧
      contains tolower fuel main sub tt.CASE.exact = Run.ret false := by
    intro hall
    have hpos : string_view_find main sub = tt.npos := by
      rcases string_view_find_at_spec sub hsub main 0 with ⟨i2, _, hocc2, _⟩ | ⟨h, _⟩
      · exact absurd hocc2 (hall i2)
      · exact h
    have hf : find_str tolower fuel main sub tt.CASE.exact = Run.ret [] := by
      simp [find_str, hne, hpos, Nat.not_lt.2 hsize]
    refine ⟨?_, hf, ?_⟩
    · rw [findstr_pos, hf]; rfl
    · rw [contains, hf]; rfl
  refine ⟨hfound, hnone, ?_⟩
  constructor
  · intro hc
    by_contra hex
    have := (hnone (fun i hi => hex ⟨i, hi⟩)).2.2
    rw [this] at hc
    exact absurd hc (by decide)
  · intro hex
    have hex2 : ∃ i, OccursAt main sub i := hex
    exact (hfound (Nat.find hex2) (Nat.find_spec hex2)
      (fun j hj => Nat.find_min hex2 hj)).2.2

theorem find_str_exact_witness :
    findstr_pos c_tolower 0 [72, 101, 108, 108, 111, 32, 87, 111, 114, 108, 100] [108, 111]
        tt.CASE.exact = Run.ret 3 ∧
      find_str c_tolower 0 [72, 101, 108, 108, 111, 32, 87, 111, 114, 108, 100] [108, 111]
        tt.CASE.exact = Run.ret [108, 111, 32, 87, 111, 114, 108, 100] ∧
      contains c_tolower 0 [72, 101, 108, 108, 111, 32, 87, 111, 114, 108, 100] [108, 111]
        tt.CASE.exact = Run.ret true :=
  (find_str_exact c_tolower 0 [72, 101, 108, 108, 111, 32, 87, 111, 114, 108, 100] [108, 111]
    (by decide) (by decide)).1 3 (by decide) (by decide)

theorem getElem?_eq_some_getD (l : List Nat) (i : Nat) (h : i < l.length) :
    l[i]? = some (l.getD i 0) := by
  rw [List.getD_eq_getElem?_getD, List.getElem?_eq_getElem h]
  rfl

/-- What the inner loop of `find_str` does when it has enough fuel: it returns from the
function only if the haystack ends before the needle does, it breaks at a position that
does not match, and otherwise it runs to the end of the needle over matching bytes. -/
theorem find_str_inner_spec (tolower : Nat → Int) (main sub : List Nat) (pos : Nat) :
    ∀ (fuel posSub : Nat), sub.length - posSub < fuel →
      (find_str_inner tolower main sub pos fuel posSub = Run.ret none ∧
        ∃ k, posSub ≤ k ∧ k < sub.length ∧ main.length ≤ pos + k) ∨
      (∃ p, find_str_inner tolower main sub pos fuel posSub = Run.ret (some p) ∧
        ((sub.length ≤ p ∧ ∀ k, posSub ≤ k → k < sub.length →
            pos + k < main.length ∧
              tolower (main.getD (pos + k) 0) = tolower (sub.getD k 0)) ∨
          (p < sub.length ∧ pos + p < main.length ∧
            tolower (main.getD (pos + p) 0) ≠ tolower (sub.getD p 0)))) := by
  intro fuel
  induction fuel with
  | zero => intro posSub h; omega
  | succ n ih =>
    intro posSub h
    rw [find_str_inner]
    by_cases h1 : posSub < sub.length
    · rw [if_pos h1]
      by_cases h2 : pos + posSub ≥ main.length
      · rw [if_pos h2]
        exact Or.inl ⟨rfl, posSub, Nat.le_refl _, h1, h2⟩
      · rw [if_neg h2, getElem?_eq_some_getD main _ (by omega), getElem?_eq_some_getD sub _ h1]
        simp only
        by_cases h3 : tolower (main.getD (pos + posSub) 0) ≠ tolower (sub.getD posSub 0)
        · rw [if_pos h3]
          exact Or.inr ⟨posSub, rfl, Or.inr ⟨h1, by omega, h3⟩⟩
        · rw [if_neg h3]
          rcases ih (posSub + 1) (by omega) with ⟨hr, k, hk1, hk2, hk3⟩ | ⟨p, hr, hp⟩
          · exact Or.inl ⟨hr, k, by omega, hk2, hk3⟩
          · refine Or.inr ⟨p, hr, ?_⟩
            rcases hp with ⟨hp1, hp2⟩ | hp
            · left
              refine ⟨hp1, ?_⟩
              intro k hk1 hk2
              by_cases hk : k = posSub
              · subst hk
                exact ⟨by omega, not_not.1 h3⟩
              · exact hp2 k (by omega) hk2
            · exact Or.inr hp
    · rw [if_neg h1]
      exact Or.inr ⟨posSub, rfl, Or.inl ⟨by omega, fun k hk1 hk2 => by omega⟩⟩

/-- The outer loop of `find_str` on a haystack shorter than `2^32` bytes, with enough fuel:
started at `pos` when `sub` has no folded occurrence before `pos`, it returns the suffix at
the first folded occurrence, or the empty view when there is none. -/
theorem find_str_loop_spec (tolower : Nat → Int) (main sub : List Nat) (hsub : sub ≠ [])
    (hshort : main.length < 4294967296) :
    ∀ (fuel pos : Nat), pos ≤ main.length → main.length - pos < fuel →
      (∀ j, j < pos → ¬FoldOccursAt tolower main sub j) →
      (∀ i, FoldOccursAt tolower main sub i →
        (∀ j, j < i → ¬FoldOccursAt tolower main sub j) →
        find_str_loop tolower main sub (tolower (sub.getD 0 0)) fuel pos
          = Run.ret (main.drop i)) ∧
      ((∀ i, ¬FoldOccursAt tolower main sub i) →
        find_str_loop tolower main sub (tolower (sub.getD 0 0)) fuel pos = Run.ret []) := by
  have hlen : 0 < sub.length := List.length_pos.2 hsub
  intro fuel
  induction fuel with
  | zero => intro pos _ h; omega
  | succ n ih =>
    intro pos hle hfuel hbefore
    rw [find_str_loop]
    by_cases h1 : pos < main.length
    · rw [if_pos h1, getElem?_eq_some_getD main pos h1]
      simp only
      have hnext : u32 (pos + 1) = pos + 1 := by simp only [u32]; omega
      -- the loop goes on at `pos + 1` whenever `sub` does not occur at `pos`
      have hgo : ¬FoldOccursAt tolower main sub pos →
          (∀ i, FoldOccursAt tolower main sub i →
            (∀ j, j < i → ¬FoldOccursAt tolower main sub j) →
            find_str_loop tolower main sub (tolower (sub.getD 0 0)) n (u32 (pos + 1))
              = Run.ret (main.drop i)) ∧
          ((∀ i, ¬FoldOccursAt tolower main sub i) →
            find_str_loop tolower main sub (tolower (sub.getD 0 0)) n (u32 (pos + 1))
              = Run.ret []) := by
        intro hno
        rw [hnext]
        apply ih (pos + 1) (by omega) (by omega)
        intro j hj
        by_cases hjp : j = pos
        · subst hjp; exact hno
        · exact hbefore j (by omega)
      by_cases h2 : tolower (main.getD pos 0) = tolower (sub.getD 0 0)
      · rw [if_pos h2]
        rcases find_str_inner_spec tolower main sub pos sub.length 1 (by omega) with
          ⟨hr, k, hk1, hk2, hk3⟩ | ⟨p, hr, hp⟩
        · -- the haystack ends before the needle: no occurrence at `pos` or later
          rw [hr]
          simp only
          have hnone : ∀ i, ¬FoldOccursAt tolower main sub i := by
            intro i hi
            by_cases hip : i < pos
            · exact hbefore i hip hi
            · have := hi.1
              omega
          exact ⟨fun i hi _ => absurd hi (hnone i), fun _ => trivial⟩
        · rw [hr]
          simp only
          rcases hp with ⟨hp1, hp2⟩ | ⟨hp1, hp2, hp3⟩
          · -- a complete match at `pos`
            rw [if_pos hp1]
            have hocc : FoldOccursAt tolower main sub pos := by
              refine ⟨?_, ?_⟩
              · by_cases hone : sub.length = 1
                · omega
                · have := (hp2 (sub.length - 1) (by omega) (by omega)).1
                  omega
              · intro k hk
                by_cases hk0 : k = 0
                · subst hk0; simpa using h2
                · exact (hp2 k (by omega) hk).2
            refine ⟨?_, fun hall => absurd hocc (hall pos)⟩
            intro i hi hmin
            have : i = pos := by
              rcases Nat.lt_trichotomy i pos with hlt | heq | hgt
              · exact absurd hi (hbefore i hlt)
              · exact heq
              · exact absurd hocc (hmin pos hgt)
            rw [this]
          · -- a mismatch at `pos + p`
            rw [if_neg (by omega)]
            exact hgo (fun hocc => hp3 (hocc.2 p hp1))
      · rw [if_neg h2]
        exact hgo (fun hocc => h2 (by simpa using hocc.2 0 hlen))
    · rw [if_neg h1]
      have hnone : ∀ i, ¬FoldOccursAt tolower main sub i := by
        intro i hi
        by_cases hip : i < pos
        · exact hbefore i hip hi
        · have := hi.1
          omega
      exact ⟨fun i hi _ => absurd hi (hnone i), fun _ => rfl⟩

/-- On a haystack shorter than `2^32` bytes, for a non-empty `sub` and a mode other than
`CASE::exact`, `find_str` with more fuel than the haystack is long returns the suffix of
`main` starting at the smallest index `i` such that `i + |sub| ≤ |main|` and
`tolower(main[i + k]) = tolower(sub[k])` for every `k < |sub|`, and the empty view when
there is no such index: the early `return {}` never skips a later match. -/
theorem find_str_either_short (tolower : Nat → Int) (fuel : Nat) (main sub : List Nat)
    (checkcase : tt.CASE) (hcase : checkcase ≠ tt.CASE.exact) (hsub : sub ≠ [])
    (hshort : main.length < 4294967296) (hfuel : main.length < fuel) :
    (∀ i, FoldOccursAt tolower main sub i →
      (∀ j, j < i → ¬FoldOccursAt tolower main sub j) →
      find_str tolower fuel main sub checkcase = Run.ret (main.drop i)) ∧
    ((∀ i, ¬FoldOccursAt tolower main sub i) →
      find_str tolower fuel main sub checkcase = Run.ret []) := by
  have hne : sub.isEmpty = false := by cases sub <;> simp_all
  have hlen : 0 < sub.length := List.length_pos.2 hsub
  have h := find_str_loop_spec tolower main sub hsub hshort fuel 0 (by omega) (by omega)
    (fun j hj => by omega)
  have e : find_str tolower fuel main sub checkcase =
      find_str_loop tolower main sub (tolower (sub.getD 0 0)) fuel 0 := by
    rw [find_str, hne, if_neg (by decide), if_neg hcase, getElem?_eq_some_getD sub 0 hlen]
  rw [e]
  exact h

theorem find_str_either_short_witness :
    find_str c_tolower 12 [72, 101, 108, 108, 111, 32, 87, 111, 114, 108, 100]
      [87, 79, 82, 76, 68] tt.CASE.either = Run.ret [87, 111, 114, 108, 100] := by
  have h := (find_str_either_short c_tolower 12 [72, 101, 108, 108, 111, 32, 87, 111, 114, 108,
    100] [87, 79, 82, 76, 68] tt.CASE.either (by decide) (by decide) (by decide)
    (by decide)).1 6 ⟨by decide, by decide⟩
    (by
      intro j hj h
      have h0 := h.2 0 (by decide)
      have : j = 0 ∨ j = 1 ∨ j = 2 ∨ j = 3 ∨ j = 4 ∨ j = 5 := by omega
      rcases this with rfl | rfl | rfl | rfl | rfl | rfl <;> revert h0 <;> decide)
  exact h

theorem find_str_loop_replicate (n : Nat) (main : List Nat) (hmain : main = List.replicate n 0x61)
    (hn : n = 4294967296) :
    ∀ (fuel pos : Nat), pos < n →
      find_str_loop c_tolower main [0x62] (c_tolower 0x62) fuel pos = Run.out_of_fuel := by
  intro fuel
  induction fuel with
  | zero => intro pos _; rfl
  | succ k ih =>
    intro pos hpos
    have hlt : pos < main.length := by rw [hmain, List.length_replicate]; exact hpos
    have hget : main[pos]? = some 0x61 := by
      rw [hmain, List.getElem?_replicate, if_pos hpos]
    rw [find_str_loop, if_pos hlt, hget]
    simp only
    rw [if_neg (by decide)]
    exact ih (u32 (pos + 1)) (by simp only [u32]; omega)

theorem find_str_replicate (n : Nat) (main : List Nat) (hmain : main = List.replicate n 0x61)
    (hn : n = 4294967296) (fuel : Nat) :
    find_str c_tolower fuel main [0x62] tt.CASE.either = Run.out_of_fuel := by
  have e : find_str c_tolower fuel main [0x62] tt.CASE.either =
      find_str_loop c_tolower main [0x62] (c_tolower 0x62) fuel 0 := by
    simp [find_str]
  rw [e]
  exact find_str_loop_replicate n main hmain hn fuel 0 (by omega)

/-- C10, failing input. On a haystack of `2^32` bytes `'a'` and the needle `"b"`, in
`CASE::either` mode, the 32-bit counter `pos` of `find_str` wraps to `0` before it reaches
`main.length()`: whatever the fuel, the loop is never left and `find_str` returns
nothing, where the empty view is due. -/
theorem find_str_either_diverges (fuel : Nat) :
    find_str c_tolower fuel (List.replicate 4294967296 0x61) [0x62] tt.CASE.either
      = Run.out_of_fuel :=
  find_str_replicate 4294967296 (List.replicate 4294967296 0x61) rfl rfl fuel

theorem drop_takeWhile_length (p : Nat → Bool) (l : List Nat) :
    l.drop (l.takeWhile p).length = l.dropWhile p := by
  induction l with
  | nil => rfl
  | cons c rest ih =>
    by_cases h : p c = true
    · simp [List.takeWhile_cons, List.dropWhile_cons, h, ih]
    · simp [List.takeWhile_cons, List.dropWhile_cons, h]

theorem takeWhile_length_le (p : Nat → Bool) (l : List Nat) :
    (l.takeWhile p).length ≤ l.length := by
  induction l with
  | nil => simp
  | cons c rest ih =>
    by_cases h : p c = true
    · simp [List.takeWhile_cons, h]; omega
    · simp [List.takeWhile_cons, h]

/-- The length of the longest prefix on which `stop` is false is the first index at which
`stop` is true. -/
theorem takeWhile_length_of_first (stop : Nat → Bool) :
    ∀ (l : List Nat) (i : Nat), i < l.length → stop (l.getD i 0) = true →
      (∀ j, j < i → stop (l.getD j 0) = false) →
      (l.takeWhile (fun c => !stop c)).length = i := by
  intro l
  induction l with
  | nil => intro i hi; simp at hi
  | cons c rest ih =>
    intro i hi hstop hmin
    cases i with
    | zero =>
      have : stop c = true := by simpa using hstop
      simp [List.takeWhile_cons, this]
    | succ i =>
      have h0 : stop c = false := by simpa using hmin 0 (by omega)
      have := ih i (by simpa using hi) (by simpa using hstop)
        (fun j hj => by simpa using hmin (j + 1) (by omega))
      simp [List.takeWhile_cons, h0, this]

theorem takeWhile_length_of_none (stop : Nat → Bool) :
    ∀ (l : List Nat), (∀ i, i < l.length → stop (l.getD i 0) = false) →
      (l.takeWhile (fun c => !stop c)).length = l.length := by
  intro l
  induction l with
  | nil => intro _; rfl
  | cons c rest ih =>
    intro h
    have h0 : stop c = false := by simpa using h 0 (by simp)
    have := ih (fun i hi => by simpa using h (i + 1) (by simpa using hi))
    simp [List.takeWhile_cons, h0, this]

/-- Where the length of the longest prefix on which `stop` is false falls inside the
list, `stop` is true there and false before. -/
theorem takeWhile_length_first (stop : Nat → Bool) :
    ∀ (l : List Nat), (l.takeWhile (fun c => !stop c)).length < l.length →
      stop (l.getD (l.takeWhile (fun c => !stop c)).length 0) = true ∧
      ∀ j, j < (l.takeWhile (fun c => !stop c)).length → stop (l.getD j 0) = false := by
  intro l
  induction l with
  | nil => intro h; simp at h
  | cons c rest ih =>
    intro h
    by_cases h0 : stop c = true
    · simp [List.takeWhile_cons, h0]
    · have h0f : stop c = false := by simpa using h0
      simp only [List.takeWhile_cons, h0f, Bool.not_false, if_true, List.length_cons] at h ⊢
      have := ih (by omega)
      refine ⟨by simpa using this.1, ?_⟩
      intro j hj
      cases j with
      | zero => simpa using h0f
      | succ j => simpa using this.2 j (by omega)

/-- The loop of `find_space`, `find_nonspace` and `stepover`, standing at the end of `pre`
in the string `pre ++ suf` with enough fuel, stops after the longest prefix of `suf` on
which `stop` is false. -/
theorem whitespace_loop_eq (stop : Nat → Bool) :
    ∀ (fuel : Nat) (pre suf : List Nat), suf.length < fuel →
      whitespace_loop stop (pre ++ suf) fuel pre.length =
        Run.ret (pre.length + (suf.takeWhile (fun c => !stop c)).length) := by
  intro fuel
  induction fuel with
  | zero => intro pre suf h; omega
  | succ n ih =>
    intro pre suf h
    cases suf with
    | nil => simp [whitespace_loop]
    | cons c rest =>
      have hlt : pre.length < (pre ++ c :: rest).length := by simp
      rw [whitespace_loop, if_pos hlt, getElem?_append_length]
      simp only [List.getElem?_cons_zero]
      by_cases hs : stop c = true
      · simp [hs, List.takeWhile_cons]
      · have hsf : stop c = false := by simpa using hs
        have := ih (pre ++ [c]) rest (by simp at h; omega)
        simp only [List.append_assoc, List.singleton_append, List.length_append,
          List.length_singleton] at this
        simp only [hsf, Bool.false_eq_true, if_false, this, List.takeWhile_cons, Bool.not_false,
          if_true, List.length_cons]
        congr 1
        omega

/-- The common body of `find_space` and `find_nonspace`: the view returned is what is left
of `str` after its longest prefix on which `stop` is false. -/
theorem whitespace_view_eq (stop : Nat → Bool) (str : List Nat) :
    (if str.isEmpty then Run.ret []
      else (whitespace_loop stop str (str.length + 1) 0).bind fun pos =>
        if pos ≥ str.length then Run.ret [] else Run.ret (str.drop pos)) =
      Run.ret (str.dropWhile (fun c => !stop c)) := by
  cases str with
  | nil => rfl
  | cons c rest =>
    have h := whitespace_loop_eq stop ((c :: rest).length + 1) [] (c :: rest) (by omega)
    simp only [List.nil_append, List.length_nil, Nat.zero_add] at h
    rw [if_neg (by simp), h]
    simp only [Run.bind]
    split
    · rename_i hge
      rw [← drop_takeWhile_length, List.drop_of_length_le hge]
    · rw [drop_takeWhile_length]

theorem find_space_eq (isspace : Nat → Int) (str : List Nat) :
    find_space isspace str = Run.ret (str.dropWhile (fun c => !is_whitespace isspace c)) :=
  whitespace_view_eq _ str

theorem find_nonspace_eq (isspace : Nat → Int) (str : List Nat) :
    find_nonspace isspace str = Run.ret (str.dropWhile (fun c => is_whitespace isspace c)) := by
  have := whitespace_view_eq (fun c => !is_whitespace isspace c) str
  simpa [find_nonspace] using this

theorem stepover_eq (isspace : Nat → Int) (str : List Nat) :
    stepover isspace str =
      Run.ret ((str.dropWhile (fun c => !is_whitespace isspace c)).dropWhile
        (fun c => is_whitespace isspace c)) := by
  cases str with
  | nil => rfl
  | cons c rest =>
    have h := whitespace_loop_eq (fun c => is_whitespace isspace c) ((c :: rest).length + 1) []
      (c :: rest) (by omega)
    simp only [List.nil_append, List.length_nil, Nat.zero_add] at h
    rw [stepover, if_neg (by simp), h]
    simp only [Run.bind]
    generalize hp : ((c :: rest).takeWhile (fun c => !is_whitespace isspace c)).length = p
    have hdrop : (c :: rest).drop p = (c :: rest).dropWhile (fun c => !is_whitespace isspace c) := by
      rw [← hp, drop_takeWhile_length]
    split
    · rename_i hge
      rw [← hdrop, List.drop_of_length_le hge]
      rfl
    · rename_i hlt
      have hsplit : (c :: rest) = (c :: rest).take p ++ (c :: rest).drop p :=
        (List.take_append_drop p _).symm
      have hlen : ((c :: rest).take p).length = p := by
        rw [List.length_take]; omega
      have h2 := whitespace_loop_eq (fun c => !is_whitespace isspace c) ((c :: rest).length + 1)
        ((c :: rest).take p) ((c :: rest).drop p) (by rw [List.length_drop]; omega)
      rw [← hsplit, hlen] at h2
      rw [h2]
      simp only [Bool.not_not]
      generalize hq : (((c :: rest).drop p).takeWhile (fun c => is_whitespace isspace c)).length = q
      have hdrop2 : ((c :: rest).drop p).drop q =
          ((c :: rest).drop p).dropWhile (fun c => is_whitespace isspace c) := by
        rw [← hq, drop_takeWhile_length]
      rw [← hdrop, ← hdrop2, List.drop_drop]
      split
      · rename_i hge2
        rw [List.drop_of_length_le (by omega)]
      · rw [Nat.add_comm]
/-- What `find_space_pos` and `find_nonspace_pos` compute from the view: the length of the
longest prefix of `str` on which `stop` is false when it is shorter than `str`, and `npos`
otherwise. -/
theorem whitespace_pos_eq (stop : Nat → Bool) (str : List Nat) :
    (Run.ret (str.dropWhile (fun c => !stop c)) : Run (List Nat)).map
        (fun view => if view.isEmpty then tt.npos else str.length - view.length) =
      Run.ret (if (str.takeWhile (fun c => !stop c)).length < str.length
        then (str.takeWhile (fun c => !stop c)).length else tt.npos) := by
  have hle := takeWhile_length_le (fun c => !stop c) str
  have hd := drop_takeWhile_length (fun c => !stop c) str
  simp only [Run.map]
  congr 1
  rw [← hd]
  by_cases h : (str.takeWhile (fun c => !stop c)).length < str.length
  · rw [if_pos h]
    have hne : (str.drop (str.takeWhile (fun c => !stop c)).length).isEmpty = false := by
      cases hdr : str.drop (str.takeWhile (fun c => !stop c)).length with
      | nil => simp at hdr; omega
      | cons _ _ => rfl
    rw [hne, List.length_drop]
    simp only [Bool.false_eq_true, if_false]
    exact Nat.sub_sub_self hle
  · rw [if_neg h, List.drop_of_length_le (by omega)]
    rfl

/-- The position returned for a stopping test `stop`: the smallest index at which `stop`
is true, and `npos` exactly when there is none. -/
theorem whitespace_pos_spec (stop : Nat → Bool) (str : List Nat) (r : Run Nat)
    (hr : r = Run.ret (if (str.takeWhile (fun c => !stop c)).length < str.length
        then (str.takeWhile (fun c => !stop c)).length else tt.npos))
    (hsize : str.length ≤ tt.npos) :
    (∀ i, i < str.length → stop (str.getD i 0) = true →
      (∀ j, j < i → stop (str.getD j 0) = false) → r = Run.ret i) ∧
    (r = Run.ret tt.npos ↔ ∀ i, i < str.length → stop (str.getD i 0) = false) := by
  subst hr
  refine ⟨?_, ?_, ?_⟩
  · intro i hi hstop hmin
    rw [takeWhile_length_of_first stop str i hi hstop hmin, if_pos hi]
  · intro h i hi
    by_contra hne
    by_cases hlt : (str.takeWhile (fun c => !stop c)).length < str.length
    · rw [if_pos hlt] at h
      have : (str.takeWhile (fun c => !stop c)).length = tt.npos := by
        injection h
      omega
    · have hle := takeWhile_length_le (fun c => !stop c) str
      have hex : ∃ k, k < str.length ∧ stop (str.getD k 0) = true :=
        ⟨i, hi, by simpa using hne⟩
      classical
      have hex2 : ∃ k, k < str.length ∧ stop (str.getD k 0) = true := hex
      have hk := Nat.find_spec hex2
      have hmin : ∀ j, j < Nat.find hex2 → stop (str.getD j 0) = false := by
        intro j hj
        have := Nat.find_min hex2 hj
        have hjl : j < str.length := by omega
        simpa [hjl] using this
      have := takeWhile_length_of_first stop str (Nat.find hex2) hk.1 hk.2 hmin
      omega
  · intro h
    rw [takeWhile_length_of_none stop str h, if_neg (by omega)]

/-- C13, counterexample. The vertical tab `0x0B` is none of space, tab, CR, LF and
form-feed, yet `is_whitespace`, which is `std::isspace`, is true of it. -/
theorem is_whitespace_vertical_tab :
    is_whitespace c_isspace 0x0B = true ∧
      0x0B ≠ 0x20 ∧ 0x0B ≠ 0x09 ∧ 0x0B ≠ 0x0D ∧ 0x0B ≠ 0x0A ∧ 0x0B ≠ 0x0C := by
  decide

/-- C13, amended. The whitespace test `is_whitespace` is `std::isspace` of the current
locale applied to the character as an `unsigned char`; in the "C" locale it is true for
exactly the six standard white-space characters: space (0x20), tab (0x09), LF (0x0A),
vertical tab (0x0B), form-feed (0x0C) and CR (0x0D). -/
theorem is_whitespace_spec (isspace : Nat → Int) (ch : Nat) :
    (is_whitespace isspace ch = true ↔ isspace (ch % 256) ≠ 0) ∧
    (is_whitespace c_isspace ch = true ↔
      (ch % 256 = 0x20 ∨ ch % 256 = 0x09 ∨ ch % 256 = 0x0A ∨ ch % 256 = 0x0B ∨
        ch % 256 = 0x0C ∨ ch % 256 = 0x0D)) := by
  refine ⟨by simp [is_whitespace], ?_⟩
  simp only [is_whitespace, c_isspace, decide_eq_true_eq]
  split_ifs with h
  · simp only [ne_eq, one_ne_zero, not_false_eq_true, true_iff]
    omega
  · simp only [ne_eq, not_true_eq_false, false_iff]
    omega

/-- C14. For every string `str` (of a size that fits `size_t`), `find_space_pos(str)` is
the smallest index whose character is whitespace and `find_nonspace_pos(str)` the smallest
index whose character is not whitespace; each returns `npos` exactly when `str` has no
such character. -/
theorem find_space_pos_spec (isspace : Nat → Int) (str : List Nat)
    (hsize : str.length ≤ tt.npos) :
    (∀ i, i < str.length → is_whitespace isspace (str.getD i 0) = true →
      (∀ j, j < i → is_whitespace isspace (str.getD j 0) = false) →
      find_space_pos isspace str = Run.ret i) ∧
    (find_space_pos isspace str = Run.ret tt.npos ↔
      ∀ i, i < str.length → is_whitespace isspace (str.getD i 0) = false) ∧
    (∀ i, i < str.length → is_whitespace isspace (str.getD i 0) = false →
      (∀ j, j < i → is_whitespace isspace (str.getD j 0) = true) →
      find_nonspace_pos isspace str = Run.ret i) ∧
    (find_nonspace_pos isspace str = Run.ret tt.npos ↔
      ∀ i, i < str.length → is_whitespace isspace (str.getD i 0) = true) := by
  have h1 := whitespace_pos_spec (fun c => is_whitespace isspace c) str
    (find_space_pos isspace str)
    (by rw [find_space_pos, find_space_eq, whitespace_pos_eq]) hsize
  have h2 := whitespace_pos_spec (fun c => !is_whitespace isspace c) str
    (find_nonspace_pos isspace str)
    (by
      rw [find_nonspace_pos,
        show find_nonspace isspace str = Run.ret (str.dropWhile
          (fun c => !(fun c => !is_whitespace isspace c) c)) by
          rw [find_nonspace_eq]; simp,
        whitespace_pos_eq]) hsize
  simp only [Bool.not_eq_true', Bool.not_eq_false'] at h2
  exact ⟨h1.1, h1.2, h2.1, h2.2⟩

theorem find_space_pos_spec_witness :
    find_space_pos c_isspace [0x61, 0x62, 0x09, 0x20, 0x63] = Run.ret 2 ∧
      find_nonspace_pos c_isspace [0x20, 0x0A, 0x20, 0x63, 0x20] = Run.ret 3 :=
  ⟨(find_space_pos_spec c_isspace [0x61, 0x62, 0x09, 0x20, 0x63] (by decide)).1 2 (by decide)
      (by decide) (by decide),
    (find_space_pos_spec c_isspace [0x20, 0x0A, 0x20, 0x63, 0x20] (by decide)).2.2.1 3
      (by decide) (by decide) (by decide)⟩

/-- C15. For every string `str`, `stepover(str)` is `find_nonspace(find_space(str))`, and
`stepover_pos(str)` is the offset in `str` of that view, `str.size()` minus its size, or
`npos` when the view is empty; the view is the part of `str` from that offset on. -/
theorem stepover_spec (isspace : Nat → Int) (str : List Nat) :
    stepover isspace str = (find_space isspace str).bind (find_nonspace isspace) ∧
    ∃ view, stepover isspace str = Run.ret view ∧
      stepover_pos isspace str =
        Run.ret (if view.isEmpty then tt.npos else str.length - view.length) ∧
      str.drop (str.length - view.length) = view := by
  refine ⟨?_, _, stepover_eq isspace str, ?_, ?_⟩
  · rw [stepover_eq, find_space_eq]
    simp only [Run.bind]
    rw [find_nonspace_eq]
  · rw [stepover_pos, stepover_eq]
    rfl
  · have h1 := List.dropWhile_suffix (fun c => !is_whitespace isspace c) (l := str)
    have h2 := List.dropWhile_suffix (fun c => is_whitespace isspace c)
      (l := str.dropWhile (fun c => !is_whitespace isspace c))
    obtain ⟨t, ht⟩ := h2.trans h1
    generalize (str.dropWhile (fun c => !is_whitespace isspace c)).dropWhile
      (fun c => is_whitespace isspace c) = view at ht
    subst ht
    simp

/-- C16, counterexample. On `"  hello   world"` the position `stepover_pos` returns is not
`10`, the offset of the `'w'` of `"world"`. -/
theorem stepover_pos_hello_world_ne :
    stepover_pos c_isspace [0x20, 0x20, 0x68, 0x65, 0x6C, 0x6C, 0x6F, 0x20, 0x20, 0x20, 0x77,
      0x6F, 0x72, 0x6C, 0x64] ≠ Run.ret 10 := by
  decide

/-- C16, amended. On `"  hello   world"` the first whitespace character is at offset `0`
and the first character after it that is not whitespace at offset `2`: `stepover_pos`
returns `2`, the offset of the `'h'` of `"hello"`, and `stepover` the view
`"hello   world"`. From the start of a word the next word is reached: on
`"hello   world"`, `stepover_pos` returns `8`, the offset of the `'w'`. -/
theorem stepover_pos_hello_world :
    stepover_pos c_isspace [0x20, 0x20, 0x68, 0x65, 0x6C, 0x6C, 0x6F, 0x20, 0x20, 0x20, 0x77,
      0x6F, 0x72, 0x6C, 0x64] = Run.ret 2 ∧
    stepover c_isspace [0x20, 0x20, 0x68, 0x65, 0x6C, 0x6C, 0x6F, 0x20, 0x20, 0x20, 0x77,
      0x6F, 0x72, 0x6C, 0x64] =
      Run.ret [0x68, 0x65, 0x6C, 0x6C, 0x6F, 0x20, 0x20, 0x20, 0x77, 0x6F, 0x72, 0x6C, 0x64] ∧
    stepover_pos c_isspace [0x68, 0x65, 0x6C, 0x6C, 0x6F, 0x20, 0x20, 0x20, 0x77, 0x6F, 0x72,
      0x6C, 0x64] = Run.ret 8 := by
  decide
theorem string_view_compare_eq_zero : ∀ (a b : List Nat), string_view_compare a b = 0 ↔ a = b := by
  intro a
  induction a with
  | nil =>
    intro b
    cases b <;> simp [string_view_compare]
  | cons x rest ih =>
    intro b
    cases b with
    | nil => simp [string_view_compare]
    | cons y rest2 =>
      rw [string_view_compare]
      by_cases h1 : x < y
      · simp only [if_pos h1, List.cons.injEq]
        constructor
        · intro h; omega
        · intro h; omega
      · by_cases h2 : y < x
        · simp only [if_neg h1, if_pos h2, List.cons.injEq]
          constructor
          · intro h; omega
          · intro h; omega
        · simp only [if_neg h1, if_neg h2, List.cons.injEq, ih rest2]
          constructor
          · intro h; exact ⟨by omega, h⟩
          · intro h; exact h.2

/-- Two lists have the same image under `f` exactly when they have the same length and
`f` agrees on them index by index. -/
theorem map_eq_map_iff_getD {β : Type} (f : Nat → β) :
    ∀ (a b : List Nat), a.map f = b.map f ↔
      (a.length = b.length ∧ ∀ i, i < a.length → f (a.getD i 0) = f (b.getD i 0)) := by
  intro a
  induction a with
  | nil =>
    intro b
    cases b <;> simp
  | cons x rest ih =>
    intro b
    cases b with
    | nil => simp
    | cons y rest2 =>
      simp only [List.map_cons, List.cons.injEq, ih rest2, List.length_cons, Nat.add_right_cancel_iff]
      constructor
      · rintro ⟨h0, hl, hi⟩
        refine ⟨hl, ?_⟩
        intro i hi2
        cases i with
        | zero => simpa using h0
        | succ i => simpa using hi i (by omega)
      · rintro ⟨hl, hi⟩
        refine ⟨by simpa using hi 0 (by omega), hl, ?_⟩
        intro i hi2
        simpa using hi (i + 1) (by omega)

/-- The loop of `is_sameas` on two non-empty strings of the same length: it returns
whether `tolower` agrees on them element by element, and reads nothing outside them. -/
theorem is_sameas_loop_eq (tolower : Nat → Int) :
    ∀ (sub main : List Nat), main.length = sub.length → main ≠ [] →
      is_sameas_loop tolower main sub = Run.ret (decide (main.map tolower = sub.map tolower)) := by
  intro sub
  induction sub with
  | nil =>
    intro main hl hne
    cases main with
    | nil => exact absurd rfl hne
    | cons _ _ => simp at hl
  | cons s sub ih =>
    intro main hl hne
    cases main with
    | nil => exact absurd rfl hne
    | cons m main =>
      rw [is_sameas_loop]
      by_cases hd : tolower m - tolower s ≠ 0
      · rw [if_pos hd]
        have : tolower m ≠ tolower s := fun h => hd (by rw [h]; simp)
        simp [this]
      · rw [if_neg hd]
        have hms : tolower m = tolower s := by
          have : tolower m - tolower s = 0 := not_not.1 hd
          omega
        cases main with
        | nil =>
          have : sub = [] := by
            cases sub with
            | nil => rfl
            | cons _ _ => simp at hl
          subst this
          simp [hms]
        | cons m2 main2 =>
          rw [if_neg (by simp), ih (m2 :: main2) (by simpa using hl) (by simp)]
          simp [hms]

/-- C11. For all strings `a` and `b`, `is_sameas(a, b, CASE::exact)` is true exactly when
`a = b`, and `is_sameas(a, b, CASE::either)` is true exactly when they have the same length
and `tolower(a[i]) = tolower(b[i])` at every index `i`; with the `tolower` of the "C"
locale, `is_sameas("ABC", "abc", either)` is true and `is_sameas("ABC", "abc", exact)` is
false. -/
theorem is_sameas_spec (tolower : Nat → Int) (a b : List Nat) :
    (∃ r, is_sameas tolower a b tt.CASE.exact = Run.ret r ∧ (r = true ↔ a = b)) ∧
    (∃ r, is_sameas tolower a b tt.CASE.either = Run.ret r ∧
      (r = true ↔ (a.length = b.length ∧
        ∀ i, i < a.length → tolower (a.getD i 0) = tolower (b.getD i 0)))) ∧
    is_sameas c_tolower [0x41, 0x42, 0x43] [0x61, 0x62, 0x63] tt.CASE.either = Run.ret true ∧
    is_sameas c_tolower [0x41, 0x42, 0x43] [0x61, 0x62, 0x63] tt.CASE.exact = Run.ret false := by
  refine ⟨?_, ?_, by decide, by decide⟩
  · by_cases hl : a.length ≠ b.length
    · refine ⟨false, by rw [is_sameas, if_pos hl], ?_⟩
      simp only [Bool.false_eq_true, false_iff]
      intro h; exact hl (by rw [h])
    · rw [is_sameas, if_neg hl]
      cases a with
      | nil =>
        have : b = [] := by
          cases b with
          | nil => rfl
          | cons _ _ => simp at hl
        subst this
        exact ⟨true, rfl, by simp⟩
      | cons x rest =>
        refine ⟨decide (string_view_compare (x :: rest) b = 0), ?_, ?_⟩
        · rw [if_neg (by simp), if_pos rfl]
        · rw [decide_eq_true_eq, string_view_compare_eq_zero]
  · by_cases hl : a.length ≠ b.length
    · refine ⟨false, by rw [is_sameas, if_pos hl], ?_⟩
      simp only [Bool.false_eq_true, false_iff]
      intro h; exact hl h.1
    · rw [is_sameas, if_neg hl]
      cases a with
      | nil =>
        have : b = [] := by
          cases b with
          | nil => rfl
          | cons _ _ => simp at hl
        subst this
        exact ⟨true, rfl, by simp⟩
      | cons x rest =>
        refine ⟨decide ((x :: rest).map tolower = b.map tolower), ?_, ?_⟩
        · rw [if_neg (by simp), if_neg (by decide),
            is_sameas_loop_eq tolower b (x :: rest) (not_not.1 hl) (by simp)]
        · rw [decide_eq_true_eq, map_eq_map_iff_getD]

/-- The loops of `is_sameprefix` on a `main` at least as long as `sub`: they return
whether no position of `sub` differs, and read nothing outside `main`. -/
theorem is_sameprefix_loop_eq (differ : Nat → Nat → Bool) :
    ∀ (sub main : List Nat), sub.length ≤ main.length →
      ∃ r, is_sameprefix_loop differ main sub = Run.ret r ∧
        (r = true ↔ ∀ i, i < sub.length → differ (main.getD i 0) (sub.getD i 0) = false) := by
  intro sub
  induction sub with
  | nil =>
    intro main _
    exact ⟨true, by rw [is_sameprefix_loop], by simp⟩
  | cons s sub ih =>
    intro main hl
    cases main with
    | nil => simp at hl
    | cons m main =>
      rw [is_sameprefix_loop]
      by_cases hd : differ m s = true
      · refine ⟨false, by rw [if_pos hd], ?_⟩
        simp only [Bool.false_eq_true, false_iff]
        intro h
        have := h 0 (by simp)
        simp [hd] at this
      · rw [if_neg hd]
        obtain ⟨r, hr, hiff⟩ := ih main (by simpa using hl)
        refine ⟨r, hr, ?_⟩
        rw [hiff]
        constructor
        · intro h i hi
          cases i with
          | zero => simpa using hd
          | succ i => simpa using h i (by simpa using hi)
        · intro h i hi
          simpa using h (i + 1) (by simpa using hi)

/-- C12. For all strings `main` and `sub`, in the modes `exact` and `either`: when `sub` is
empty, `is_sameprefix` is true exactly when `main` is empty; when `main` is shorter than
`sub` it is false; otherwise it is true exactly when `fold(main[i]) = fold(sub[i])` for
every `i < |sub|`, `fold` being the identity for `exact` and `tolower` for `either`. -/
theorem is_sameprefix_spec (tolower : Nat → Int) (tolower_utf8 : Nat → Nat)
    (main sub : List Nat) :
    (sub = [] →
      is_sameprefix tolower tolower_utf8 main sub tt.CASE.exact = Run.ret (decide (main = [])) ∧
      is_sameprefix tolower tolower_utf8 main sub tt.CASE.either
        = Run.ret (decide (main = []))) ∧
    (main.length < sub.length →
      is_sameprefix tolower tolower_utf8 main sub tt.CASE.exact = Run.ret false ∧
      is_sameprefix tolower tolower_utf8 main sub tt.CASE.either = Run.ret false) ∧
    (sub ≠ [] → sub.length ≤ main.length →
      (∃ r, is_sameprefix tolower tolower_utf8 main sub tt.CASE.exact = Run.ret r ∧
        (r = true ↔ ∀ i, i < sub.length → main.getD i 0 = sub.getD i 0)) ∧
      (∃ r, is_sameprefix tolower tolower_utf8 main sub tt.CASE.either = Run.ret r ∧
        (r = true ↔ ∀ i, i < sub.length → tolower (main.getD i 0) = tolower (sub.getD i 0)))) := by
  refine ⟨?_, ?_, ?_⟩
  · intro hsub
    subst hsub
    cases main <;> exact ⟨rfl, rfl⟩
  · intro hlt
    cases sub with
    | nil => simp at hlt
    | cons s sub =>
      have : (main.isEmpty || decide (main.length < (s :: sub).length)) = true := by
        simp only [Bool.or_eq_true, decide_eq_true_eq]
        exact Or.inr hlt
      constructor <;> rw [ is_sameprefix, if_neg (by simp), if_pos this]
  · intro hsub hle
    cases sub with
    | nil => exact absurd rfl hsub
    | cons s sub =>
      have hmain : main.isEmpty = false := by
        cases main with
        | nil => simp at hle
        | cons _ _ => rfl
      have : ¬(main.isEmpty || decide (main.length < (s :: sub).length)) = true := by
        simp only [hmain, Bool.false_or, decide_eq_true_eq]
        omega
      constructor
      · obtain ⟨r, hr, hiff⟩ := is_sameprefix_loop_eq (fun m s => decide (m ≠ s)) (s :: sub) main hle
        refine ⟨r, ?_, ?_⟩
        · rw [ is_sameprefix, if_neg (by simp), if_neg this]
          exact hr
        · rw [hiff]
          simp
      · obtain ⟨r, hr, hiff⟩ := is_sameprefix_loop_eq (fun m s => decide (tolower m ≠ tolower s))
          (s :: sub) main hle
        refine ⟨r, ?_, ?_⟩
        · rw [ is_sameprefix, if_neg (by simp), if_neg this]
          exact hr
        · rw [hiff]
          simp

theorem is_sameprefix_spec_witness :
    ( is_sameprefix c_tolower id [0x41, 0x42, 0x43, 0x44] [0x61, 0x62] tt.CASE.exact
        = Run.ret false) ∧
    ( is_sameprefix c_tolower id [0x41, 0x42] [0x61, 0x62, 0x63] tt.CASE.either
        = Run.ret false) ∧
    ∃ r, is_sameprefix c_tolower id [0x41, 0x42, 0x43, 0x44] [0x61, 0x62] tt.CASE.either
        = Run.ret r ∧
      (r = true ↔ ∀ i, i < [0x61, 0x62].length →
        c_tolower ([0x41, 0x42, 0x43, 0x44].getD i 0) = c_tolower ([0x61, 0x62].getD i 0)) :=
  ⟨by decide,
    (( is_sameprefix_spec c_tolower id [0x41, 0x42] [0x61, 0x62, 0x63]).2.1 (by decide)).2,
    (( is_sameprefix_spec c_tolower id [0x41, 0x42, 0x43, 0x44] [0x61, 0x62]).2.2 (by decide)
      (by decide)).2⟩
theorem last_index_of_eq_none (ch : Nat) :
    ∀ (str : List Nat), ch ∉ str → last_index_of ch str = none := by
  intro str
  induction str with
  | nil => intro _; rfl
  | cons c rest ih =>
    intro h
    have h1 : ch ∉ rest := fun hm => h (List.mem_cons_of_mem _ hm)
    have h2 : ¬c = ch := fun he => h (by rw [he]; exact List.mem_cons_self _ _)
    rw [last_index_of, ih h1]
    simp [h2]

/-- The highest index holding `ch` in `d ++ ch :: e`, where `ch` is not in `e`, is the
length of `d`. -/
theorem last_index_of_append (ch : Nat) (e : List Nat) (he : ch ∉ e) :
    ∀ (d : List Nat), last_index_of ch (d ++ ch :: e) = some d.length := by
  intro d
  induction d with
  | nil =>
    rw [List.nil_append, last_index_of, last_index_of_eq_none ch e he]
    simp
  | cons c rest ih =>
    rw [List.cons_append, last_index_of, ih]
    rfl

theorem find_extension_no_dot (str : List Nat) (h : 0x2E ∉ str) :
    find_extension str = Run.ret [] := by
  simp [find_extension, string_view_rfind, last_index_of_eq_none 0x2E str h]

theorem find_extension_ends_with_dot (d : List Nat) :
    find_extension (d ++ [0x2E]) = Run.ret [] := by
  have hpos : string_view_rfind (d ++ [0x2E]) 0x2E = d.length := by
    rw [string_view_rfind, last_index_of_append 0x2E [] (by simp) d]
    rfl
  simp only [find_extension, hpos]
  split_ifs <;> first | rfl | (exfalso; simp at *)

/-- The general case of `find_extension`: when the last `'.'` of the path is followed by
`e`, not empty, the view returned starts at that `'.'`. -/
theorem find_extension_after_last_dot (d e : List Nat) (he : e ≠ []) (hdot : 0x2E ∉ e)
    (hsize : (d ++ 0x2E :: e).length ≤ tt.npos) :
    find_extension (d ++ 0x2E :: e) = Run.ret (0x2E :: e) := by
  have hpos : string_view_rfind (d ++ 0x2E :: e) 0x2E = d.length := by
    rw [string_view_rfind, last_index_of_append 0x2E e hdot d]
    rfl
  obtain ⟨c, rest, rfl⟩ : ∃ c rest, e = c :: rest := by
    cases e with
    | nil => exact absurd rfl he
    | cons c rest => exact ⟨c, rest, rfl⟩
  have hc : ¬c = 0x2E := fun h => hdot (by rw [h]; exact List.mem_cons_self _ _)
  have hne : ¬d.length = tt.npos := by
    simp only [List.length_append, List.length_cons] at hsize
    omega
  have hlen : ¬d.length + 1 ≥ (d ++ 0x2E :: c :: rest).length := by
    simp only [List.length_append, List.length_cons]
    omega
  have hget : (d ++ 0x2E :: c :: rest)[d.length + 1]? = some c := by
    rw [getElem?_append_length_add]
    simp
  have hdrop : (d ++ 0x2E :: c :: rest).drop d.length = 0x2E :: c :: rest := by
    simp
  simp only [find_extension, hpos, if_neg hne, if_neg hlen, hget, if_neg hc, hdrop]
  split_ifs <;> rfl

/-- C17. For every path `d ++ "." ++ e` where `e` is not empty and contains no `'.'`
(whatever the last segment has before that dot), `find_extension` returns `"." ++ e`, the
part of the path starting at its last `'.'`; and `find_extension("a/b/file.tar.gz")` is
`".gz"`. -/
theorem find_extension_spec (d e : List Nat) (he : e ≠ []) (hdot : 0x2E ∉ e)
    (hsize : (d ++ 0x2E :: e).length ≤ tt.npos) :
    find_extension (d ++ 0x2E :: e) = Run.ret (0x2E :: e) ∧
    find_extension [0x61, 0x2F, 0x62, 0x2F, 0x66, 0x69, 0x6C, 0x65, 0x2E, 0x74, 0x61, 0x72, 0x2E,
      0x67, 0x7A] = Run.ret [0x2E, 0x67, 0x7A] :=
  ⟨find_extension_after_last_dot d e he hdot hsize, by decide⟩

theorem find_extension_spec_witness :
    find_extension ([0x64, 0x69, 0x72, 0x2F, 0x6D, 0x61, 0x69, 0x6E] ++ 0x2E :: [0x63, 0x70, 0x70])
      = Run.ret (0x2E :: [0x63, 0x70, 0x70]) :=
  (find_extension_spec [0x64, 0x69, 0x72, 0x2F, 0x6D, 0x61, 0x69, 0x6E] [0x63, 0x70, 0x70]
    (by decide) (by decide) (by decide)).1

/-- C18, counterexample. The final segment of `"a/b/.gitignore"` has its only `'.'` as its
first character, and `find_extension` returns `".gitignore"`, not the empty view. -/
theorem find_extension_gitignore :
    find_extension [0x61, 0x2F, 0x62, 0x2F, 0x2E, 0x67, 0x69, 0x74, 0x69, 0x67, 0x6E, 0x6F, 0x72,
      0x65] = Run.ret [0x2E, 0x67, 0x69, 0x74, 0x69, 0x67, 0x6E, 0x6F, 0x72, 0x65] ∧
    find_extension [0x61, 0x2F, 0x62, 0x2F, 0x2E, 0x67, 0x69, 0x74, 0x69, 0x67, 0x6E, 0x6F, 0x72,
      0x65] ≠ Run.ret [] := by
  decide

/-- C18, amended. For every path whose final segment has its only `'.'` as its first
character, `find_extension` returns that whole final segment when something follows the
dot, as in `".gitignore"`, and the empty view when the segment is the dot alone. -/
theorem find_extension_dot_file (dir name : List Nat)
    (hdir : dir = [] ∨ ∃ pre sep, dir = pre ++ [sep] ∧ (sep = 0x2F ∨ sep = 0x5C))
    (hname : ∀ c ∈ name, c ≠ 0x2E ∧ c ≠ 0x2F ∧ c ≠ 0x5C)
    (hsize : (dir ++ 0x2E :: name).length ≤ tt.npos) :
    (name ≠ [] → find_extension (dir ++ 0x2E :: name) = Run.ret (0x2E :: name)) ∧
    (name = [] → find_extension (dir ++ 0x2E :: name) = Run.ret []) := by
  refine ⟨?_, ?_⟩
  · intro hne
    exact find_extension_after_last_dot dir name hne (fun hm => (hname _ hm).1 rfl) hsize
  · intro he
    subst he
    exact find_extension_ends_with_dot dir

theorem find_extension_dot_file_witness :
    find_extension ([0x61, 0x2F, 0x62] ++ [0x2F] ++ 0x2E :: [0x67, 0x69, 0x74])
      = Run.ret (0x2E :: [0x67, 0x69, 0x74]) :=
  (find_extension_dot_file ([0x61, 0x2F, 0x62] ++ [0x2F]) [0x67, 0x69, 0x74]
    (Or.inr ⟨[0x61, 0x2F, 0x62], 0x2F, rfl, Or.inl rfl⟩) (by decide) (by decide)).1 (by decide)

/-- C19. For every path whose final segment is exactly `"."` or `".."`, `find_extension`
returns the empty view (whatever precedes that segment); so for `"."`, `".."`, `"a/b/."`
and `"a/b/.."`. -/
theorem find_extension_dot_segments (pre : List Nat) :
    find_extension (pre ++ [0x2E]) = Run.ret [] ∧
    find_extension (pre ++ [0x2E, 0x2E]) = Run.ret [] ∧
    find_extension [0x2E] = Run.ret [] ∧
    find_extension [0x2E, 0x2E] = Run.ret [] ∧
    find_extension [0x61, 0x2F, 0x62, 0x2F, 0x2E] = Run.ret [] ∧
    find_extension [0x61, 0x2F, 0x62, 0x2F, 0x2E, 0x2E] = Run.ret [] := by
  refine ⟨find_extension_ends_with_dot pre, ?_, by decide, by decide, by decide, by decide⟩
  have := find_extension_ends_with_dot (pre ++ [0x2E])
  simpa using this

/-- C20, counterexample. The final segment of `"a.b/c"` contains no `'.'`, and
`find_extension` returns `".b/c"`: the view is not empty and contains the separator. -/
theorem find_extension_dot_in_directory_example :
    find_extension [0x61, 0x2E, 0x62, 0x2F, 0x63] = Run.ret [0x2E, 0x62, 0x2F, 0x63] ∧
      find_extension [0x61, 0x2E, 0x62, 0x2F, 0x63] ≠ Run.ret [] ∧
      0x2F ∈ [0x2E, 0x62, 0x2F, 0x63] := by
  decide

/-- C20, amended. The function `find_extension` looks at the last `'.'` of the whole path,
not of its final segment. A path without any `'.'` gives the empty view; when the final
segment `seg` contains no `'.'` and the last `'.'` of the path lies in an earlier segment,
followed there by a character `c` that is not a separator (as in `"a.b/c"`), the view
returned starts at that `'.'` and contains the path separator. -/
theorem find_extension_dot_in_directory (dir x seg : List Nat) (c sep : Nat)
    (hsep : sep = 0x2F ∨ sep = 0x5C) (hc : c ≠ 0x2E ∧ c ≠ 0x2F ∧ c ≠ 0x5C) (hx : 0x2E ∉ x)
    (hseg : 0x2E ∉ seg)
    (hsize : (dir ++ 0x2E :: c :: (x ++ sep :: seg)).length ≤ tt.npos) :
    find_extension (dir ++ 0x2E :: c :: (x ++ sep :: seg))
      = Run.ret (0x2E :: c :: (x ++ sep :: seg)) ∧
    sep ∈ 0x2E :: c :: (x ++ sep :: seg) ∧
    find_extension (c :: (x ++ sep :: seg)) = Run.ret [] := by
  have hsep2 : ¬0x2E = sep := by
    rcases hsep with h | h <;> rw [h] <;> decide
  have hnot : 0x2E ∉ c :: (x ++ sep :: seg) := by
    simp only [List.mem_append, List.mem_cons, not_or]
    exact ⟨fun h => hc.1 h.symm, hx, hsep2, hseg⟩
  refine ⟨?_, by simp, find_extension_no_dot _ hnot⟩
  exact find_extension_after_last_dot dir (c :: (x ++ sep :: seg)) (by simp) hnot hsize

theorem find_extension_dot_in_directory_witness :
    find_extension ([0x61] ++ 0x2E :: 0x62 :: ([] ++ 0x2F :: [0x63]))
      = Run.ret (0x2E :: 0x62 :: ([] ++ 0x2F :: [0x63])) :=
  (find_extension_dot_in_directory [0x61] [] [0x63] 0x62 0x2F (Or.inl rfl) (by decide)
    (by decide) (by decide) (by decide)).1

theorem first_index_of_eq_none (ch : Nat) :
    ∀ (str : List Nat), first_index_of ch str = none ↔ ch ∉ str := by
  intro str
  induction str with
  | nil => simp [first_index_of]
  | cons c rest ih =>
    rw [first_index_of]
    by_cases h : c = ch
    · simp [h]
    · have h2 : ¬ch = c := fun e => h e.symm
      simp [h, h2, ih]

theorem first_index_of_eq_some (ch : Nat) :
    ∀ (str : List Nat) (i : Nat), first_index_of ch str = some i →
      i < str.length ∧ str.take i ++ ch :: str.drop (i + 1) = str ∧ ch ∉ str.take i := by
  intro str
  induction str with
  | nil => intro i h; simp [first_index_of] at h
  | cons c rest ih =>
    intro i h
    rw [first_index_of] at h
    by_cases hc : c = ch
    · rw [if_pos hc] at h
      injection h with h
      subst h
      simp [hc]
    · rw [if_neg hc] at h
      cases hr : first_index_of ch rest with
      | none => rw [hr] at h; simp at h
      | some j =>
        rw [hr] at h
        simp only [Option.map_some'] at h
        injection h with h
        subst h
        obtain ⟨h1, h2, h3⟩ := ih j hr
        refine ⟨by simp; omega, by simp [h2], ?_⟩
        simp only [List.take_succ_cons, List.mem_cons, not_or]
        exact ⟨fun e => hc e.symm, h3⟩

theorem map_slash_of_not_mem (l : List Nat) (h : 0x5C ∉ l) :
    l.map (fun c => if c = 0x5C then 0x2F else c) = l := by
  induction l with
  | nil => rfl
  | cons c rest ih =>
    have h1 : ¬c = 0x5C := fun e => h (by rw [e]; exact List.mem_cons_self _ _)
    have h2 : 0x5C ∉ rest := fun hm => h (List.mem_cons_of_mem _ hm)
    simp [h1, ih h2]

/-- The loop of `backslashestoforward`, given more fuel than `str` has backslashes, is left
with every backslash of `str` replaced by a slash. -/
theorem backslashestoforward_loop_eq :
    ∀ (fuel : Nat) (str : List Nat), str.length ≤ tt.npos → str.count 0x5C < fuel →
      backslashestoforward_loop fuel str =
        Run.ret (str.map (fun c => if c = 0x5C then 0x2F else c)) := by
  intro fuel
  induction fuel with
  | zero => intro str _ h; omega
  | succ n ih =>
    intro str hsize hcount
    rw [backslashestoforward_loop]
    cases hf : first_index_of 0x5C str with
    | none =>
      have hnot := (first_index_of_eq_none 0x5C str).1 hf
      have : string_find_char str 0x5C = tt.npos := by rw [string_find_char, hf]; rfl
      rw [if_neg (by rw [this]; simp), map_slash_of_not_mem str hnot]
    | some i =>
      obtain ⟨hi, hsplit, hpre⟩ := first_index_of_eq_some 0x5C str i hf
      have hpos : string_find_char str 0x5C = i := by rw [string_find_char, hf]; rfl
      rw [hpos, if_pos (by omega), string_replace, if_neg (by omega)]
      simp only [Run.bind]
      have hlen : (str.take i ++ [0x2F] ++ str.drop (i + 1)).length = str.length := by
        simp only [List.length_append, List.length_take, List.length_drop, List.length_singleton]
        omega
      have hcnt : (str.take i ++ [0x2F] ++ str.drop (i + 1)).count 0x5C + 1 = str.count 0x5C := by
        conv_rhs => rw [← hsplit]
        simp only [List.count_append, List.count_cons, List.count_nil]
        simp
        omega
      rw [ih _ (by rw [hlen]; exact hsize) (by omega)]
      congr 1
      conv_rhs => rw [← hsplit]
      simp

/-- C21. For every string `s` (of a size that fits `size_t`), `backslashestoforward`
terminates and leaves a string of the same length in which every position that held `'\'`
holds `'/'` and every other position is unchanged; the result contains no backslash, and
applying the function again changes nothing. -/
theorem backslashestoforward_spec (s : List Nat) (hsize : s.length ≤ tt.npos) :
    ∃ r, backslashestoforward s = Run.ret r ∧
      r.length = s.length ∧
      (∀ i, i < s.length →
        (s.getD i 0 = 0x5C → r.getD i 0 = 0x2F) ∧ (s.getD i 0 ≠ 0x5C → r.getD i 0 = s.getD i 0)) ∧
      0x5C ∉ r ∧
      backslashestoforward r = Run.ret r := by
  have hcount : s.count 0x5C < s.length + 1 := by
    have := List.count_le_length 0x5C s
    omega
  have h := backslashestoforward_loop_eq (s.length + 1) s hsize hcount
  have hnot : 0x5C ∉ s.map (fun c => if c = 0x5C then 0x2F else c) := by
    simp only [List.mem_map, not_exists, not_and]
    intro c _
    split_ifs with hc
    · decide
    · exact fun e => hc e
  refine ⟨_, h, by simp, ?_, hnot, ?_⟩
  · intro i hi
    have hg : (s.map (fun c => if c = 0x5C then 0x2F else c)).getD i 0 =
        (if s.getD i 0 = 0x5C then 0x2F else s.getD i 0) := by
      rw [List.getD_eq_getElem _ _ (by simpa using hi), List.getD_eq_getElem _ _ hi]
      simp
    rw [hg]
    constructor
    · intro h1; rw [if_pos h1]
    · intro h1; rw [if_neg h1]
  · have h2 := backslashestoforward_loop_eq
      ((s.map (fun c => if c = 0x5C then 0x2F else c)).length + 1)
      (s.map (fun c => if c = 0x5C then 0x2F else c)) (by simpa using hsize)
      (by
        have := List.count_le_length 0x5C (s.map (fun c => if c = 0x5C then 0x2F else c))
        omega)
    rw [backslashestoforward, h2, map_slash_of_not_mem _ hnot]

theorem backslashestoforward_spec_witness :
    ∃ r, backslashestoforward [0x43, 0x3A, 0x5C, 0x61, 0x5C, 0x62, 0x2F, 0x63] = Run.ret r ∧
      r.length = [0x43, 0x3A, 0x5C, 0x61, 0x5C, 0x62, 0x2F, 0x63].length ∧
      (∀ i, i < [0x43, 0x3A, 0x5C, 0x61, 0x5C, 0x62, 0x2F, 0x63].length →
        ([0x43, 0x3A, 0x5C, 0x61, 0x5C, 0x62, 0x2F, 0x63].getD i 0 = 0x5C → r.getD i 0 = 0x2F) ∧
        ([0x43, 0x3A, 0x5C, 0x61, 0x5C, 0x62, 0x2F, 0x63].getD i 0 ≠ 0x5C →
          r.getD i 0 = [0x43, 0x3A, 0x5C, 0x61, 0x5C, 0x62, 0x2F, 0x63].getD i 0)) ∧
      0x5C ∉ r ∧
      backslashestoforward r = Run.ret r :=
  backslashestoforward_spec [0x43, 0x3A, 0x5C, 0x61, 0x5C, 0x62, 0x2F, 0x63] (by decide)

/-- C22, counterexample. The path `C:\data\` ends in a separator, and `addtrailingslash`
changes it into `C:\data\/`, which ends in two separators; the path `a//` is left with
its two slashes. -/
theorem addtrailingslash_backslash :
    addtrailingslash [0x43, 0x3A, 0x5C, 0x64, 0x61, 0x74, 0x61, 0x5C] false =
      Run.ret [0x43, 0x3A, 0x5C, 0x64, 0x61, 0x74, 0x61, 0x5C, 0x2F] ∧
    addtrailingslash [0x43, 0x3A, 0x5C, 0x64, 0x61, 0x74, 0x61, 0x5C] false ≠
      Run.ret [0x43, 0x3A, 0x5C, 0x64, 0x61, 0x74, 0x61, 0x5C] ∧
    addtrailingslash [0x61, 0x2F, 0x2F] false = Run.ret [0x61, 0x2F, 0x2F] := by
  decide

/-- C22, amended. The separator step of `append_filename`, `addtrailingslash` with its
default argument, leaves every non-empty path ending in `'/'`: a path that already ends in
`'/'` is unchanged and any other path, also one that ends in `'\'`, gains a single `'/'`;
so appending `"out.txt"` to `"C:/data"` and to `"C:/data/"` both give
`"C:/data/out.txt"`. -/
theorem addtrailingslash_spec (path : List Nat) (last : Nat) :
    (last = 0x2F → addtrailingslash (path ++ [last]) false = Run.ret (path ++ [last])) ∧
    (last ≠ 0x2F →
      addtrailingslash (path ++ [last]) false = Run.ret (path ++ [last] ++ [0x2F])) ∧
    (∃ r, addtrailingslash (path ++ [last]) false = Run.ret r ∧ r.getLast? = some 0x2F) ∧
    append_filename [0x43, 0x3A, 0x2F, 0x64, 0x61, 0x74, 0x61]
        [0x6F, 0x75, 0x74, 0x2E, 0x74, 0x78, 0x74] =
      Run.ret [0x43, 0x3A, 0x2F, 0x64, 0x61, 0x74, 0x61, 0x2F, 0x6F, 0x75, 0x74, 0x2E, 0x74, 0x78,
        0x74] ∧
    append_filename [0x43, 0x3A, 0x2F, 0x64, 0x61, 0x74, 0x61, 0x2F]
        [0x6F, 0x75, 0x74, 0x2E, 0x74, 0x78, 0x74] =
      Run.ret [0x43, 0x3A, 0x2F, 0x64, 0x61, 0x74, 0x61, 0x2F, 0x6F, 0x75, 0x74, 0x2E, 0x74, 0x78,
        0x74] := by
  have h1 : last = 0x2F →
      addtrailingslash (path ++ [last]) false = Run.ret (path ++ [last]) := by
    intro h
    simp [addtrailingslash, h]
  have h2 : last ≠ 0x2F →
      addtrailingslash (path ++ [last]) false = Run.ret (path ++ [last] ++ [0x2F]) := by
    intro h
    simp [addtrailingslash, h]
  refine ⟨h1, h2, ?_, by decide, by decide⟩
  by_cases h : last = 0x2F
  · exact ⟨_, h1 h, by simp [h]⟩
  · exact ⟨_, h2 h, by simp⟩

theorem int32_of_range (x : Int) (hlo : -2147483648 ≤ x) (hhi : x ≤ 2147483647) :
    int32 x = x := by
  unfold int32
  omega

theorem int32_add_left (a b : Int) : int32 (int32 a + b) = int32 (a + b) := by
  unfold int32
  omega

theorem int32_sub_left (a b : Int) : int32 (int32 a - b) = int32 (a - b) := by
  unfold int32
  omega

theorem decimal_value_cons (acc c : Nat) (digits : List Nat) :
    decimal_value acc (c :: digits) = decimal_value (10 * acc + (c - 0x30)) digits := rfl

theorem le_decimal_value (digits : List Nat) :
    ∀ acc : Nat, acc ≤ decimal_value acc digits := by
  induction digits with
  | nil => intro acc; exact Nat.le_refl _
  | cons c rest ih =>
    intro acc
    rw [decimal_value_cons]
    have := ih (10 * acc + (c - 0x30))
    omega

theorem hex_value_cons (acc c : Nat) (digits : List Nat) :
    hex_value acc (c :: digits) = hex_value (16 * acc + hex_digit c) digits := rfl

theorem le_hex_value (digits : List Nat) :
    ∀ acc : Nat, acc ≤ hex_value acc digits := by
  induction digits with
  | nil => intro acc; exact Nat.le_refl _
  | cons c rest ih =>
    intro acc
    rw [hex_value_cons]
    have := ih (16 * acc + hex_digit c)
    omega

/-- The decimal loop of `atoi`, standing at the end of `pre` in `pre ++ digits ++ tail`
with the value `acc`, returns the value of the digit run when that value fits an `int` and
`tail` does not begin with a digit. -/
theorem atoi_dec_loop_eq (tail : List Nat)
    (htail : ∀ c, tail.head? = some c → ¬ IsDecimalDigit c) :
    ∀ (digits : List Nat) (fuel : Nat) (pre : List Nat) (acc : Nat),
      (∀ c ∈ digits, IsDecimalDigit c) → decimal_value acc digits ≤ 2147483647 →
      digits.length < fuel →
      atoi_dec_loop (pre ++ digits ++ tail) fuel pre.length (acc : Int) =
        Run.ret ((decimal_value acc digits : Nat) : Int) := by
  intro digits
  induction digits with
  | nil =>
    intro fuel pre acc _ _ hfuel
    obtain ⟨n, rfl⟩ : ∃ n, fuel = n + 1 := ⟨fuel - 1, by simp at hfuel; omega⟩
    cases tail with
    | nil => simp [atoi_dec_loop, decimal_value]
    | cons c rest =>
      have hlt : pre.length < (pre ++ [] ++ c :: rest).length := by simp
      have hc := htail c rfl
      rw [atoi_dec_loop, if_pos hlt, List.append_nil, getElem?_append_length]
      simp only [List.getElem?_cons_zero]
      rw [if_neg hc]
      rfl
  | cons d ds ih =>
    intro fuel pre acc hdig hval hfuel
    obtain ⟨n, rfl⟩ : ∃ n, fuel = n + 1 := ⟨fuel - 1, by simp at hfuel; omega⟩
    have hd : IsDecimalDigit d := hdig d (List.mem_cons_self _ _)
    have hlt : pre.length < (pre ++ d :: ds ++ tail).length := by simp
    rw [decimal_value_cons] at hval ⊢
    have hle := le_decimal_value ds (10 * acc + (d - 0x30))
    have hstep : int32 (int32 (10 * (acc : Int)) + ((d : Int) - 0x30)) =
        ((10 * acc + (d - 0x30) : Nat) : Int) := by
      have h1 : 0x30 ≤ d := hd.1
      rw [int32_add_left, int32_of_range _ (by omega) (by omega)]
      omega
    have hih := ih n (pre ++ [d]) (10 * acc + (d - 0x30))
      (fun c hc => hdig c (List.mem_cons_of_mem _ hc)) hval (by simp at hfuel; omega)
    simp only [List.append_assoc, List.singleton_append, List.length_append,
      List.length_singleton] at hih
    rw [atoi_dec_loop, if_pos hlt]
    simp only [List.append_assoc, List.cons_append]
    rw [getElem?_append_length]
    simp only [List.getElem?_cons_zero]
    rw [if_pos hd, hstep]
    exact hih

/-- The hexadecimal loop of `atoi`, standing at the end of `pre` in `pre ++ digits ++ tail`
with the value `acc`, returns the value of the digit run when that value fits an `int` and
`tail` does not begin with a hexadecimal digit. -/
theorem atoi_hex_loop_eq (tail : List Nat)
    (htail : ∀ c, tail.head? = some c → ¬ IsHexDigit c) :
    ∀ (digits : List Nat) (fuel : Nat) (pre : List Nat) (acc : Nat),
      (∀ c ∈ digits, IsHexDigit c) → hex_value acc digits ≤ 2147483647 →
      digits.length < fuel →
      atoi_hex_loop (pre ++ digits ++ tail) fuel pre.length (acc : Int) =
        Run.ret ((hex_value acc digits : Nat) : Int) := by
  intro digits
  induction digits with
  | nil =>
    intro fuel pre acc _ _ hfuel
    obtain ⟨n, rfl⟩ : ∃ n, fuel = n + 1 := ⟨fuel - 1, by simp at hfuel; omega⟩
    cases tail with
    | nil => simp [atoi_hex_loop, hex_value]
    | cons c rest =>
      have hlt : pre.length < (pre ++ [] ++ c :: rest).length := by simp
      have hc := htail c rfl
      have h1 : ¬ (0x30 ≤ c ∧ c ≤ 0x39) := fun h => hc (Or.inl h)
      have h2 : ¬ (0x61 ≤ c ∧ c ≤ 0x66) := fun h => hc (Or.inr (Or.inl h))
      have h3 : ¬ (0x41 ≤ c ∧ c ≤ 0x46) := fun h => hc (Or.inr (Or.inr h))
      rw [atoi_hex_loop, if_pos hlt, List.append_nil, getElem?_append_length]
      simp only [List.getElem?_cons_zero]
      rw [if_neg h1, if_neg h2, if_neg h3]
      rfl
  | cons d ds ih =>
    intro fuel pre acc hdig hval hfuel
    obtain ⟨n, rfl⟩ : ∃ n, fuel = n + 1 := ⟨fuel - 1, by simp at hfuel; omega⟩
    have hd : IsHexDigit d := hdig d (List.mem_cons_self _ _)
    have hlt : pre.length < (pre ++ d :: ds ++ tail).length := by simp
    rw [hex_value_cons] at hval ⊢
    have hle : 16 * acc + hex_digit d ≤ 2147483647 :=
      Nat.le_trans (le_hex_value ds (16 * acc + hex_digit d)) hval
    have hih := ih n (pre ++ [d]) (16 * acc + hex_digit d)
      (fun c hc => hdig c (List.mem_cons_of_mem _ hc)) hval (by simp at hfuel; omega)
    simp only [List.append_assoc, List.singleton_append, List.length_append,
      List.length_singleton] at hih
    rw [atoi_hex_loop, if_pos hlt]
    simp only [List.append_assoc, List.cons_append]
    rw [getElem?_append_length]
    simp only [List.getElem?_cons_zero]
    by_cases h1 : 0x30 ≤ d ∧ d ≤ 0x39
    · have hstep : int32 (int32 (16 * (acc : Int)) + ((d : Int) - 0x30)) =
          ((16 * acc + hex_digit d : Nat) : Int) := by
        have hv : hex_digit d = d - 0x30 := by simp [hex_digit, h1]
        rw [hv] at hle ⊢
        rw [int32_add_left, int32_of_range _ (by omega) (by omega)]
        omega
      rw [if_pos h1, hstep]
      exact hih
    · by_cases h2 : 0x61 ≤ d ∧ d ≤ 0x66
      · have hstep : int32 (int32 (int32 (int32 ((acc : Int) * 16) + (d : Int)) - 0x61) + 10) =
            ((16 * acc + hex_digit d : Nat) : Int) := by
          have hv : hex_digit d = d - 0x61 + 10 := by simp [hex_digit, h1, h2]
          rw [hv] at hle ⊢
          rw [int32_add_left ((acc : Int) * 16) (d : Int), int32_sub_left, int32_add_left,
            int32_of_range _ (by omega) (by omega)]
          omega
        rw [if_neg h1, if_pos h2, hstep]
        exact hih
      · have h3 : 0x41 ≤ d ∧ d ≤ 0x46 := by
          rcases hd with h | h | h
          · exact absurd h h1
          · exact absurd h h2
          · exact h
        have hstep : int32 (int32 (int32 (int32 ((acc : Int) * 16) + (d : Int)) - 0x41) + 10) =
            ((16 * acc + hex_digit d : Nat) : Int) := by
          have hv : hex_digit d = d - 0x41 + 10 := by simp [hex_digit, h1, h2]
          rw [hv] at hle ⊢
          rw [int32_add_left ((acc : Int) * 16) (d : Int), int32_sub_left, int32_add_left,
            int32_of_range _ (by omega) (by omega)]
          omega
        rw [if_neg h1, if_neg h2, if_pos h3, hstep]
        exact hih

theorem dropWhile_append_of_head (p : Nat → Bool) (rest : List Nat)
    (hrest : ∀ c, rest.head? = some c → p c = false) :
    ∀ ws : List Nat, (∀ c ∈ ws, p c = true) → (ws ++ rest).dropWhile p = rest := by
  intro ws
  induction ws with
  | nil =>
    intro _
    cases rest with
    | nil => rfl
    | cons c r => simp [List.dropWhile_cons, hrest c rfl]
  | cons w ws ih =>
    intro h
    have hw := h w (List.mem_cons_self _ _)
    simp only [List.cons_append, List.dropWhile_cons, hw, if_true]
    exact ih (fun c hc => h c (List.mem_cons_of_mem _ hc))

/-- On a string made of whitespace characters `ws` and then a part `rest` that is not empty
and does not begin with a whitespace character, `atoi` works on `rest`. -/
theorem atoi_eq_body (isspace : Nat → Int) (ws rest : List Nat)
    (hws : ∀ c ∈ ws, is_whitespace isspace c = true)
    (hrest : ∀ c, rest.head? = some c → is_whitespace isspace c = false)
    (hne : rest ≠ []) :
    atoi isspace (ws ++ rest) = atoi_body rest := by
  have hne2 : (ws ++ rest).isEmpty = false := by
    cases ws with
    | nil =>
      cases rest with
      | nil => exact absurd rfl hne
      | cons c r => rfl
    | cons w r => rfl
  rw [atoi, hne2, find_nonspace_eq,
    dropWhile_append_of_head (fun c => is_whitespace isspace c) rest hrest ws hws]
  rfl

/-- On a string that is not empty and holds whitespace characters only, `atoi` reads
`str[0]` of the empty view that `find_nonspace` returned. -/
theorem atoi_all_whitespace (isspace : Nat → Int) (ws : List Nat) (hne : ws ≠ [])
    (hws : ∀ c ∈ ws, is_whitespace isspace c = true) :
    atoi isspace ws = Run.out_of_range := by
  have hne2 : ws.isEmpty = false := by
    cases ws with
    | nil => exact absurd rfl hne
    | cons w r => rfl
  have h := dropWhile_append_of_head (fun c => is_whitespace isspace c) []
    (by intro c hc; simp at hc) ws hws
  rw [List.append_nil] at h
  rw [atoi, hne2, find_nonspace_eq, h]
  rfl

theorem atoi_is_hex_false (rest : List Nat) (hne : rest ≠ [])
    (hnothex : ∀ r, rest ≠ 0x30 :: 0x78 :: r ∧ rest ≠ 0x30 :: 0x58 :: r) :
    atoi_is_hex rest = Run.ret false := by
  cases rest with
  | nil => exact absurd rfl hne
  | cons c0 r =>
    cases r with
    | nil => simp [atoi_is_hex]
    | cons c1 r2 =>
      by_cases h0 : c0 = 0x30
      · subst h0
        have h1 : ¬ (c1 = 0x78 ∨ c1 = 0x58) := by
          rintro (h | h)
          · exact (hnothex r2).1 (by rw [h])
          · exact (hnothex r2).2 (by rw [h])
        simp [atoi_is_hex, h1]
      · simp [atoi_is_hex, h0]

/-- The decimal branch of `atoi`: on whitespace, an optional sign, a run of decimal digits
whose value fits an `int` and a tail that does not begin with a digit, where the part after
the whitespace is not empty, begins neither with a whitespace character nor with `0x` or
`0X`, and is read with the longest sign possible, `atoi` returns the value of the digit
run, negated exactly when the sign is `-`. -/
theorem atoi_decimal (isspace : Nat → Int) (ws sign digits tail : List Nat)
    (hws : ∀ c ∈ ws, is_whitespace isspace c = true)
    (hsign : sign = [] ∨ sign = [0x2B] ∨ sign = [0x2D])
    (hdigits : ∀ c ∈ digits, IsDecimalDigit c)
    (hval : decimal_value 0 digits ≤ 2147483647)
    (htail : ∀ c, tail.head? = some c → ¬ IsDecimalDigit c)
    (hne : sign ++ digits ++ tail ≠ [])
    (hfirst : ∀ c, (sign ++ digits ++ tail).head? = some c → is_whitespace isspace c = false)
    (hgreedy : sign = [] → digits = [] → ∀ c, tail.head? = some c → c ≠ 0x2B ∧ c ≠ 0x2D)
    (hnothex : ∀ r, sign ++ digits ++ tail ≠ 0x30 :: 0x78 :: r ∧
      sign ++ digits ++ tail ≠ 0x30 :: 0x58 :: r) :
    atoi isspace (ws ++ (sign ++ digits ++ tail)) =
      Run.ret (if sign = [0x2D] then -((decimal_value 0 digits : Nat) : Int)
        else ((decimal_value 0 digits : Nat) : Int)) := by
  rw [atoi_eq_body isspace ws _ hws hfirst hne, atoi_body, atoi_is_hex_false _ hne hnothex]
  simp only [Run.bind, Bool.false_eq_true, if_false]
  rcases hsign with hs | hs | hs
  · subst hs
    have hloop := atoi_dec_loop_eq tail htail digits ((digits ++ tail).length + 1) [] 0
      hdigits hval (by simp; omega)
    simp only [List.nil_append, List.length_nil, Nat.cast_zero] at hloop ⊢
    have hc0 : ∀ c0, (digits ++ tail)[0]? = some c0 → c0 ≠ 0x2D ∧ c0 ≠ 0x2B := by
      intro c0 h0
      cases digits with
      | nil =>
        have := hgreedy rfl rfl c0 (by simpa [List.head?_eq_getElem?] using h0)
        exact ⟨this.2, this.1⟩
      | cons d ds =>
        have hd : IsDecimalDigit d := hdigits d (List.mem_cons_self _ _)
        simp only [List.cons_append, List.getElem?_cons_zero, Option.some.injEq] at h0
        subst h0
        have h1 := hd.1
        have h2 := hd.2
        constructor <;> omega
    cases h0 : (digits ++ tail)[0]? with
    | none =>
      exfalso
      apply hne
      cases hdt : digits ++ tail with
      | nil => simp [hdt]
      | cons c r => rw [hdt] at h0; simp at h0
    | some c0 =>
      have := hc0 c0 h0
      simp only [if_neg this.1, if_neg this.2, hloop]
      simp
  · subst hs
    have hloop := atoi_dec_loop_eq tail htail digits (([0x2B] ++ digits ++ tail).length + 1)
      [0x2B] 0 hdigits hval (by simp; omega)
    simp only [List.length_singleton, Nat.cast_zero] at hloop
    simp only [List.singleton_append, List.cons_append, List.getElem?_cons_zero] at hloop ⊢
    rw [if_pos trivial, hloop]
    simp
  · subst hs
    have hloop := atoi_dec_loop_eq tail htail digits (([0x2D] ++ digits ++ tail).length + 1)
      [0x2D] 0 hdigits hval (by simp; omega)
    simp only [List.length_singleton, Nat.cast_zero] at hloop
    simp only [List.singleton_append, List.cons_append, List.getElem?_cons_zero] at hloop ⊢
    rw [if_pos trivial, hloop]
    simp only [Run.map, if_true]
    rw [int32_of_range _ (by omega) (by omega)]

/-- An instance of `atoi_decimal`: the string `"  -42abc"` gives `-42`. -/
theorem atoi_decimal_example :
    atoi c_isspace [0x20, 0x20, 0x2D, 0x34, 0x32, 0x61, 0x62, 0x63] = Run.ret (-42) :=
  atoi_decimal c_isspace [0x20, 0x20] [0x2D] [0x34, 0x32] [0x61, 0x62, 0x63]
    (by decide) (by decide) (by decide) (by decide) (by decide) (by decide) (by decide)
    (by decide) (by intro r; constructor <;> simp)

/-- The hexadecimal branch of `atoi`: on whitespace, `0x` or `0X`, a run of hexadecimal
digits whose value fits an `int` and a tail that does not begin with a hexadecimal digit,
`atoi` returns the value of the digit run. -/
theorem atoi_hexadecimal (isspace : Nat → Int) (ws : List Nat) (x : Nat)
    (digits tail : List Nat)
    (hws : ∀ c ∈ ws, is_whitespace isspace c = true)
    (hzero : is_whitespace isspace 0x30 = false)
    (hx : x = 0x78 ∨ x = 0x58)
    (hdigits : ∀ c ∈ digits, IsHexDigit c)
    (hval : hex_value 0 digits ≤ 2147483647)
    (htail : ∀ c, tail.head? = some c → ¬ IsHexDigit c) :
    atoi isspace (ws ++ (0x30 :: x :: (digits ++ tail))) =
      Run.ret ((hex_value 0 digits : Nat) : Int) := by
  rw [atoi_eq_body isspace ws _ hws
    (by intro c hc; simp only [List.head?_cons, Option.some.injEq] at hc; rw [← hc]; exact hzero)
    (by simp)]
  have hhex : atoi_is_hex (0x30 :: x :: (digits ++ tail)) = Run.ret true := by
    rcases hx with h | h <;> subst h <;> simp [atoi_is_hex]
  have hloop := atoi_hex_loop_eq tail htail digits ((0x30 :: x :: (digits ++ tail)).length + 1)
    [0x30, x] 0 hdigits hval (by simp; omega)
  simp only [List.cons_append, List.nil_append, List.length_cons, List.length_nil,
    Nat.cast_zero, List.append_assoc] at hloop
  rw [atoi_body, hhex]
  simp only [Run.bind, if_true]
  simpa using hloop

/-- A sign before `0x` or `0X` sends `atoi` to its decimal branch, which reads the digit
`0` and stops at the `x`. -/
theorem atoi_signed_hexadecimal (isspace : Nat → Int) (ws : List Nat) (s x : Nat)
    (tail : List Nat)
    (hws : ∀ c ∈ ws, is_whitespace isspace c = true)
    (hs : s = 0x2B ∨ s = 0x2D) (hsign : is_whitespace isspace s = false)
    (hx : x = 0x78 ∨ x = 0x58) :
    atoi isspace (ws ++ (s :: 0x30 :: x :: tail)) = Run.ret 0 := by
  have h := atoi_decimal isspace ws [s] [0x30] (x :: tail) hws
    (by rcases hs with h | h <;> simp [h])
    (by intro c hc; simp only [List.mem_singleton] at hc; subst hc; decide)
    (by decide)
    (by
      intro c hc
      simp only [List.head?_cons, Option.some.injEq] at hc
      subst hc
      rcases hx with h | h <;> subst h <;> decide)
    (by simp)
    (by intro c hc; simp only [List.singleton_append, List.cons_append, List.head?_cons,
          Option.some.injEq] at hc; rw [← hc]; exact hsign)
    (by intro h; simp at h)
    (by
      intro r
      rcases hs with h | h <;> subst h <;> constructor <;> simp)
  have hv : decimal_value 0 [0x30] = 0 := by decide
  simp only [List.singleton_append, List.cons_append, List.nil_append, hv, Nat.cast_zero,
    neg_zero, ite_self] at h
  exact h

/-- C23 (code bug). On a string that is not empty and holds whitespace characters only (no
sign, an empty digit run, an empty tail), where the claim has `atoi` return 0, `atoi` reads
`str[0]` of the empty view that `find_nonspace` returned, a character outside that view, and
so does not return 0 there. -/
theorem atoi_whitespace_only (isspace : Nat → Int) (ws : List Nat) (hne : ws ≠ [])
    (hws : ∀ c ∈ ws, is_whitespace isspace c = true) :
    atoi isspace ws = Run.out_of_range ∧ atoi isspace ws ≠ Run.ret 0 := by
  rw [atoi_all_whitespace isspace ws hne hws]
  exact ⟨rfl, by intro h; cases h⟩

theorem atoi_whitespace_only_witness :
    atoi c_isspace [0x20] = Run.out_of_range ∧ atoi c_isspace [0x20] ≠ Run.ret 0 :=
  atoi_whitespace_only c_isspace [0x20] (by decide) (by decide)

/-- C24 (counterexample). The string `"-0x10"` gives 0, not -16, and `"+0x1F"` gives 0, not
31: the test for `0x` is made on the first two characters after the whitespace, before the
sign is looked at. -/
theorem atoi_signed_hex_is_zero :
    atoi c_isspace [0x2D, 0x30, 0x78, 0x31, 0x30] = Run.ret 0 ∧
      atoi c_isspace [0x2D, 0x30, 0x78, 0x31, 0x30] ≠ Run.ret (-16) ∧
      atoi c_isspace [0x2B, 0x30, 0x78, 0x31, 0x46] = Run.ret 0 ∧
      atoi c_isspace [0x2B, 0x30, 0x78, 0x31, 0x46] ≠ Run.ret 31 := by
  have h1 : atoi c_isspace [0x2D, 0x30, 0x78, 0x31, 0x30] = Run.ret 0 :=
    atoi_signed_hexadecimal c_isspace [] 0x2D 0x78 [0x31, 0x30] (by decide) (by decide)
      (by decide) (by decide)
  have h2 : atoi c_isspace [0x2B, 0x30, 0x78, 0x31, 0x46] = Run.ret 0 :=
    atoi_signed_hexadecimal c_isspace [] 0x2B 0x78 [0x31, 0x46] (by decide) (by decide)
      (by decide) (by decide)
  rw [h1, h2]
  exact ⟨rfl, by decide, rfl, by decide⟩

/-- C24 (amended). For every string that, after optional leading whitespace, begins with
`0x` or `0X` followed by hexadecimal digits (upper or lower case) whose value is at most
`INT_MAX`, `atoi` returns that hexadecimal value, stopping at the first non-hexadecimal
character; no sign is read before the prefix: with a `+` or `-` in front of the `0x` the
result is 0. -/
theorem atoi_hex_spec (isspace : Nat → Int) (ws : List Nat) (x : Nat)
    (digits tail : List Nat)
    (hws : ∀ c ∈ ws, is_whitespace isspace c = true)
    (hzero : is_whitespace isspace 0x30 = false)
    (hx : x = 0x78 ∨ x = 0x58)
    (hdigits : ∀ c ∈ digits, IsHexDigit c)
    (hval : hex_value 0 digits ≤ 2147483647)
    (htail : ∀ c, tail.head? = some c → ¬ IsHexDigit c) :
    atoi isspace (ws ++ (0x30 :: x :: (digits ++ tail))) =
        Run.ret ((hex_value 0 digits : Nat) : Int) ∧
      ∀ s, s = 0x2B ∨ s = 0x2D → is_whitespace isspace s = false →
        atoi isspace (ws ++ (s :: 0x30 :: x :: (digits ++ tail))) = Run.ret 0 :=
  ⟨atoi_hexadecimal isspace ws x digits tail hws hzero hx hdigits hval htail,
    fun s hs hsign => atoi_signed_hexadecimal isspace ws s x (digits ++ tail) hws hs hsign hx⟩

theorem atoi_hex_spec_witness :
    atoi c_isspace ([0x20] ++ (0x30 :: 0x58 :: ([0x37, 0x66, 0x46] ++ [0x67, 0x31]))) =
        Run.ret ((hex_value 0 [0x37, 0x66, 0x46] : Nat) : Int) ∧
      ∀ s, s = 0x2B ∨ s = 0x2D → is_whitespace c_isspace s = false →
        atoi c_isspace ([0x20] ++ (s :: 0x30 :: 0x58 :: ([0x37, 0x66, 0x46] ++ [0x67, 0x31]))) =
          Run.ret 0 :=
  atoi_hex_spec c_isspace [0x20] 0x58 [0x37, 0x66, 0x46] [0x67, 0x31]
    (by decide) (by decide) (by decide) (by decide) (by decide) (by decide)

set_option maxRecDepth 100000 in
theorem is_utf8_eq_false_iff : ∀ b, b < 256 → (is_utf8 b = false ↔ IsContinuation b) := by
  unfold is_utf8 IsContinuation
  decide

theorem is_utf8_of_continuation (b : Nat) (h : IsContinuation b) : is_utf8 b = false :=
  (is_utf8_eq_false_iff b (by have := h.2; omega)).2 h

theorem is_utf8_of_not_continuation (b : Nat) (hb : b < 256) (h : ¬ IsContinuation b) :
    is_utf8 b = true := by
  cases hu : is_utf8 b with
  | true => rfl
  | false => exact absurd ((is_utf8_eq_false_iff b hb).1 hu) h

/-- The byte after a character of a NUL-terminated valid UTF-8 string, the lead byte of the
next character or the NUL, is not a continuation byte. -/
theorem valid_utf8_head (rest : List Nat) (hv : ValidUtf8 rest) :
    ∃ c r, rest ++ [0] = c :: r ∧ is_utf8 c = true := by
  cases hv with
  | nil => exact ⟨0, [], rfl, by decide⟩
  | one b0 rest h0 _ =>
    exact ⟨b0, rest ++ [0], by simp,
      is_utf8_of_not_continuation b0 (by omega) (by intro h; have := h.1; omega)⟩
  | two b0 b1 rest h0 h1 _ _ =>
    exact ⟨b0, b1 :: (rest ++ [0]), by simp,
      is_utf8_of_not_continuation b0 (by omega) (by intro h; have := h.2; omega)⟩
  | three b0 b1 b2 rest h0 h1 _ _ _ _ _ =>
    exact ⟨b0, b1 :: b2 :: (rest ++ [0]), by simp,
      is_utf8_of_not_continuation b0 (by omega) (by intro h; have := h.2; omega)⟩
  | four b0 b1 b2 b3 rest h0 h1 _ _ _ _ _ _ =>
    exact ⟨b0, b1 :: b2 :: b3 :: (rest ++ [0]), by simp,
      is_utf8_of_not_continuation b0 (by omega) (by intro h; have := h.2; omega)⟩

/-- On a NUL-terminated valid UTF-8 string whose first byte is not NUL, `next_utf8_char`
advances by the encoded length of the first character when that is 1, 2 or 3 bytes, and by
3 bytes when it is 4 bytes. -/
theorem next_utf8_char_valid (b0 : Nat) (rest : List Nat) (hv : ValidUtf8 (b0 :: rest))
    (h0 : b0 ≠ 0) :
    next_utf8_char (some (b0 :: rest ++ [0])) = Run.ret (some (min (utf8_char_length b0) 3)) := by
  cases hv with
  | one _ _ hlt hrest =>
    obtain ⟨c, r, hcr, hc⟩ := valid_utf8_head rest hrest
    have hlen : utf8_char_length b0 = 1 := by simp [utf8_char_length, hlt]
    simp only [List.cons_append, hcr, hlen]
    simp [next_utf8_char, h0, hc]
  | two _ b1 rest hlo hhi h1 hrest =>
    obtain ⟨c, r, hcr, hc⟩ := valid_utf8_head rest hrest
    have hlen : utf8_char_length b0 = 2 := by
      unfold utf8_char_length
      rw [if_neg (by omega), if_pos (by omega)]
    simp only [List.cons_append, hcr, hlen]
    simp [next_utf8_char, h0, hc, is_utf8_of_continuation b1 h1]
  | three _ b1 b2 rest hlo hhi h1 h2 _ _ hrest =>
    obtain ⟨c, r, hcr, hc⟩ := valid_utf8_head rest hrest
    have hlen : utf8_char_length b0 = 3 := by
      unfold utf8_char_length
      rw [if_neg (by omega), if_neg (by omega), if_pos (by omega)]
    simp only [List.cons_append, hcr, hlen]
    simp [next_utf8_char, h0, is_utf8_of_continuation b1 h1, is_utf8_of_continuation b2 h2]
  | four _ b1 b2 b3 rest hlo hhi h1 h2 h3 _ _ hrest =>
    have hlen : utf8_char_length b0 = 4 := by
      unfold utf8_char_length
      rw [if_neg (by omega), if_neg (by omega), if_neg (by omega)]
    simp only [List.cons_append, hlen]
    simp [next_utf8_char, h0, is_utf8_of_continuation b1 h1, is_utf8_of_continuation b2 h2]

/-- On a null pointer `next_utf8_char` returns null, and on an empty string its argument. -/
theorem next_utf8_char_null_and_empty :
    next_utf8_char none = Run.ret none ∧ next_utf8_char (some [0]) = Run.ret (some 0) :=
  ⟨rfl, rfl⟩

/-- C25 (code bug). On a NUL-terminated valid UTF-8 string that starts with a character of
four bytes, `next_utf8_char` returns `psz + 3`, not `psz + 4`: the byte it points at is the
last continuation byte of that same character. -/
theorem next_utf8_char_four_bytes (b0 b1 b2 b3 : Nat) (rest : List Nat)
    (hv : ValidUtf8 (b0 :: b1 :: b2 :: b3 :: rest)) (hlead : 0xF0 ≤ b0) :
    next_utf8_char (some (b0 :: b1 :: b2 :: b3 :: rest ++ [0])) = Run.ret (some 3) ∧
      utf8_char_length b0 = 4 ∧
      (b0 :: b1 :: b2 :: b3 :: rest ++ [0])[3]? = some b3 ∧ IsContinuation b3 ∧
      is_utf8 b3 = false := by
  have hlen : utf8_char_length b0 = 4 := by
    unfold utf8_char_length
    rw [if_neg (by omega), if_neg (by omega), if_neg (by omega)]
  have h := next_utf8_char_valid b0 (b1 :: b2 :: b3 :: rest) hv (by omega)
  rw [hlen] at h
  have h3 : IsContinuation b3 := by
    cases hv with
    | one _ _ hlt _ => omega
    | two _ _ _ _ hhi _ _ => omega
    | three _ _ _ _ _ hhi _ _ _ _ _ => omega
    | four _ _ _ _ _ _ _ _ _ h3 _ _ _ => exact h3
  exact ⟨h, hlen, by simp, h3, is_utf8_of_continuation b3 h3⟩

theorem next_utf8_char_four_bytes_witness :
    next_utf8_char (some (0xF0 :: 0x9F :: 0x98 :: 0x80 :: [] ++ [0])) = Run.ret (some 3) ∧
      utf8_char_length 0xF0 = 4 ∧
      (0xF0 :: 0x9F :: 0x98 :: 0x80 :: [] ++ [0])[3]? = some 0x80 ∧ IsContinuation 0x80 ∧
      is_utf8 0x80 = false :=
  next_utf8_char_four_bytes 0xF0 0x9F 0x98 0x80 []
    (ValidUtf8.four 0xF0 0x9F 0x98 0x80 [] (by decide) (by decide) (by decide) (by decide)
      (by decide) (by decide) (by decide) ValidUtf8.nil) (by decide)

/-- Whatever the string and the position inside it, `is_valid_filechar` returns false for
each of the characters `<`, `>`, `:`, `/`, `\`, `|`, `?`, `*` and NUL. -/
theorem is_valid_filechar_special (str : List Nat) (pos c : Nat) (hpos : str[pos]? = some c)
    (hc : c = 0x3C ∨ c = 0x3E ∨ c = 0x3A ∨ c = 0x2F ∨ c = 0x5C ∨ c = 0x7C ∨ c = 0x3F ∨
      c = 0x2A ∨ c = 0) :
    is_valid_filechar str pos = Run.ret false := by
  have hne : c ≠ 0x2E := by omega
  unfold is_valid_filechar
  split
  · rfl
  · rw [hpos]
    simp only [if_neg hne, if_pos hc]

/-- C26 (code bug). For the dot of `"./x"` at position 0 and the second dot of `"../x"` at
position 1, both part of a directory component, `is_valid_filechar` returns true; it
returns false for the first dot of `"../x"` and true for the leading dot of
`".gitignore"`. -/
theorem is_valid_filechar_dot_components :
    is_valid_filechar [0x2E, 0x2F, 0x78] 0 = Run.ret true ∧
      is_valid_filechar [0x2E, 0x2E, 0x2F, 0x78] 1 = Run.ret true ∧
      is_valid_filechar [0x2E, 0x2E, 0x2F, 0x78] 0 = Run.ret false ∧
      is_valid_filechar [0x2E, 0x67, 0x69, 0x74, 0x69, 0x67, 0x6E, 0x6F, 0x72, 0x65] 0 =
        Run.ret true := by
  decide

/-- The function `is_sameas` always returns, and returns `same_as`. -/
theorem is_sameas_eq (tolower : Nat → Int) (a b : List Nat) (checkcase : tt.CASE) :
    is_sameas tolower a b checkcase = Run.ret (same_as tolower checkcase a b) := by
  by_cases hl : a.length ≠ b.length
  · rw [is_sameas, if_pos hl]
    have h1 : a ≠ b := fun h => hl (by rw [h])
    have h2 : a.map tolower ≠ b.map tolower := fun h => hl (by simpa using congrArg List.length h)
    simp [same_as, h1, h2]
  · rw [is_sameas, if_neg hl]
    cases a with
    | nil =>
      have : b = [] := by
        cases b with
        | nil => rfl
        | cons _ _ => simp at hl
      subst this
      simp [same_as]
    | cons x rest =>
      rw [if_neg (by simp)]
      by_cases hc : checkcase = tt.CASE.exact
      · rw [if_pos hc]
        simp only [same_as, if_pos hc, string_view_compare_eq_zero]
      · rw [if_neg hc, is_sameas_loop_eq tolower b (x :: rest) (not_not.1 hl) (by simp)]
        simp only [same_as, if_neg hc]

theorem same_as_refl (tolower : Nat → Int) (checkcase : tt.CASE) (a : List Nat) :
    same_as tolower checkcase a a = true := by
  simp [same_as]

theorem same_as_symm (tolower : Nat → Int) (checkcase : tt.CASE) (a b : List Nat) :
    same_as tolower checkcase a b = same_as tolower checkcase b a := by
  unfold same_as
  split
  · exact decide_eq_decide.2 ⟨fun h => h.symm, fun h => h.symm⟩
  · exact decide_eq_decide.2 ⟨fun h => h.symm, fun h => h.symm⟩

/-- The loop of `has_member`, standing at the end of `pre` in the vector `pre ++ suf` with
enough fuel, returns whether an element of `suf` is the same as `str`. -/
theorem has_member_loop_eq (tolower : Nat → Int) (str : List Nat) (checkcase : tt.CASE) :
    ∀ (fuel : Nat) (pre suf : List (List Nat)), suf.length < fuel →
      has_member_loop tolower (pre ++ suf) str checkcase fuel pre.length =
        Run.ret (suf.any (fun e => same_as tolower checkcase e str)) := by
  intro fuel
  induction fuel with
  | zero => intro pre suf h; omega
  | succ n ih =>
    intro pre suf h
    cases suf with
    | nil => simp [has_member_loop]
    | cons e rest =>
      have hlt : pre.length < (pre ++ e :: rest).length := by simp
      have hget : (pre ++ e :: rest)[pre.length]? = some e := by
        rw [List.getElem?_append_right (Nat.le_refl _)]
        simp
      rw [has_member_loop, if_pos hlt, hget]
      simp only [is_sameas_eq, Run.bind, List.any_cons]
      by_cases hs : same_as tolower checkcase e str = true
      · simp [hs]
      · have hsf : same_as tolower checkcase e str = false := by simpa using hs
        have := ih (pre ++ [e]) rest (by simp at h; omega)
        simp only [List.append_assoc, List.singleton_append, List.length_append,
          List.length_singleton] at this
        simp only [hsf, Bool.false_eq_true, if_false, this, Bool.false_or]

/-- The loop of `add_if`, standing at the end of `pre` in the vector `pre ++ suf` with
enough fuel, leaves the vector as it is when an element of `suf` is the same as `str` and
appends `str` otherwise. -/
theorem add_if_loop_eq (tolower : Nat → Int) (str : List Nat) (checkcase : tt.CASE) :
    ∀ (fuel : Nat) (pre suf : List (List Nat)), suf.length < fuel →
      add_if_loop tolower (pre ++ suf) str checkcase fuel pre.length =
        Run.ret (if suf.any (fun e => same_as tolower checkcase e str) then pre ++ suf
          else pre ++ suf ++ [str]) := by
  intro fuel
  induction fuel with
  | zero => intro pre suf h; omega
  | succ n ih =>
    intro pre suf h
    cases suf with
    | nil => simp [add_if_loop]
    | cons e rest =>
      have hlt : pre.length < (pre ++ e :: rest).length := by simp
      have hget : (pre ++ e :: rest)[pre.length]? = some e := by
        rw [List.getElem?_append_right (Nat.le_refl _)]
        simp
      rw [add_if_loop, if_pos hlt, hget]
      simp only [is_sameas_eq, Run.bind, List.any_cons]
      by_cases hs : same_as tolower checkcase e str = true
      · simp [hs]
      · have hsf : same_as tolower checkcase e str = false := by simpa using hs
        have := ih (pre ++ [e]) rest (by simp at h; omega)
        simp only [List.append_assoc, List.singleton_append, List.length_append,
          List.length_singleton] at this
        simp only [hsf, Bool.false_eq_true, if_false, this, Bool.false_or, List.append_assoc]

theorem has_member_eq (tolower : Nat → Int) (vec : List (List Nat)) (str : List Nat)
    (checkcase : tt.CASE) :
    has_member tolower vec str checkcase =
      Run.ret (vec.any (fun e => same_as tolower checkcase e str)) := by
  have := has_member_loop_eq tolower str checkcase (vec.length + 1) [] vec (by omega)
  simpa [has_member] using this

theorem add_if_eq (tolower : Nat → Int) (vec : List (List Nat)) (str : List Nat)
    (checkcase : tt.CASE) :
    add_if tolower vec str checkcase =
      Run.ret (if vec.any (fun e => same_as tolower checkcase e str) then vec
        else vec ++ [str]) := by
  have := add_if_loop_eq tolower str checkcase (vec.length + 1) [] vec (by omega)
  simpa [add_if] using this

/-- A sequence of `add_if` calls keeps the vector free of two elements that are the same. -/
theorem add_if_sequence_pairwise (tolower : Nat → Int) (checkcase : tt.CASE) :
    ∀ (strs : List (List Nat)) (vec : List (List Nat)),
      vec.Pairwise (fun a b => same_as tolower checkcase a b = false) →
      ∃ built, add_if_sequence tolower checkcase vec strs = Run.ret built ∧
        built.Pairwise (fun a b => same_as tolower checkcase a b = false) := by
  intro strs
  induction strs with
  | nil => intro vec hvec; exact ⟨vec, rfl, hvec⟩
  | cons s strs ih =>
    intro vec hvec
    rw [add_if_sequence, add_if_eq]
    simp only [Run.bind]
    apply ih
    split
    · exact hvec
    · rename_i hany
      rw [List.pairwise_append]
      refine ⟨hvec, List.pairwise_singleton _ _, ?_⟩
      intro a ha b hb
      rw [List.mem_singleton] at hb
      subst hb
      simp only [List.any_eq_true, not_exists, not_and, Bool.not_eq_true] at hany
      exact hany a ha

/-- C27. For every vector `vec`, string `s` and mode (`exact` and `either` among them),
`add_if(vec, s, mode)` leaves `vec` unchanged when `has_member(vec, s, mode)` holds, that is
when `is_sameas` returns true on an element of `vec` and `s`, and otherwise appends `s` as
the last element; afterwards `has_member(vec, s, mode)` holds; and a vector built from the
empty vector only by `add_if` calls with one mode never holds, at two different positions,
elements that `is_sameas` judges equal in that mode. -/
theorem add_if_spec (tolower : Nat → Int) (vec : List (List Nat)) (s : List Nat)
    (checkcase : tt.CASE) :
    (∃ found, has_member tolower vec s checkcase = Run.ret found ∧
      (found = true ↔ ∃ e ∈ vec, is_sameas tolower e s checkcase = Run.ret true) ∧
      add_if tolower vec s checkcase = Run.ret (if found then vec else vec ++ [s])) ∧
    (∃ vec2, add_if tolower vec s checkcase = Run.ret vec2 ∧
      has_member tolower vec2 s checkcase = Run.ret true) ∧
    (∀ strs, ∃ built, add_if_sequence tolower checkcase [] strs = Run.ret built ∧
      ∀ i j, i < built.length → j < built.length → i ≠ j →
        is_sameas tolower (built.getD i []) (built.getD j []) checkcase = Run.ret false) := by
  refine ⟨⟨_, has_member_eq tolower vec s checkcase, ?_, add_if_eq tolower vec s checkcase⟩,
    ⟨_, add_if_eq tolower vec s checkcase, ?_⟩, ?_⟩
  · rw [List.any_eq_true]
    constructor
    · rintro ⟨e, he, hs⟩
      exact ⟨e, he, by rw [is_sameas_eq, hs]⟩
    · rintro ⟨e, he, hs⟩
      rw [is_sameas_eq] at hs
      exact ⟨e, he, by injection hs⟩
  · rw [has_member_eq]
    congr 1
    split
    · assumption
    · rw [List.any_append]
      simp [same_as_refl]
  · intro strs
    obtain ⟨built, hbuilt, hpair⟩ :=
      add_if_sequence_pairwise tolower checkcase strs [] List.Pairwise.nil
    refine ⟨built, hbuilt, ?_⟩
    rw [List.pairwise_iff_getElem] at hpair
    intro i j hi hj hne
    rw [is_sameas_eq, List.getD_eq_getElem built [] hi, List.getD_eq_getElem built [] hj]
    congr 1
    rcases Nat.lt_or_gt_of_ne hne with h | h
    · exact hpair i j hi hj h
    · rw [same_as_symm]
      exact hpair j i hj hi h

/-- An instance: adding `"a"`, `"A"`, `"b"`, `"a"` in `CASE::either` builds `"a"`, `"b"`,
and in `CASE::exact` it builds `"a"`, `"A"`, `"b"`. -/
theorem add_if_sequence_example :
    add_if_sequence c_tolower tt.CASE.either [] [[0x61], [0x41], [0x62], [0x61]] =
        Run.ret [[0x61], [0x62]] ∧
      add_if_sequence c_tolower tt.CASE.exact [] [[0x61], [0x41], [0x62], [0x61]] =
        Run.ret [[0x61], [0x41], [0x62]] := by
  decide

theorem std_find_if_eq (pred : Nat → Bool) (l : List Nat) :
    std_find_if pred l = (l.takeWhile (fun c => !pred c)).length := by
  induction l with
  | nil => rfl
  | cons c rest ih =>
    by_cases h : pred c = true
    · simp [std_find_if, List.takeWhile_cons, h]
    · simp [std_find_if, List.takeWhile_cons, h, ih]

theorem trim_not_space_eq (isspace : Nat → Int) :
    (fun c => !trim_not_space isspace c) = fun c => is_whitespace isspace c := by
  funext c
  simp [trim_not_space, is_whitespace]

/-- The function `LeftTrim` drops the longest prefix of whitespace characters. -/
theorem LeftTrim_eq (isspace : Nat → Int) (s : List Nat) :
    LeftTrim isspace s = s.dropWhile (fun c => is_whitespace isspace c) := by
  rw [LeftTrim, string_erase, std_find_if_eq, trim_not_space_eq, drop_takeWhile_length]
  rfl

/-- The function `RightTrim` drops the longest prefix of whitespace characters of the
reversed string. -/
theorem RightTrim_eq (isspace : Nat → Int) (s : List Nat) :
    RightTrim isspace s = (s.reverse.dropWhile (fun c => is_whitespace isspace c)).reverse := by
  rw [RightTrim, string_erase, std_find_if_eq, trim_not_space_eq, List.drop_length,
    List.append_nil, ← drop_takeWhile_length, List.drop_reverse, List.reverse_reverse]

theorem head_dropWhile_not (p : Nat → Bool) (s : List Nat) :
    ∀ c, (s.dropWhile p).head? = some c → p c = false := by
  induction s with
  | nil => intro c h; simp at h
  | cons x rest ih =>
    intro c h
    by_cases hx : p x = true
    · rw [List.dropWhile_cons, if_pos hx] at h
      exact ih c h
    · rw [List.dropWhile_cons, if_neg hx] at h
      simp only [List.head?_cons, Option.some.injEq] at h
      subst h
      simpa using hx

theorem reverse_dropWhile_reverse_append (p : Nat → Bool) (t : List Nat)
    (hlast : ∀ c, t.getLast? = some c → p c = false) (suf : List Nat)
    (hsuf : ∀ c ∈ suf, p c = true) :
    (((t ++ suf).reverse).dropWhile p).reverse = t := by
  rw [List.reverse_append, dropWhile_append_of_head p t.reverse
    (by intro c hc; rw [List.head?_reverse] at hc; exact hlast c hc) suf.reverse
    (by intro c hc; exact hsuf c (List.mem_reverse.1 hc)), List.reverse_reverse]

/-- What is left of `s` after the longest prefix and the longest suffix on which `p` holds
are dropped: it lies in `s` between a prefix and a suffix on which `p` holds, and neither
begins nor ends with a character on which `p` holds. -/
theorem trim_both_decomposition (p : Nat → Bool) (s : List Nat) :
    ∃ pre suf, s = pre ++ (((s.dropWhile p).reverse).dropWhile p).reverse ++ suf ∧
      s.dropWhile p = (((s.dropWhile p).reverse).dropWhile p).reverse ++ suf ∧
      (∀ c ∈ pre, p c = true) ∧ (∀ c ∈ suf, p c = true) ∧
      (∀ c, ((((s.dropWhile p).reverse).dropWhile p).reverse).head? = some c → p c = false) ∧
      (∀ c, ((((s.dropWhile p).reverse).dropWhile p).reverse).getLast? = some c →
        p c = false) := by
  have hl : s.takeWhile p ++ s.dropWhile p = s := List.takeWhile_append_dropWhile p s
  have hr : ((s.dropWhile p).reverse).takeWhile p ++ ((s.dropWhile p).reverse).dropWhile p =
      (s.dropWhile p).reverse := List.takeWhile_append_dropWhile p _
  have hr2 : s.dropWhile p = (((s.dropWhile p).reverse).dropWhile p).reverse ++
      (((s.dropWhile p).reverse).takeWhile p).reverse := by
    rw [← List.reverse_append, hr, List.reverse_reverse]
  refine ⟨s.takeWhile p, (((s.dropWhile p).reverse).takeWhile p).reverse, ?_, hr2, ?_, ?_, ?_, ?_⟩
  · rw [List.append_assoc, ← hr2, hl]
  · intro c hc
    exact List.mem_takeWhile_imp hc
  · intro c hc
    exact List.mem_takeWhile_imp (List.mem_reverse.1 hc)
  · intro c hc
    apply head_dropWhile_not p s c
    rw [hr2]
    cases hb : (((s.dropWhile p).reverse).dropWhile p).reverse with
    | nil => rw [hb] at hc; simp at hc
    | cons x r => rw [hb] at hc; simpa using hc
  · intro c hc
    rw [List.getLast?_reverse] at hc
    exact head_dropWhile_not p _ c hc

theorem dropWhile_eq_nil_of_forall (p : Nat → Bool) (s : List Nat) (h : ∀ c ∈ s, p c = true) :
    s.dropWhile p = [] := by
  have := dropWhile_append_of_head p [] (by intro c hc; simp at hc) s h
  simpa using this

theorem dropWhile_eq_self_of_head (p : Nat → Bool) (s : List Nat)
    (h : ∀ c, s.head? = some c → p c = false) : s.dropWhile p = s := by
  have := dropWhile_append_of_head p s h [] (by intro c hc; simp at hc)
  simpa using this

/-- Dropping the longest prefix and dropping the longest suffix on which `p` holds can be
done in either order. -/
theorem trim_commute (p : Nat → Bool) (s : List Nat) :
    ((s.reverse.dropWhile p).reverse).dropWhile p =
      (((s.dropWhile p).reverse).dropWhile p).reverse := by
  obtain ⟨pre, suf, hs, hd, hpre, hsuf, hhead, hlast⟩ := trim_both_decomposition p s
  cases hb : (((s.dropWhile p).reverse).dropWhile p).reverse with
  | nil =>
    rw [hb] at hs hd
    simp only [List.append_nil, List.nil_append] at hs hd
    have hall : ∀ c ∈ s, p c = true := by
      intro c hc
      rw [hs] at hc
      rcases List.mem_append.1 hc with h | h
      · exact hpre c h
      · exact hsuf c h
    have h1 : s.reverse.dropWhile p = [] :=
      dropWhile_eq_nil_of_forall p s.reverse (fun c hc => hall c (List.mem_reverse.1 hc))
    rw [h1]
    rfl
  | cons x r =>
    rw [hb] at hs hhead hlast
    have hlast2 : ∀ c, (pre ++ x :: r).getLast? = some c → p c = false := by
      intro c hc
      apply hlast c
      rw [List.getLast?_append] at hc
      cases hl : (x :: r).getLast? with
      | none => simp at hl
      | some y => rw [hl] at hc; simpa using hc
    have h1 : (s.reverse.dropWhile p).reverse = pre ++ x :: r := by
      conv_lhs => rw [hs]
      exact reverse_dropWhile_reverse_append p (pre ++ x :: r) hlast2 suf hsuf
    rw [h1]
    exact dropWhile_append_of_head p (x :: r) hhead pre hpre

/-- C28. For every string `s`, `LeftTrim` removes exactly the longest prefix of whitespace
characters (what it removes is whitespace and what it leaves does not begin with a
whitespace character), `RightTrim` removes exactly the longest suffix of whitespace
characters, and `BothTrim` leaves the contiguous part of `s` from its first to its last
non-whitespace character, the empty string when `s` is all whitespace; each of the three is
idempotent, and `LeftTrim` and `RightTrim` commute. -/
theorem trim_spec (isspace : Nat → Int) (s : List Nat) :
    (∃ pre, s = pre ++ LeftTrim isspace s ∧
      (∀ c ∈ pre, is_whitespace isspace c = true) ∧
      (∀ c, (LeftTrim isspace s).head? = some c → is_whitespace isspace c = false)) ∧
    (∃ suf, s = RightTrim isspace s ++ suf ∧
      (∀ c ∈ suf, is_whitespace isspace c = true) ∧
      (∀ c, (RightTrim isspace s).getLast? = some c → is_whitespace isspace c = false)) ∧
    (∃ pre suf, s = pre ++ BothTrim isspace s ++ suf ∧
      (∀ c ∈ pre, is_whitespace isspace c = true) ∧
      (∀ c ∈ suf, is_whitespace isspace c = true) ∧
      (∀ c, (BothTrim isspace s).head? = some c → is_whitespace isspace c = false) ∧
      (∀ c, (BothTrim isspace s).getLast? = some c → is_whitespace isspace c = false)) ∧
    ((∀ c ∈ s, is_whitespace isspace c = true) → BothTrim isspace s = []) ∧
    LeftTrim isspace (LeftTrim isspace s) = LeftTrim isspace s ∧
    RightTrim isspace (RightTrim isspace s) = RightTrim isspace s ∧
    BothTrim isspace (BothTrim isspace s) = BothTrim isspace s ∧
    LeftTrim isspace (RightTrim isspace s) = RightTrim isspace (LeftTrim isspace s) := by
  have hboth : BothTrim isspace s =
      (((s.dropWhile (fun c => is_whitespace isspace c)).reverse).dropWhile
        (fun c => is_whitespace isspace c)).reverse := by
    rw [BothTrim, RightTrim_eq, LeftTrim_eq]
  obtain ⟨pre, suf, hs, _, hpre, hsuf, hhead, hlast⟩ :=
    trim_both_decomposition (fun c => is_whitespace isspace c) s
  rw [← hboth] at hs hhead hlast
  refine ⟨?_, ?_, ⟨pre, suf, hs, hpre, hsuf, hhead, hlast⟩, ?_, ?_, ?_, ?_, ?_⟩
  · refine ⟨s.takeWhile (fun c => is_whitespace isspace c), ?_, ?_, ?_⟩
    · rw [LeftTrim_eq, List.takeWhile_append_dropWhile]
    · intro c hc
      exact List.mem_takeWhile_imp hc
    · rw [LeftTrim_eq]
      exact head_dropWhile_not _ s
  · refine ⟨(s.reverse.takeWhile (fun c => is_whitespace isspace c)).reverse, ?_, ?_, ?_⟩
    · rw [RightTrim_eq, ← List.reverse_append, List.takeWhile_append_dropWhile,
        List.reverse_reverse]
    · intro c hc
      exact List.mem_takeWhile_imp (List.mem_reverse.1 hc)
    · rw [RightTrim_eq]
      intro c hc
      rw [List.getLast?_reverse] at hc
      exact head_dropWhile_not _ _ c hc
  · intro hall
    rw [BothTrim, LeftTrim_eq, dropWhile_eq_nil_of_forall _ s hall]
    rfl
  · rw [LeftTrim_eq, LeftTrim_eq, List.dropWhile_idempotent]
  · rw [RightTrim_eq, RightTrim_eq, List.reverse_reverse, List.dropWhile_idempotent]
  · have h1 : LeftTrim isspace (BothTrim isspace s) = BothTrim isspace s := by
      rw [LeftTrim_eq]
      exact dropWhile_eq_self_of_head _ _ hhead
    have h2 : RightTrim isspace (BothTrim isspace s) = BothTrim isspace s := by
      rw [RightTrim_eq]
      have := reverse_dropWhile_reverse_append (fun c => is_whitespace isspace c)
        (BothTrim isspace s) hlast [] (by intro c hc; simp at hc)
      simpa using this
    conv_lhs => rw [BothTrim, h1, h2]
  · rw [LeftTrim_eq, RightTrim_eq, RightTrim_eq, LeftTrim_eq]
    exact trim_commute _ s

/-- An instance: the three functions on the string `"  a b \t"`. -/
theorem trim_example :
    LeftTrim c_isspace [0x20, 0x20, 0x61, 0x20, 0x62, 0x20, 0x09] =
        [0x61, 0x20, 0x62, 0x20, 0x09] ∧
      RightTrim c_isspace [0x20, 0x20, 0x61, 0x20, 0x62, 0x20, 0x09] =
        [0x20, 0x20, 0x61, 0x20, 0x62] ∧
      BothTrim c_isspace [0x20, 0x20, 0x61, 0x20, 0x62, 0x20, 0x09] = [0x61, 0x20, 0x62] ∧
      BothTrim c_isspace [0x20, 0x09] = [] := by
  decide

/-- In the modes other than `CASE::exact`, `CASE::utf8` among them, `find_str` on `"É"` and
`"é"` finds nothing when `tolower` tells the bytes `0x89` and `0xA9` apart. -/
theorem find_str_e_acute (tolower : Nat → Int) (checkcase : tt.CASE)
    (hcase : checkcase ≠ tt.CASE.exact) (h : tolower 0x89 ≠ tolower 0xA9) :
    find_str tolower 3 [0xC3, 0x89] [0xC3, 0xA9] checkcase = Run.ret [] := by
  by_cases h2 : tolower 0x89 = tolower 0xC3
  · have h3 : tolower 0xC3 ≠ tolower 0xA9 := h2 ▸ h
    simp [find_str, hcase, find_str_loop, find_str_inner, h2, h3, u32]
  · simp [find_str, hcase, find_str_loop, find_str_inner, h, h2, u32]

/-- C29 (counterexample). With `std::tolower` of the "C" locale, `"É"` (bytes `C3 89`) and
`"é"` (bytes `C3 A9`) are not equal under `is_sameas(.., CASE::utf8)`, and
`find_str("É", "é", CASE::utf8)` returns the empty view. -/
theorem utf8_mode_e_acute_differs :
    is_sameas c_tolower [0xC3, 0x89] [0xC3, 0xA9] tt.CASE.utf8 = Run.ret false ∧
      find_str c_tolower 3 [0xC3, 0x89] [0xC3, 0xA9] tt.CASE.utf8 = Run.ret [] := by
  decide

/-- C29 (amended). In `CASE::utf8` mode `is_sameas` and `find_str` fold case per byte, not
per decoded character: `is_sameas(a, b, CASE::utf8)` is true exactly when `a` and `b` have
the same number of bytes and `tolower` agrees on their bytes at every index, and `find_str`
does in `CASE::utf8` what it does in `CASE::either`; so `"É"` (bytes `C3 89`) and `"é"`
(bytes `C3 A9`) are not equal under `is_sameas(.., CASE::utf8)` and not found by
`find_str(.., CASE::utf8)` whenever `tolower` tells the bytes `0x89` and `0xA9` apart. -/
theorem utf8_mode_per_byte (tolower : Nat → Int) (a b : List Nat) (fuel : Nat)
    (h : tolower 0x89 ≠ tolower 0xA9) :
    (∃ r, is_sameas tolower a b tt.CASE.utf8 = Run.ret r ∧
      (r = true ↔ (a.length = b.length ∧
        ∀ i, i < a.length → tolower (a.getD i 0) = tolower (b.getD i 0)))) ∧
    is_sameas tolower a b tt.CASE.utf8 = is_sameas tolower a b tt.CASE.either ∧
    find_str tolower fuel a b tt.CASE.utf8 = find_str tolower fuel a b tt.CASE.either ∧
    is_sameas tolower [0xC3, 0x89] [0xC3, 0xA9] tt.CASE.utf8 = Run.ret false ∧
    find_str tolower 3 [0xC3, 0x89] [0xC3, 0xA9] tt.CASE.utf8 = Run.ret [] := by
  refine ⟨⟨_, is_sameas_eq tolower a b tt.CASE.utf8, ?_⟩, ?_, ?_, ?_,
    find_str_e_acute tolower tt.CASE.utf8 (by decide) h⟩
  · simp only [same_as, if_neg (show tt.CASE.utf8 ≠ tt.CASE.exact by decide),
      decide_eq_true_eq]
    exact map_eq_map_iff_getD tolower a b
  · rw [is_sameas_eq, is_sameas_eq]
    rfl
  · simp [find_str]
  · rw [is_sameas_eq]
    simp [same_as, h]

theorem utf8_mode_per_byte_witness :
    (∃ r, is_sameas c_tolower [0x4B, 0xC3, 0x89] [0x6B, 0xC3, 0x89] tt.CASE.utf8 = Run.ret r ∧
      (r = true ↔ (([0x4B, 0xC3, 0x89] : List Nat).length = [0x6B, 0xC3, 0x89].length ∧
        ∀ i, i < ([0x4B, 0xC3, 0x89] : List Nat).length →
          c_tolower (([0x4B, 0xC3, 0x89] : List Nat).getD i 0) =
            c_tolower (([0x6B, 0xC3, 0x89] : List Nat).getD i 0)))) ∧
    is_sameas c_tolower [0x4B, 0xC3, 0x89] [0x6B, 0xC3, 0x89] tt.CASE.utf8 =
      is_sameas c_tolower [0x4B, 0xC3, 0x89] [0x6B, 0xC3, 0x89] tt.CASE.either ∧
    find_str c_tolower 4 [0x4B, 0xC3, 0x89] [0x6B, 0xC3, 0x89] tt.CASE.utf8 =
      find_str c_tolower 4 [0x4B, 0xC3, 0x89] [0x6B, 0xC3, 0x89] tt.CASE.either ∧
    is_sameas c_tolower [0xC3, 0x89] [0xC3, 0xA9] tt.CASE.utf8 = Run.ret false ∧
    find_str c_tolower 3 [0xC3, 0x89] [0xC3, 0xA9] tt.CASE.utf8 = Run.ret [] :=
  utf8_mode_per_byte c_tolower [0x4B, 0xC3, 0x89] [0x6B, 0xC3, 0x89] 4 (by decide)

/-- Every position that the loop of `utf8to16` reads is smaller than the length of the
input. -/
theorem utf8to16_reads_loop_lt (str : List Nat) :
    ∀ (fuel pos : Nat), ∀ i ∈ utf8to16_reads_loop str fuel pos, i < str.length := by
  intro fuel
  induction fuel with
  | zero => intro pos i hi; simp [utf8to16_reads_loop] at hi
  | succ n ih =>
    intro pos
    rw [utf8to16_reads_loop]
    by_cases hpos : pos < str.length
    · rw [if_pos hpos]
      obtain ⟨c, hc⟩ : ∃ c, str[pos]? = some c := ⟨str[pos], List.getElem?_eq_getElem hpos⟩
      rw [hc]
      simp only
      split_ifs with h1 h2 h3 h4 h5 h6 h7
      all_goals
        simp only [List.forall_mem_cons]
        first
          | exact ⟨by omega, ih _⟩
          | exact ⟨by omega, by omega, ih _⟩
          | exact ⟨by omega, by omega, by omega, ih _⟩
          | exact ⟨by omega, by omega, by omega, by omega, ih _⟩
    · rw [if_neg hpos]
      intro i hi
      simp at hi

/-- C30. For every byte sequence `str`, valid UTF-8 or not, `utf8to16` returns, whatever
`dest` holds, without a read outside `str`, and every position at which it reads `str` is
smaller than the length of `str`. -/
theorem utf8to16_reads_in_range (str : List Nat) :
    (∃ r, utf8to16 str = Run.ret r) ∧
      (∀ dest, ∃ r, utf8to16_dest str dest = Run.ret r) ∧
      ∀ i ∈ utf8to16_reads str, i < str.length := by
  refine ⟨⟨_, utf8to16_eq_list str⟩, ?_, utf8to16_reads_loop_lt str _ _⟩
  intro dest
  have := utf8to16_loop_eq_list (str.length + 1) [] str ⟨dest, true⟩ (by omega)
  exact ⟨_, by simpa [utf8to16_dest] using this⟩

/-- An instance: on the bytes `C3 A9 41 E2 82`, whose last character is cut short,
`utf8to16` reads each position once and none after the last one. -/
theorem utf8to16_reads_example :
    utf8to16_reads [0xC3, 0xA9, 0x41, 0xE2, 0x82] = [0, 1, 2, 3, 4] ∧
      utf8to16_reads [0xF0, 0x9F, 0x98, 0x80] = [0, 1, 2, 3] ∧
      utf8to16_reads [0xF0, 0x9F, 0x98] = [0, 1, 2] := by
  decide

/-- When the loop of `utf16to8` ends in a read outside `str`, the position read is the
length of `str`: the unit after a high surrogate that is the last unit. -/
theorem utf16to8_reads_loop_of_out_of_range (str : List Nat) :
    ∀ (fuel pos : Nat) (dest : List Nat),
      utf16to8_loop str fuel pos dest = Run.out_of_range →
      str.length ∈ utf16to8_reads_loop str fuel pos := by
  intro fuel
  induction fuel with
  | zero => intro pos dest h; simp [utf16to8_loop] at h
  | succ n ih =>
    intro pos dest h
    rw [utf16to8_loop] at h
    rw [utf16to8_reads_loop]
    by_cases hpos : pos < str.length
    · rw [if_pos hpos] at h ⊢
      obtain ⟨c, hc⟩ : ∃ c, str[pos]? = some c := ⟨str[pos], List.getElem?_eq_getElem hpos⟩
      rw [hc] at h ⊢
      simp only at h ⊢
      by_cases hs : 0xD800 ≤ c &&& 0xFFFF ∧ c &&& 0xFFFF ≤ 0xDBFF
      · rw [if_pos hs] at h ⊢
        cases hn : str[pos + 1]? with
        | none =>
          have hlen : str.length ≤ pos + 1 := List.getElem?_eq_none_iff.1 hn
          have : str.length = pos + 1 := by omega
          simp [this]
        | some next =>
          rw [hn] at h
          simp only [List.mem_cons]
          exact Or.inr (Or.inr (ih _ _ h))
      · rw [if_neg hs] at h ⊢
        simp only [List.mem_cons]
        exact Or.inr (ih _ _ h)
    · rw [if_neg hpos] at h
      cases h

/-- When the loop of `utf16to8` returns, every position it read is inside `str`. -/
theorem utf16to8_reads_loop_of_ret (str : List Nat) :
    ∀ (fuel pos : Nat) (dest out : List Nat),
      utf16to8_loop str fuel pos dest = Run.ret out →
      ∀ i ∈ utf16to8_reads_loop str fuel pos, i < str.length := by
  intro fuel
  induction fuel with
  | zero => intro pos dest out h; simp [utf16to8_loop] at h
  | succ n ih =>
    intro pos dest out h
    rw [utf16to8_loop] at h
    rw [utf16to8_reads_loop]
    by_cases hpos : pos < str.length
    · rw [if_pos hpos] at h ⊢
      obtain ⟨c, hc⟩ : ∃ c, str[pos]? = some c := ⟨str[pos], List.getElem?_eq_getElem hpos⟩
      rw [hc] at h ⊢
      simp only at h ⊢
      by_cases hs : 0xD800 ≤ c &&& 0xFFFF ∧ c &&& 0xFFFF ≤ 0xDBFF
      · rw [if_pos hs] at h ⊢
        cases hn : str[pos + 1]? with
        | none => rw [hn] at h; cases h
        | some next =>
          rw [hn] at h
          have hlt : pos + 1 < str.length := by
            by_contra hge
            have : str[pos + 1]? = none := List.getElem?_eq_none_iff.2 (by omega)
            rw [this] at hn
            cases hn
          simp only [List.forall_mem_cons]
          exact ⟨hpos, hlt, ih _ _ _ h⟩
      · rw [if_neg hs] at h ⊢
        simp only [List.forall_mem_cons]
        exact ⟨hpos, ih _ _ _ h⟩
    · rw [if_neg hpos]
      intro i hi
      simp at hi

/-- After well-formed UTF-16, `utf16to8` fails when it fails on what follows. -/
theorem utf16to8_list_append_none (suf : List Nat) (hsuf : utf16to8_list suf = none)
    (pre : List Nat) (hpre : WellFormedUtf16 pre) :
    utf16to8_list (pre ++ suf) = none := by
  induction hpre with
  | nil => simpa using hsuf
  | unit v rest hv hs _ ih =>
    rw [List.cons_append, utf16to8_list_unit v (rest ++ suf) hv (by omega), ih]
    rfl
  | pair hi lo rest h1 h2 h3 h4 _ ih =>
    rw [List.cons_append, List.cons_append, utf16to8_list_pair hi lo (rest ++ suf) h1 h2 h3 h4, ih]
    rfl

theorem utf16to8_list_high (hi : Nat) (h1 : 0xD800 ≤ hi) (h2 : hi ≤ 0xDBFF) :
    utf16to8_list [hi] = none := by
  have e : hi &&& 0xFFFF = hi := by rw [and_0xFFFF]; omega
  rw [utf16to8_list, if_pos (by rw [e]; exact ⟨h1, h2⟩)]

/-- C31 (code bug). On a sequence made of well-formed UTF-16 and then a high surrogate as
its last unit, `utf16to8` reads the unit after that surrogate, at the position that is the
length of the input, and so outside the input. -/
theorem utf16to8_trailing_high_surrogate (pre : List Nat) (hi : Nat)
    (hpre : WellFormedUtf16 pre) (h1 : 0xD800 ≤ hi) (h2 : hi ≤ 0xDBFF) :
    utf16to8 (pre ++ [hi]) = Run.out_of_range ∧
      (pre ++ [hi]).length ∈ utf16to8_reads (pre ++ [hi]) ∧
      ¬ ∀ i ∈ utf16to8_reads (pre ++ [hi]), i < (pre ++ [hi]).length := by
  have hnone := utf16to8_list_append_none [hi] (utf16to8_list_high hi h1 h2) pre hpre
  have hrun : utf16to8 (pre ++ [hi]) = Run.out_of_range := by
    rw [utf16to8_eq_list, hnone]
  have hmem : (pre ++ [hi]).length ∈ utf16to8_reads (pre ++ [hi]) :=
    utf16to8_reads_loop_of_out_of_range (pre ++ [hi]) _ 0 [] hrun
  exact ⟨hrun, hmem, fun hall => Nat.lt_irrefl _ (hall _ hmem)⟩

theorem utf16to8_trailing_high_surrogate_witness :
    utf16to8 ([0x61] ++ [0xD83D]) = Run.out_of_range ∧
      ([0x61] ++ [0xD83D] : List Nat).length ∈ utf16to8_reads ([0x61] ++ [0xD83D]) ∧
      ¬ ∀ i ∈ utf16to8_reads ([0x61] ++ [0xD83D]),
        i < ([0x61] ++ [0xD83D] : List Nat).length :=
  utf16to8_trailing_high_surrogate [0x61] 0xD83D
    (WellFormedUtf16.unit 0x61 [] (by decide) (by decide) WellFormedUtf16.nil)
    (by decide) (by decide)

/-- Whenever `utf16to8` returns, every position it read is inside the input. -/
theorem utf16to8_reads_in_range_of_ret (str out : List Nat) (h : utf16to8 str = Run.ret out) :
    ∀ i ∈ utf16to8_reads str, i < str.length :=
  utf16to8_reads_loop_of_ret str _ 0 [] out h

/-- An instance: the positions read on a lone high surrogate and on a surrogate pair. -/
theorem utf16to8_reads_example :
    utf16to8_reads [0xD83D] = [0, 1] ∧ utf16to8_reads [0xD83D, 0xDE00] = [0, 1] ∧
      utf16to8_reads [0x61, 0xD83D] = [0, 1, 2] := by
  decide

/-- With a loop test left for every position from `pos` on, the hexadecimal loop of `atoi`
returns. -/
theorem atoi_hex_loop_returns (str : List Nat) :
    ∀ (fuel pos : Nat) (total : Int), str.length - pos < fuel →
      ∃ n, atoi_hex_loop str fuel pos total = Run.ret n := by
  intro fuel
  induction fuel with
  | zero =>
    intro pos total h
    exact absurd h (by omega)
  | succ k ih =>
    intro pos total h
    rw [atoi_hex_loop]
    by_cases hpos : pos < str.length
    · rw [if_pos hpos]
      obtain ⟨c, hc⟩ : ∃ c, str[pos]? = some c := ⟨str[pos], List.getElem?_eq_getElem hpos⟩
      rw [hc]
      simp only
      split_ifs
      · exact ih _ _ (by omega)
      · exact ih _ _ (by omega)
      · exact ih _ _ (by omega)
      · exact ⟨_, rfl⟩
    · rw [if_neg hpos]
      exact ⟨_, rfl⟩

/-- With a loop test left for every position from `pos` on, the decimal loop of `atoi`
returns. -/
theorem atoi_dec_loop_returns (str : List Nat) :
    ∀ (fuel pos : Nat) (total : Int), str.length - pos < fuel →
      ∃ n, atoi_dec_loop str fuel pos total = Run.ret n := by
  intro fuel
  induction fuel with
  | zero =>
    intro pos total h
    exact absurd h (by omega)
  | succ k ih =>
    intro pos total h
    rw [atoi_dec_loop]
    by_cases hpos : pos < str.length
    · rw [if_pos hpos]
      obtain ⟨c, hc⟩ : ∃ c, str[pos]? = some c := ⟨str[pos], List.getElem?_eq_getElem hpos⟩
      rw [hc]
      simp only
      split_ifs
      · exact ih _ _ (by omega)
      · exact ⟨_, rfl⟩
    · rw [if_neg hpos]
      exact ⟨_, rfl⟩

theorem atoi_is_hex_returns (c0 : Nat) (rest : List Nat) :
    ∃ b, atoi_is_hex (c0 :: rest) = Run.ret b := by
  cases rest with
  | nil => exact ⟨false, by simp [atoi_is_hex]⟩
  | cons c1 r =>
    by_cases h0 : c0 = 0x30
    · exact ⟨decide (c1 = 0x78 ∨ c1 = 0x58), by simp [atoi_is_hex, h0]⟩
    · exact ⟨false, by simp [atoi_is_hex, h0]⟩

/-- On a view that is not empty, the part of `atoi` after `find_nonspace` returns an
integer. -/
theorem atoi_body_returns (c0 : Nat) (rest : List Nat) :
    ∃ n, atoi_body (c0 :: rest) = Run.ret n := by
  obtain ⟨b, hb⟩ := atoi_is_hex_returns c0 rest
  rw [atoi_body, hb]
  simp only [Run.bind, List.getElem?_cons_zero]
  cases b with
  | true =>
    simp only [if_true]
    exact atoi_hex_loop_returns _ _ _ _ (by omega)
  | false =>
    simp only [Bool.false_eq_true, if_false]
    split_ifs
    · obtain ⟨n, hn⟩ := atoi_dec_loop_returns (c0 :: rest) ((c0 :: rest).length + 1) 1 0
        (by omega)
      exact ⟨_, by rw [hn]; rfl⟩
    · exact atoi_dec_loop_returns _ _ _ _ (by omega)
    · exact atoi_dec_loop_returns _ _ _ _ (by omega)

/-- C32 (code bug). The function `atoi` is not total: on a string that is not empty and
holds whitespace characters only it reads `str[0]` of the empty view that `find_nonspace`
returned, a character outside that view, and returns no integer; these strings are the
only ones on which it does so, on every other string it returns an integer with every
read inside the string. -/
theorem atoi_total_except_whitespace (isspace : Nat → Int) (str : List Nat) :
    (atoi isspace str = Run.out_of_range ↔
      (str ≠ [] ∧ ∀ c ∈ str, is_whitespace isspace c = true)) ∧
    ((∃ n, atoi isspace str = Run.ret n) ↔
      ¬ (str ≠ [] ∧ ∀ c ∈ str, is_whitespace isspace c = true)) ∧
    atoi c_isspace [0x09, 0x0A] = Run.out_of_range ∧
    ¬ ∀ s, ∃ n, atoi c_isspace s = Run.ret n := by
  have hbad : (str ≠ [] ∧ ∀ c ∈ str, is_whitespace isspace c = true) →
      atoi isspace str = Run.out_of_range :=
    fun h => atoi_all_whitespace isspace str h.1 h.2
  have hgood : ¬ (str ≠ [] ∧ ∀ c ∈ str, is_whitespace isspace c = true) →
      ∃ n, atoi isspace str = Run.ret n := by
    intro h
    by_cases he : str = []
    · subst he
      exact ⟨0, rfl⟩
    · have hne : str.isEmpty = false := by
        cases str with
        | nil => exact absurd rfl he
        | cons _ _ => rfl
      rw [atoi, hne, find_nonspace_eq]
      simp only [Bool.false_eq_true, if_false, Run.bind]
      cases hd : str.dropWhile (fun c => is_whitespace isspace c) with
      | nil =>
        exfalso
        apply h
        refine ⟨he, ?_⟩
        intro c hc
        have := List.dropWhile_eq_nil_iff.1 hd
        exact this c hc
      | cons c0 rest => exact atoi_body_returns c0 rest
  have h2 : atoi c_isspace [0x09, 0x0A] = Run.out_of_range :=
    atoi_all_whitespace c_isspace [0x09, 0x0A] (by decide) (by decide)
  refine ⟨⟨?_, hbad⟩, ⟨?_, hgood⟩, h2, ?_⟩
  · intro h
    by_contra hn
    obtain ⟨n, hr⟩ := hgood hn
    rw [hr] at h
    cases h
  · rintro ⟨n, hr⟩ hb
    rw [hbad hb] at hr
    cases hr
  · intro hall
    obtain ⟨n, hr⟩ := hall [0x09, 0x0A]
    rw [h2] at hr
    cases hr

/-- C33 (code bug). On a string that is not empty, at the position that is the length of
the string, `is_valid_filechar` passes its test `pos > str.length()` and calls
`str.at(pos)`, which fails with `std::out_of_range`; it returns false on the empty string
and at every position above the length. -/
theorem is_valid_filechar_at_length (str : List Nat) :
    (str ≠ [] → is_valid_filechar str str.length = Run.out_of_range) ∧
    (∀ pos, pos > str.length → is_valid_filechar str pos = Run.ret false) ∧
    (∀ pos, is_valid_filechar [] pos = Run.ret false) ∧
    is_valid_filechar [0x61] 1 = Run.out_of_range := by
  refine ⟨?_, ?_, ?_, by decide⟩
  · intro hne
    have he : ¬ (str.isEmpty = true ∨ str.length > str.length) := by
      cases str with
      | nil => exact absurd rfl hne
      | cons _ _ => simp
    have hn : str[str.length]? = none := List.getElem?_eq_none_iff.2 (Nat.le_refl _)
    rw [is_valid_filechar, if_neg he, hn]
  · intro pos hpos
    rw [is_valid_filechar, if_pos (Or.inr hpos)]
  · intro pos
    simp [is_valid_filechar]

end ttlib
